import Mathlib

/-!
# libcheats: the cheat-text parser and its data model

A shallow embedding of `src/parser.c`, `src/libcheats.c` and the data model of
`include/cheatlist.h`.  C strings are lists of characters (the characters before
the terminating NUL); the tail queues of `cheatlist.h` are lists in insertion
order; a pointer to a node of a queue is the index of that node.
-/

namespace Libcheats

/-! ## Constants -/

/-- Max line length to parse (`LINE_MAX` of parser.c). -/
def LINE_MAX : Nat := 511

/-- Token value `TOK_NO`. -/
def TOK_NO : Nat := 0
/-- Token value `TOK_GAME_TITLE`. -/
def TOK_GAME_TITLE : Nat := 1
/-- Token value `TOK_CHEAT_DESC`. -/
def TOK_CHEAT_DESC : Nat := 2
/-- Token value `TOK_CHEAT_CODE`. -/
def TOK_CHEAT_CODE : Nat := 4

/-- Max game title length (`GAME_TITLE_MAX` of cheatlist.h). -/
def GAME_TITLE_MAX : Nat := 80
/-- Max cheat description length (`CHEAT_DESC_MAX` of cheatlist.h). -/
def CHEAT_DESC_MAX : Nat := 80

/-- The double quote character. -/
def DQUOTE : Char := Char.ofNat 34
/-- The line feed character (`LF`). -/
def LF : Char := Char.ofNat 10
/-- The slash character. -/
def SLASH : Char := Char.ofNat 47

/-! ## C library character classes, "C" locale -/

/-- The `isspace` of ctype.h: space, and the controls HT, LF, VT, FF, CR. -/
def isspace (c : Char) : Bool :=
  c.toNat == 32 || (decide (9 ≤ c.toNat) && decide (c.toNat ≤ 13))

/-- The `isxdigit` of ctype.h: 0-9, A-F, a-f. -/
def isxdigit (c : Char) : Bool :=
  (decide (48 ≤ c.toNat) && decide (c.toNat ≤ 57)) ||
  (decide (65 ≤ c.toNat) && decide (c.toNat ≤ 70)) ||
  (decide (97 ≤ c.toNat) && decide (c.toNat ≤ 102))

/-! ## Line classifier (parser.c) -/

/-- The function `tok2str`: the name of a token value, `none` for the NULL of the
default case. -/
def tok2str (tok : Nat) : Option String :=
  if tok = TOK_GAME_TITLE then some "game title"
  else if tok = TOK_CHEAT_DESC then some "cheat description"
  else if tok = TOK_CHEAT_CODE then some "cheat code"
  else none

/-- The function `is_cmt_str`: `s[0] == '/' && s[1] == '/'` (the read of `s[1]`
stops at the terminator when `s` has one character). -/
def is_cmt_str (s : List Char) : Bool :=
  match s with
  | a :: b :: _ => a == SLASH && b == SLASH
  | _ => false

/-- The function `is_game_title`: `len > 2 && *s == '"' && s[len - 1] == '"'`. -/
def is_game_title (s : List Char) : Bool :=
  decide (s.length > 2) && s.head? == some DQUOTE && s.getLast? == some DQUOTE

/-- The `while` loop of `is_cheat_code` with its counters `w` (words closed by a
white space) and `i` (characters of the current word); `none` is the early
`return 0` on a character that is neither white space nor a hex digit. -/
def is_cheat_code_loop : List Char → Nat → Nat → Option Nat
  | [], w, _ => some w
  | c :: s, w, i =>
    if isspace c then
      (if i > 0 then is_cheat_code_loop s (w + 1) 0 else is_cheat_code_loop s w i)
    else if !isxdigit c then none
    else is_cheat_code_loop s w (i + 1)

/-- The function `is_cheat_code`: `w < 3 && w > 0` after the loop. -/
def is_cheat_code (s : List Char) : Bool :=
  match is_cheat_code_loop s 0 0 with
  | none => false
  | some w => decide (w < 3) && decide (w > 0)

/-- The function `get_token`; the argument `top` is not read. -/
def get_token (s : List Char) (_top : Int) : Nat :=
  if is_game_title s then TOK_GAME_TITLE
  else if is_cheat_code s then TOK_CHEAT_CODE
  else TOK_CHEAT_DESC

/-- The function `next_token`: the set of tokens (a bit mask) expected after `tok`. -/
def next_token (tok : Nat) : Nat :=
  if tok = TOK_GAME_TITLE then TOK_GAME_TITLE ||| TOK_CHEAT_DESC
  else if tok = TOK_CHEAT_DESC ∨ tok = TOK_CHEAT_CODE then
    TOK_GAME_TITLE ||| TOK_CHEAT_DESC ||| TOK_CHEAT_CODE
  else TOK_NO

/-! ## Data model (cheatlist.h) -/

/-- The struct `code_t`: three 32-bit fields. -/
structure code_t where
  addr : Nat
  val : Nat
  tag : Nat
  deriving DecidableEq, Repr

/-- The struct `cheat_t`; `codes` is the tail queue of its codes, head first. -/
structure cheat_t where
  desc : List Char
  codes : List code_t
  tag : Nat
  deriving DecidableEq, Repr

/-- The struct `game_t`; `cheats` is the tail queue of its cheats, head first. -/
structure game_t where
  title : List Char
  cheats : List cheat_t
  tag : Nat
  deriving DecidableEq, Repr

/-- The type `gamelist_t`: the tail queue of games, head first. -/
abbrev gamelist_t := List game_t

/-- Modelled from the spec: `make_game` is declared in cheatlist.h and defined outside
src/.  Spec, data model: a Game has a title of bounded text, at most 80 characters,
silently truncated; a NULL cheat list gives an empty queue.  Allocation failure is
not modelled. -/
def make_game (title : List Char) (cheats : Option (List cheat_t)) (tag : Nat) : game_t :=
  { title := title.take GAME_TITLE_MAX, cheats := cheats.getD [], tag := tag % 2 ^ 32 }

/-- Modelled from the spec: `make_cheat` is declared in cheatlist.h and defined outside
src/.  Spec, data model: a Cheat has a description of bounded text, at most 80
characters, silently truncated; a NULL code list gives an empty queue.  Allocation
failure is not modelled. -/
def make_cheat (desc : List Char) (codes : Option (List code_t)) (tag : Nat) : cheat_t :=
  { desc := desc.take CHEAT_DESC_MAX, codes := codes.getD [], tag := tag % 2 ^ 32 }

/-- The unsigned integer a byte array denotes when read as the hex string it was
decoded from (most significant byte first). -/
def bytes2nat (bytes : List Nat) : Nat :=
  bytes.foldl (fun acc b => 256 * acc + b) 0

/-- Modelled from the spec: `make_code` with the five arguments `__make_code` passes
(two byte arrays with their lengths, and a tag) is defined outside src/; cheatlist.h
gives `code_t` three 32-bit fields.  Spec, line classifier: any word is parsed as a
base-16 unsigned integer, overflow beyond 32 bits being truncation to 32 bits.
Allocation failure is not modelled. -/
def make_code (addr : List Nat) (addr_len : Nat) (val : List Nat) (val_len : Nat)
    (tag : Nat) : code_t :=
  { addr := bytes2nat (addr.take addr_len) % 2 ^ 32,
    val := bytes2nat (val.take val_len) % 2 ^ 32,
    tag := tag % 2 ^ 32 }

/-! ## String helpers of mystring.h -/

/-- Modelled from the spec: `term_str` is declared in mystring.h, outside src/.  Spec,
parse driver step 2: remove everything from the first occurrence of the comment
marker to the end of the line; the marker test is the callback. -/
def term_str : List Char → (List Char → Bool) → List Char
  | [], _ => []
  | c :: s, callback => if callback (c :: s) then [] else c :: term_str s callback

/-- Modelled from the spec: `trim_str` is declared in mystring.h, outside src/.  Spec,
parse driver step 2: trim leading and trailing white space. -/
def trim_str (s : List Char) : List Char :=
  ((s.dropWhile isspace).reverse.dropWhile isspace).reverse

/-- Modelled from the spec: `is_empty_str` is declared in mystring.h, outside src/.
Spec, testable properties: blank lines contribute no tokens; a blank string is one
with white space only. -/
def is_empty_str (s : List Char) : Bool := s.all isspace

/-- Modelled from the spec: `is_empty_substr` is declared in mystring.h, outside src/;
as `is_empty_str` on the first `count` characters. -/
def is_empty_substr (s : List Char) (count : Nat) : Bool := (s.take count).all isspace

/-- Modelled from the spec: `chr_idx` is declared in mystring.h, outside src/.  Spec,
external interfaces: the buffer is split on line-feed characters; the index of the
first occurrence of `c` in `s`, or -1 when there is none. -/
def chr_idx (s : List Char) (c : Char) : Int :=
  if c ∈ s then (s.indexOf c : Int) else -1

/-! ## Building nodes from lines (parser.c) -/

/-- Value of a hexadecimal digit (0 for any other character). -/
def hexval (c : Char) : Nat :=
  if 48 ≤ c.toNat ∧ c.toNat ≤ 57 then c.toNat - 48
  else if 65 ≤ c.toNat ∧ c.toNat ≤ 70 then c.toNat - 55
  else if 97 ≤ c.toNat ∧ c.toNat ≤ 102 then c.toNat - 87
  else 0

/-- A string of hexadecimal digits read as a base-16 unsigned integer. -/
def hexnum (s : List Char) : Nat :=
  s.foldl (fun acc c => 16 * acc + hexval c) 0

/-- The function `hexstr2bytes`: `strlen(s) / 2` bytes, the byte `i` converted by
`sscanf(s, "%2hhx", ...)` from the two characters at `2 * i`; a last character of an
odd-length string is not converted.  The conversion is that of a string of
hexadecimal digits, the only strings `sscanf` stores from a cheat-code line. -/
def hexstr2bytes : List Char → List Nat
  | a :: b :: s => (16 * hexval a + hexval b) :: hexstr2bytes s
  | _ => []

/-- The function `__make_game`: `strncpy(buf, title + 1, strlen(title) - 2)`, the terminator
written at `buf[strlen(title) - 2]`, then `make_game(buf, NULL, 0)`.  The array is
`buf[GAME_TITLE_MAX + 1]` and the copy has no bound: `none` when the copy or the
terminator goes past the end of `buf`, which is when more than `GAME_TITLE_MAX` characters
stand between the first and the last character of `title` (or `strlen(title) - 2` wraps
around). -/
def __make_game (title : List Char) : Option game_t :=
  if 2 ≤ title.length ∧ title.length - 2 ≤ GAME_TITLE_MAX then
    some (make_game ((title.drop 1).take (title.length - 2)) none 0)
  else none

/-- The function `__make_cheat`: `make_cheat(desc, NULL, 0)`. -/
def __make_cheat (desc : List Char) : cheat_t :=
  make_cheat desc none 0

/-- The first `while` loop of `__make_code`: `w` is incremented on every white-space
character, since the test `i > 0` is on the array `i` and holds always; the counts
`i[w]` of hex digits are never read. -/
def make_code_count : List Char → Nat → Nat
  | [], w => w
  | c :: s, w =>
    if w < 3 then
      (if isxdigit c then make_code_count s w
       else if isspace c then make_code_count s (w + 1)
       else make_code_count s w)
    else w

/-- The conversion `%s` of sscanf: skip white space, then the longest run of
characters that are not white space; `none` at the end of the input. -/
def scan_s (s : List Char) : Option (List Char × List Char) :=
  let t := s.dropWhile isspace
  if t = [] then none
  else some (t.takeWhile (fun c => !isspace c), t.dropWhile (fun c => !isspace c))

/-- The conversion `%08x` of sscanf on a line of hex digits and white space: skip
white space, then at most 8 hex digits; `none` when there is no digit. -/
def scan_08x (s : List Char) : Option (Nat × List Char) :=
  let t := s.dropWhile isspace
  let d := (t.take 8).takeWhile isxdigit
  if d = [] then none else some (hexnum d, t.drop d.length)

/-- The call `sscanf(line, "%s %s", a1, a2)`: the contents of `a1` and `a2` after it;
a buffer whose conversion does not happen keeps its contents. -/
def sscanf_s_s (line a1 a2 : List Char) : List Char × List Char :=
  match scan_s line with
  | none => (a1, a2)
  | some (x, r) =>
    match scan_s r with
    | none => (x, a2)
    | some (y, _) => (x, y)

/-- The call `sscanf(line, "%08x %s %s", &tag, a1, a2)`: the values of `tag`, `a1`
and `a2` after it. -/
def sscanf_x_s_s (line : List Char) (tag : Nat) (a1 a2 : List Char) :
    Nat × List Char × List Char :=
  match scan_08x line with
  | none => (tag, a1, a2)
  | some (t, r) =>
    let p := sscanf_s_s r a1 a2
    (t, p.1, p.2)

/-- The function `__make_code`.  The arrays `a1` and `a2` are not initialised in C;
their contents on entry are the arguments `a1` and `a2`. -/
def __make_code (a1 a2 : List Char) (s : List Char) : code_t :=
  let w := make_code_count s 0
  let r : Nat × List Char × List Char :=
    if w = 1 then (0, sscanf_s_s s a1 a2)
    else if w > 1 then sscanf_x_s_s s 0 a1 a2
    else (0, a1, a2)
  make_code (hexstr2bytes r.2.1) (r.2.1.length / 2) (hexstr2bytes r.2.2) (r.2.2.length / 2) r.1

/-! ## Parser state and the parse of one line (parser.c) -/

/-- The struct `parser_ctx_t`.  The pointer `game` is the index of the game in the
game list, `cheat` the indices of the game and of the cheat in it, `code` the indices
of game, cheat and code; `none` is NULL. -/
structure parser_ctx_t where
  top : Int
  next : Nat
  game : Option Nat
  cheat : Option (Nat × Nat)
  code : Option (Nat × Nat × Nat)
  deriving DecidableEq, Repr

/-- The function `init_parser` of parser.c; the field `top` is left as it is. -/
def init_parser_ctx (ctx : parser_ctx_t) : parser_ctx_t :=
  { ctx with next := TOK_GAME_TITLE, game := none, cheat := none, code := none }

/-- What `parse_err` stores in the globals `parse_error_line` and `parse_error_text`. -/
structure parse_error where
  line : Nat
  text : String
  deriving DecidableEq, Repr

/-- The function `parse_err` for the format "parse error: %s invalid here". -/
def parse_err (nl : Nat) (tok : Nat) : parse_error :=
  { line := nl, text := "parse error: " ++ (tok2str tok).getD "(null)" ++ " invalid here" }

/-- Result of `parse_line`: return 0 with the new context and list, return -1 with the
stored error (context and list untouched), a dereference of a NULL pointer (`fault`), or
a write past the end of the array `buf` of `__make_game` (`overrun`). -/
inductive line_result where
  | ok (ctx : parser_ctx_t) (list : gamelist_t)
  | fail (err : parse_error)
  | fault
  | overrun
  deriving DecidableEq, Repr

/-- The function `parse_line`.  `a1` and `a2` are the contents of the arrays of
`__make_code` on entry. -/
def parse_line (a1 a2 : List Char) (line : List Char) (nl : Nat) (ctx : parser_ctx_t)
    (list : gamelist_t) : line_result :=
  let tok := get_token line ctx.top
  if ctx.next &&& tok = 0 then
    .fail (parse_err nl tok)
  else if tok = TOK_GAME_TITLE then
    match __make_game line with
    | none => .overrun
    | some game =>
      .ok { ctx with game := some list.length, next := next_token tok } (list ++ [game])
  else if tok = TOK_CHEAT_DESC then
    match ctx.game with
    | none => .fault
    | some g =>
      match list[g]? with
      | none => .fault
      | some game =>
        .ok { ctx with cheat := some (g, game.cheats.length), next := next_token tok }
          (list.set g { game with cheats := game.cheats ++ [__make_cheat line] })
  else if tok = TOK_CHEAT_CODE then
    match ctx.cheat with
    | none => .fault
    | some (g, c) =>
      match list[g]? with
      | none => .fault
      | some game =>
        match game.cheats[c]? with
        | none => .fault
        | some cheat =>
          let cheat1 : cheat_t := { cheat with codes := cheat.codes ++ [__make_code a1 a2 line] }
          .ok { ctx with code := some (g, c, cheat.codes.length), next := next_token tok }
            (list.set g { game with cheats := game.cheats.set c cheat1 })
  else
    .ok { ctx with next := next_token tok } list

/-! ## Parse drivers (parser.c) -/

/-- Result of a parse driver: it returned `ret` leaving the game list `list`, the
local context `ctx` and, when `parse_err` was called, the stored error `err`; or it
dereferenced a NULL pointer or read past the terminator of the buffer (`fault`); or
`__make_game` wrote past the end of its array `buf` (`overrun`); or the model ran out of
fuel. -/
inductive parse_outcome where
  | done (ret : Int) (ctx : parser_ctx_t) (list : gamelist_t) (err : Option parse_error)
  | fault
  | overrun
  | nofuel
  deriving DecidableEq, Repr

/-- The local `parser_ctx_t ctx` of the drivers before `init_parser`. -/
def uninit_ctx : parser_ctx_t :=
  { top := 0, next := 0, game := none, cheat := none, code := none }

/-- The screener of the drivers: `term_str(line, is_cmt_str); trim_str(line)`. -/
def screen (line : List Char) : List Char :=
  trim_str (term_str line is_cmt_str)

/-- The `while` loop of `parse_stream`.  The stream is the sequence of the strings the
successive calls of `fgets` return (end of file after the last); `junk nl` gives the
contents of the arrays of `__make_code` when line `nl` is parsed. -/
def parse_stream_loop (junk : Nat → List Char × List Char) :
    List (List Char) → Nat → parser_ctx_t → gamelist_t → parse_outcome
  | [], _, ctx, list => .done 0 ctx list none
  | line :: stream, nl, ctx, list =>
    if !is_empty_str line then
      if (screen line).length > 0 then
        match parse_line (junk nl).1 (junk nl).2 (screen line) nl ctx list with
        | .fail e => .done (-1) ctx list (some e)
        | .fault => .fault
        | .overrun => .overrun
        | .ok ctx1 list1 => parse_stream_loop junk stream (nl + 1) ctx1 list1
      else parse_stream_loop junk stream (nl + 1) ctx list
    else parse_stream_loop junk stream (nl + 1) ctx list

/-- The function `parse_stream` for non-NULL arguments. -/
def parse_stream (junk : Nat → List Char × List Char) (list : gamelist_t)
    (stream : List (List Char)) : parse_outcome :=
  parse_stream_loop junk stream 1 (init_parser_ctx uninit_ctx) list

/-- The `while (*buf)` loop of `parse_buf`; `line` is the contents of the local array
`line`, which the scanner reads (`strlen(line)`) when no line feed is left.  Each turn
moves `buf` forward, so `fuel` above the length of `buf` is never used up. -/
def parse_buf_loop (junk : Nat → List Char × List Char) :
    Nat → List Char → List Char → Nat → parser_ctx_t → gamelist_t → parse_outcome
  | 0, _, _, _, _, _ => .nofuel
  | fuel + 1, buf, line, nl, ctx, list =>
    if buf = [] then .done 0 ctx list none
    else
      let idx := chr_idx buf LF
      let len : Nat :=
        if idx < 0 then line.length
        else if idx > (LINE_MAX : Int) then LINE_MAX
        else idx.toNat
      if !is_empty_substr buf len then
        let line1 := screen (buf.take len)
        if line1.length > 0 then
          match parse_line (junk nl).1 (junk nl).2 line1 nl ctx list with
          | .fail e => .done (-1) ctx list (some e)
          | .fault => .fault
          | .overrun => .overrun
          | .ok ctx1 list1 =>
            if len < buf.length then
              parse_buf_loop junk fuel (buf.drop (len + 1)) line1 (nl + 1) ctx1 list1
            else .fault
        else
          if len < buf.length then
            parse_buf_loop junk fuel (buf.drop (len + 1)) line1 (nl + 1) ctx list
          else .fault
      else
        if len < buf.length then
          parse_buf_loop junk fuel (buf.drop (len + 1)) line (nl + 1) ctx list
        else .fault

/-- The function `parse_buf` for non-NULL arguments; `line0` is the contents of the
local array `line` on entry (not initialised in C). -/
def parse_buf (junk : Nat → List Char × List Char) (line0 : List Char)
    (list : gamelist_t) (buf : List Char) : parse_outcome :=
  parse_buf_loop junk (buf.length + 1) buf line0 1 (init_parser_ctx uninit_ctx) list

/-! ## Serializer (libcheats.c) -/

/-- An upper-case hexadecimal digit. -/
def hexdigit (n : Nat) : Char :=
  if n % 16 < 10 then Char.ofNat (48 + n % 16) else Char.ofNat (55 + n % 16)

/-- The conversion `%08X` of a 32-bit value: eight upper-case digits, zero padded. -/
def fmt_08X (n : Nat) : List Char :=
  let m := n % 2 ^ 32
  [hexdigit (m / 16 ^ 7), hexdigit (m / 16 ^ 6), hexdigit (m / 16 ^ 5), hexdigit (m / 16 ^ 4),
   hexdigit (m / 16 ^ 3), hexdigit (m / 16 ^ 2), hexdigit (m / 16), hexdigit m]

/-- The line of a code: the format "%08X %08X" and a line feed. -/
def write_code (code : code_t) : List Char :=
  fmt_08X code.addr ++ [' '] ++ fmt_08X code.val ++ [LF]

/-- The lines of a cheat: the description, then its codes. -/
def write_cheat (cheat : cheat_t) : List Char :=
  cheat.desc ++ [LF] ++ (cheat.codes.map write_code).flatten

/-- The lines of a game: the quoted title, its cheats, and the separator. -/
def write_game (game : game_t) : List Char :=
  [DQUOTE] ++ game.title ++ [DQUOTE, LF] ++ (game.cheats.map write_cheat).flatten ++
    [LF] ++ "//--------".toList ++ [LF, LF]

/-- The text the loops of `cheats_write` print to the stream for the games of a
cheats object. -/
def cheats_write (games : gamelist_t) : List Char :=
  (games.map write_game).flatten

/-! ## Notions the claims are stated with -/

/-- The white-space separated words of a line. -/
def words (s : List Char) : List (List Char) :=
  (s.splitOnP (fun c => isspace c)).filter (fun w => !w.isEmpty)

/-- Number of words of `s` that start in `s`; `inw` tells whether `s` continues a word. -/
def word_starts : Bool → List Char → Nat
  | _, [] => 0
  | inw, c :: s =>
    if isspace c then word_starts false s
    else (if inw then 0 else 1) + word_starts true s

/-- Number of words closed by a white-space character of `s`. -/
def word_closes : Bool → List Char → Nat
  | _, [] => 0
  | inw, c :: s =>
    if isspace c then (if inw then 1 else 0) + word_closes false s
    else word_closes true s

/-- Whether the text ends inside a word; `inw` is the answer for the empty text. -/
def ends_in_word : Bool → List Char → Bool
  | inw, [] => inw
  | _, c :: s => ends_in_word (!isspace c) s

/-- The tokens of an expected set given as a bit mask. -/
def tok_set (mask : Nat) : List Nat :=
  [TOK_GAME_TITLE, TOK_CHEAT_DESC, TOK_CHEAT_CODE].filter (fun t => mask &&& t != 0)

/-- The parser states reachable from `init_parser_ctx` by successful calls of `parse_line`. -/
inductive reachable : parser_ctx_t → gamelist_t → Prop where
  | init (ctx0 : parser_ctx_t) (list0 : gamelist_t) : reachable (init_parser_ctx ctx0) list0
  | step {ctx ctx1 : parser_ctx_t} {list list1 : gamelist_t} (a1 a2 line : List Char)
      (nl : Nat) : reachable ctx list → parse_line a1 a2 line nl ctx list = .ok ctx1 list1 →
      reachable ctx1 list1

/-- A significant raw line: not blank, and not empty after comment stripping and
trimming; the other lines are skipped by the drivers. -/
def significant (line : List Char) : Bool :=
  !is_empty_str line && decide ((screen line).length > 0)

/-- The token of a raw line: that of the screened line. -/
def line_token (line : List Char) : Nat := get_token (screen line) 0

/-- The token sequence of the significant lines of an input. -/
def tokens (stream : List (List Char)) : List Nat :=
  (stream.filter significant).map line_token

/-- The grammar as the claim words it: no token at all, or a first token GameTitle and
no CheatCode immediately after a GameTitle. -/
def grammar_ok (toks : List Nat) : Prop :=
  toks = [] ∨ (toks.head? = some TOK_GAME_TITLE ∧
    toks.Chain' (fun a b => ¬ (a = TOK_GAME_TITLE ∧ b = TOK_CHEAT_CODE)))

instance (toks : List Nat) : Decidable (grammar_ok toks) := by
  unfold grammar_ok; infer_instance

/-- The grammar as the state machine runs it: every token is in the expected set left
by the token before it. -/
def accepts : Nat → List Nat → Bool
  | _, [] => true
  | next, t :: ts => (next &&& t != 0) && accepts (next_token t) ts

/-- The expected set after a token sequence. -/
def expected_after : Nat → List Nat → Nat
  | next, [] => next
  | _, t :: ts => expected_after (next_token t) ts

/-- The node a significant line stands for. -/
inductive item where
  | title (g : game_t)
  | desc (c : cheat_t)
  | code (c : code_t)
  deriving DecidableEq, Repr

/-- The game of a title line whose text between the quotes fits the array `buf` of
`__make_game`: the game `make_game` builds from that text. -/
def title_game (title : List Char) : game_t :=
  make_game ((title.drop 1).take (title.length - 2)) none 0

/-- The node `parse_line` builds from a screened line: by `__make_game` (when the title
fits), `__make_code` or `__make_cheat`, after its token. -/
def node (a1 a2 : List Char) (s : List Char) : item :=
  if get_token s 0 = TOK_GAME_TITLE then .title (title_game s)
  else if get_token s 0 = TOK_CHEAT_CODE then .code (__make_code a1 a2 s)
  else .desc (__make_cheat s)

/-- The node built from a raw line: that of the screened line. -/
def line_item (a1 a2 : List Char) (line : List Char) : item :=
  node a1 a2 (screen line)

/-- The nodes of the significant lines of an input whose first line has number `nl`, in
textual order. -/
def items (junk : Nat → List Char × List Char) : Nat → List (List Char) → List item
  | _, [] => []
  | nl, line :: stream =>
    if significant line then line_item (junk nl).1 (junk nl).2 line :: items junk (nl + 1) stream
    else items junk (nl + 1) stream

/-- The codes at the head of a sequence of nodes: those up to the next description or
title. -/
def leading_codes : List item → List code_t
  | .code c :: rest => c :: leading_codes rest
  | _ => []

/-- The cheats of the nodes up to the next title: each description with the codes that
follow it. -/
def leading_cheats : List item → List cheat_t
  | [] => []
  | .title _ :: _ => []
  | .desc c :: rest => { c with codes := c.codes ++ leading_codes rest } :: leading_cheats rest
  | .code _ :: rest => leading_cheats rest

/-- The grouping of a sequence of nodes in textual order: each title with the cheats up
to the next title. -/
def group : List item → gamelist_t
  | [] => []
  | .title g :: rest => { g with cheats := g.cheats ++ leading_cheats rest } :: group rest
  | .desc _ :: rest => group rest
  | .code _ :: rest => group rest

/-- Append a node to the open parent: a game to the list, a cheat to the last game, a
code to the last cheat of the last game. -/
def absorb (list : gamelist_t) : item → gamelist_t
  | .title g => list ++ [g]
  | .desc c =>
    match list.getLast? with
    | none => list
    | some g => list.dropLast ++ [{ g with cheats := g.cheats ++ [c] }]
  | .code k =>
    match list.getLast? with
    | none => list
    | some g =>
      match g.cheats.getLast? with
      | none => list
      | some c =>
        list.dropLast ++
          [{ g with cheats := g.cheats.dropLast ++ [{ c with codes := c.codes ++ [k] }] }]

/-- Invariant of the parser state: when a description is expected the current game is
the last of the list, and when a code is expected the current cheat is the last of that
game. -/
def ctx_wf (ctx : parser_ctx_t) (list : gamelist_t) : Prop :=
  ctx.next = 1 ∨
  (ctx.next = 3 ∧ ∃ init g, list = init ++ [g] ∧ ctx.game = some init.length) ∨
  (ctx.next = 7 ∧ ∃ init g cinit c, list = init ++ [g] ∧ g.cheats = cinit ++ [c] ∧
    ctx.game = some init.length ∧ ctx.cheat = some (init.length, cinit.length))

/-- The text of a sequence of raw lines, each ended by a line feed. -/
def unlines (lines : List (List Char)) : List Char :=
  (lines.map (fun l => l ++ [LF])).flatten

/-- Raw lines as the scanner of `parse_buf` delivers them: no line feed inside, at most
`LINE_MAX` characters. -/
def raw_lines (lines : List (List Char)) : Prop :=
  ∀ l ∈ lines, LF ∉ l ∧ l.length ≤ LINE_MAX

instance (lines : List (List Char)) : Decidable (raw_lines lines) := by
  unfold raw_lines; infer_instance

/-! ## Auxiliary notions of the proofs -/

/-- A token value of the classifier. -/
def is_tok (t : Nat) : Prop := t = TOK_GAME_TITLE ∨ t = TOK_CHEAT_DESC ∨ t = TOK_CHEAT_CODE

/-- A title node that comes without cheats. -/
def fresh : item → Prop
  | .title g => g.cheats = []
  | _ => True

/-- The cheats of a game after the nodes up to the next title are absorbed: the leading
codes go to the last cheat, then come the cheats of the descriptions. -/
def extend_cheats (cs : List cheat_t) (its : List item) : List cheat_t :=
  match cs.getLast? with
  | none => leading_cheats its
  | some c => cs.dropLast ++ [{ c with codes := c.codes ++ leading_codes its }] ++ leading_cheats its

/-- A word of hexadecimal digits. -/
def hexword (w : List Char) : Prop := w ≠ [] ∧ ∀ c ∈ w, isxdigit c = true

/-- A run of white space. -/
def blanks (ws : List Char) : Prop := ws ≠ [] ∧ ∀ c ∈ ws, isspace c = true

instance (w : List Char) : Decidable (hexword w) := by unfold hexword; infer_instance
instance (w : List Char) : Decidable (blanks w) := by unfold blanks; infer_instance

/-- The five-line input of the spec: two games, a cheat with a code, a cheat without. -/
def five_lines : List (List Char) :=
  [[DQUOTE] ++ "Game A".toList ++ [DQUOTE], "Cheat X".toList, "11112222 33334444".toList,
   [DQUOTE] ++ "Game B".toList ++ [DQUOTE], "Cheat Y".toList]

/-- The collection the spec gives for the five-line input. -/
def five_lines_result : gamelist_t :=
  [{ title := "Game A".toList,
     cheats := [{ desc := "Cheat X".toList,
                  codes := [{ addr := 0x11112222, val := 0x33334444, tag := 0 }], tag := 0 }],
     tag := 0 },
   { title := "Game B".toList,
     cheats := [{ desc := "Cheat Y".toList, codes := [], tag := 0 }], tag := 0 }]

/-! ## Notions of the write and parse round trip -/

/-- A code with its tag cleared. -/
def erase_code_tag (k : code_t) : code_t := { addr := k.addr, val := k.val, tag := 0 }

/-- A cheat with the tags of its codes cleared. -/
def erase_cheat_tags (c : cheat_t) : cheat_t :=
  { desc := c.desc, codes := c.codes.map erase_code_tag, tag := c.tag }

/-- A game with the tags of its codes cleared. -/
def erase_game_tags (g : game_t) : game_t :=
  { title := g.title, cheats := g.cheats.map erase_cheat_tags, tag := g.tag }

/-- A collection with the tags of the codes cleared: the titles, descriptions, addresses
and values are kept, in order. -/
def erase_tags (list : gamelist_t) : gamelist_t := list.map erase_game_tags

/-- The line `cheats_write` prints for a code, without its line feed. -/
def code_line (k : code_t) : List Char := fmt_08X k.addr ++ ' ' :: fmt_08X k.val

/-- The lines `cheats_write` prints for a cheat. -/
def cheat_lines (c : cheat_t) : List (List Char) := c.desc :: c.codes.map code_line

/-- The lines `cheats_write` prints for a game. -/
def game_lines (g : game_t) : List (List Char) :=
  (DQUOTE :: g.title ++ [DQUOTE]) :: (g.cheats.map cheat_lines).flatten ++
    [[], "//--------".toList, []]

/-- The lines `cheats_write` prints for a game list. -/
def written_lines (list : gamelist_t) : List (List Char) := (list.map game_lines).flatten

/-- A text without two slashes in a row. -/
def cmt_free (s : List Char) : Prop := s.Chain' (fun a b => ¬ (a = SLASH ∧ b = SLASH))

/-- A description as the parser stores it from a line of at most 80 characters: a
screened, non-empty line that is a CheatDescription. -/
def good_desc (d : List Char) : Prop :=
  d ≠ [] ∧ d.length ≤ CHEAT_DESC_MAX ∧ LF ∉ d ∧ screen d = d ∧ get_token d 0 = TOK_CHEAT_DESC

/-- A title as the parser stores it. -/
def good_title (t : List Char) : Prop :=
  t ≠ [] ∧ t.length ≤ GAME_TITLE_MAX ∧ LF ∉ t ∧ cmt_free t

/-- A code with 32-bit fields. -/
def good_code (k : code_t) : Prop := k.addr < 2 ^ 32 ∧ k.val < 2 ^ 32

/-- A cheat as the parser builds it. -/
def good_cheat (c : cheat_t) : Prop :=
  c.tag = 0 ∧ good_desc c.desc ∧ ∀ k ∈ c.codes, good_code k

/-- A game as the parser builds it. -/
def good_game (g : game_t) : Prop :=
  g.tag = 0 ∧ good_title g.title ∧ ∀ c ∈ g.cheats, good_cheat c

/-- A node as the parser builds it. -/
def good_item : item → Prop
  | .title g => g.tag = 0 ∧ good_title g.title ∧ g.cheats = []
  | .desc c => c.tag = 0 ∧ good_desc c.desc ∧ c.codes = []
  | .code k => good_code k

/-- The nodes of the lines written for a cheat. -/
def flat_cheat (c : cheat_t) : List item :=
  .desc { desc := c.desc, codes := [], tag := 0 } ::
    c.codes.map (fun k => .code (erase_code_tag k))

/-- The nodes of the lines written for a game. -/
def flat_game (g : game_t) : List item :=
  .title { title := g.title, cheats := [], tag := 0 } :: (g.cheats.map flat_cheat).flatten

/-- The nodes of the lines written for a game list. -/
def flat_items (list : gamelist_t) : List item := (list.map flat_game).flatten

/-- The token of a node. -/
def item_tok : item → Nat
  | .title _ => TOK_GAME_TITLE
  | .desc _ => TOK_CHEAT_DESC
  | .code _ => TOK_CHEAT_CODE

/-- An input whose description line has 81 characters; its first 80 end in blanks. -/
def long_desc_lines : List (List Char) :=
  [[DQUOTE, 'G', DQUOTE], "AB CD".toList ++ List.replicate 75 ' ' ++ ['x']]

/-- The collection parsed from `long_desc_lines`: the description is cut to 80
characters. -/
def long_desc_result : gamelist_t :=
  [{ title := ['G'],
     cheats := [{ desc := "AB CD".toList ++ List.replicate 75 ' ', codes := [], tag := 0 }],
     tag := 0 }]

/-! ## Notions of the later claims -/

/-- A collection with every tag field cleared, those of games, cheats and codes. -/
def clear_tags (list : gamelist_t) : gamelist_t :=
  list.map (fun g =>
    { title := g.title,
      cheats := g.cheats.map (fun c =>
        { desc := c.desc, codes := c.codes.map erase_code_tag, tag := 0 }),
      tag := 0 })

/-! ## Library interface (libcheats.c) -/

/-- Modelled from the spec: the constants `CHEATS_TRUE` and `CHEATS_FALSE` of libcheats.h,
which is outside src/; libcheats.c documents them as the return value for success and for
error, and they are taken as two distinct values. -/
inductive cheats_ret where
  | CHEATS_TRUE
  | CHEATS_FALSE
  deriving DecidableEq, Repr

/-- Modelled from the spec: the struct `cheats_t` of libcheats.h, which is outside src/,
with the fields libcheats.c reads and writes: the game list and the text and line of the
last error. -/
structure cheats_t where
  games : gamelist_t
  error_text : String
  error_line : Int
  deriving DecidableEq, Repr

/-- The function `cheats_write` with its return value: the value returned and the stream
after the call; `none` is a NULL argument.  The results of `fprintf` are not read. -/
def cheats_write_ret (cheats : Option cheats_t) (stream : Option (List Char)) :
    cheats_ret × Option (List Char) :=
  match cheats, stream with
  | some c, some out => (.CHEATS_FALSE, some (out ++ cheats_write c.games))
  | _, _ => (.CHEATS_FALSE, stream)

/-- The function `cheats_read_buf`: the value returned and the cheats object after the
call; `none` as result is undefined behaviour inside `parse_buf`.  `globals` is what the
globals `parse_error_line` and `parse_error_text` hold before the call. -/
def cheats_read_buf (junk : Nat → List Char × List Char) (line0 : List Char)
    (globals : parse_error) (cheats : Option cheats_t) (buf : Option (List Char)) :
    Option (cheats_ret × Option cheats_t) :=
  match cheats, buf with
  | some c, some b =>
    match parse_buf junk line0 c.games b with
    | .done ret _ list e =>
      if ret < 0 then
        some (.CHEATS_FALSE,
          some { games := list, error_text := (e.getD globals).text,
                 error_line := ((e.getD globals).line : Int) })
      else
        some (.CHEATS_TRUE, some { games := list, error_text := "", error_line := 0 })
    | _ => none
  | _, _ => some (.CHEATS_FALSE, cheats)

/-- The function `cheats_error_text`; `none` is NULL. -/
def cheats_error_text (cheats : Option cheats_t) : Option String :=
  cheats.map (fun c => c.error_text)

/-- The function `cheats_error_line`. -/
def cheats_error_line (cheats : Option cheats_t) : Int :=
  match cheats with
  | none => -1
  | some c => c.error_line

/-! ## Game list helpers (codelist.c) -/

/-- Max game title length of codelist.h (`CL_TITLE_MAX`). -/
def CL_TITLE_MAX : Nat := 127
/-- Max cheat description length of codelist.h (`CL_DESC_MAX`). -/
def CL_DESC_MAX : Nat := 127

/-- The `while` loop of `cl_find_game_by_title`: `game` walks the list, `i` is the index
of the node it points to; the pointer returned is the index of the node, `none` is NULL.
The `game_t` of codelist.h has the fields of the one of cheatlist.h. -/
def cl_find_loop (title : List Char) : List game_t → Nat → Option Nat
  | [], _ => none
  | g :: rest, i => if g.title = title then some i else cl_find_loop title rest (i + 1)

/-- The function `cl_find_game_by_title`; a list `none` is NULL. -/
def cl_find_game_by_title (title : List Char) (list : Option gamelist_t) : Option Nat :=
  match list with
  | none => none
  | some l => cl_find_loop title l 0

/-- The function `mkgame` of codelist.c when `calloc` succeeds: `strncpy` copies at most
`CL_TITLE_MAX` characters into the zeroed array of `CL_TITLE_MAX + 1`; a title `none`
is NULL and leaves the array empty. -/
def mkgame (title : Option (List Char)) (cheats : Option (List cheat_t)) (tag : Nat) : game_t :=
  { title := (title.getD []).take CL_TITLE_MAX, cheats := cheats.getD [], tag := tag % 2 ^ 32 }

/-- The function `mkcheat` of codelist.c when `calloc` succeeds. -/
def mkcheat (desc : Option (List Char)) (codes : Option (List code_t)) (tag : Nat) : cheat_t :=
  { desc := (desc.getD []).take CL_DESC_MAX, codes := codes.getD [], tag := tag % 2 ^ 32 }

/-- The function `mkcode` of codelist.c when `calloc` succeeds. -/
def mkcode (addr val tag : Nat) : code_t :=
  { addr := addr % 2 ^ 32, val := val % 2 ^ 32, tag := tag % 2 ^ 32 }

/-- A title line with a payload of 81 characters. -/
def long_title_line : List Char := DQUOTE :: List.replicate 81 'a' ++ [DQUOTE]


/-- A collection whose titles and descriptions have at most 80 characters each. -/
def bounded (list : gamelist_t) : Prop :=
  ∀ g ∈ list, g.title.length ≤ GAME_TITLE_MAX ∧ ∀ c ∈ g.cheats, c.desc.length ≤ CHEAT_DESC_MAX

instance (list : gamelist_t) : Decidable (bounded list) := by unfold bounded; infer_instance

/-- A line the claim on skipped lines speaks of: blank or white space only, or a comment
line, whose content after the leading white space starts with two slashes. -/
def skippable (line : List Char) : Bool :=
  line.all isspace || is_cmt_str (line.dropWhile isspace)

/-- The contents of the arrays of `__make_code` per line number when the line of number `k`
is taken out of an input: the lines after it move up by one and keep their contents. -/
def unshift (junk : Nat → List Char × List Char) (k : Nat) : Nat → List Char × List Char :=
  fun n => if n < k then junk n else junk (n + 1)

/-- The outcome of a parse when a skipped line is inserted as line `k`: a stored error line
from `k` on moves down by one, everything else stays. -/
def bump (k : Nat) : parse_outcome → parse_outcome
  | .done ret ctx list (some e) =>
    .done ret ctx list (some { line := if e.line < k then e.line else e.line + 1, text := e.text })
  | o => o

/-- What a caller sees of a parse but for the error line: the value returned, the
collection and the error text; `none` when the driver did not return. -/
def verdict : parse_outcome → Option (Int × gamelist_t × Option String)
  | .done ret _ list e => some (ret, list, e.map (fun x => x.text))
  | _ => none

/-- The first 511 characters of a comment line of 515 characters. -/
def long_head : List Char := SLASH :: SLASH :: List.replicate 509 'c'

/-- A comment line of 515 characters: the 511 of `long_head`, a blank, and a quoted title. -/
def long_line : List Char := long_head ++ ' ' :: [DQUOTE, 'H', DQUOTE]

/-- What a driver leaves to its caller: the value returned, the game list and the stored
error; `none` when it did not return. -/
def driver_result : parse_outcome → Option (Int × gamelist_t × Option parse_error)
  | .done ret _ list e => some (ret, list, e)
  | _ => none

/-- The result of a driver with the games `base` put before its list. -/
def after_base (base : gamelist_t) (r : Option (Int × gamelist_t × Option parse_error)) :
    Option (Int × gamelist_t × Option parse_error) :=
  r.map (fun p => (p.1, base ++ p.2.1, p.2.2))

/-- Two parser states that run side by side, one on the list `base ++ new` and one on the
list `new`: same expected set, each satisfying the invariant on its list. -/
def framed (base : gamelist_t) (ctx ctx2 : parser_ctx_t) (new : gamelist_t) : Prop :=
  ctx.next = ctx2.next ∧ ctx_wf ctx (base ++ new) ∧ ctx_wf ctx2 new

/-- One call `fgets(line, n + 1, stream)` of stdio.h on the text left in the stream: at most
`n` characters are read, a line feed ends the read and is kept; the string read and the
text left after it. -/
def fgets : Nat → List Char → List Char × List Char
  | 0, s => ([], s)
  | _ + 1, [] => ([], [])
  | n + 1, c :: s => if c = LF then ([c], s) else (c :: (fgets n s).1, (fgets n s).2)

/-- The strings the successive calls `fgets(line, sizeof(line), stream)` of `parse_stream`
return until the end of file; each call on text that is left reads a character at least. -/
def fgets_all : Nat → List Char → List (List Char)
  | 0, _ => []
  | _ + 1, [] => []
  | fuel + 1, c :: s =>
    (fgets LINE_MAX (c :: s)).1 :: fgets_all fuel (fgets LINE_MAX (c :: s)).2

/-- The stream of `parse_stream` for a file that holds `text`. -/
def stream_of (text : List Char) : List (List Char) := fgets_all text.length text

/-- A text whose last line, a description, has no line feed. -/
def open_text : List Char := [DQUOTE, 'G', DQUOTE, LF] ++ "Desc".toList

/-- A screened line that `__make_game` can take: when it is a title line, at most
`GAME_TITLE_MAX` characters stand between its quotes. -/
def title_fits (s : List Char) : Prop :=
  get_token s 0 = TOK_GAME_TITLE → s.length - 2 ≤ GAME_TITLE_MAX

instance (s : List Char) : Decidable (title_fits s) := by unfold title_fits; infer_instance

/-- An input whose title lines all fit the array `buf` of `__make_game`. -/
def titles_fit (stream : List (List Char)) : Prop :=
  ∀ l ∈ stream, significant l = true → title_fits (screen l)

instance (stream : List (List Char)) : Decidable (titles_fit stream) := by
  unfold titles_fit; infer_instance

/-- Raw lines shorter than the line buffer: no line feed inside and fewer than 511
characters, so that `fgets` reads each of them with its line feed in one call. -/
def short_lines (ls : List (List Char)) : Prop :=
  ∀ l ∈ ls, LF ∉ l ∧ l.length < LINE_MAX

instance (ls : List (List Char)) : Decidable (short_lines ls) := by
  unfold short_lines; infer_instance

/-- An input of two raw lines: the long comment line, then a description. -/
def long_input_desc : List (List Char) := [long_line, "Desc".toList]

/-- An input of two raw lines: the long comment line, then a code. -/
def long_input_code : List (List Char) := [long_line, "AB CD".toList]

/-- The lines the scanner of `parse_buf` cuts from a raw line that a line feed ends: the
line itself when it has at most `LINE_MAX` characters; else its first `LINE_MAX`
characters, and the lines cut from what `buf += len + 1` leaves of it. -/
def scan_line : Nat → List Char → List (List Char)
  | 0, l => [l]
  | fuel + 1, l =>
    if l.length ≤ LINE_MAX then [l]
    else l.take LINE_MAX :: scan_line fuel (l.drop (LINE_MAX + 1))

/-- The lines the scanner of `parse_buf` cuts from the text of raw lines, each ended by a
line feed. -/
def scan_lines (ls : List (List Char)) : List (List Char) :=
  (ls.map (fun l => scan_line l.length l)).flatten

/-- The raw lines of `open_code_text`: the title G and a code line. -/
def open_code_lines : List (List Char) := [[DQUOTE, 'G', DQUOTE], "AB CDEF".toList]

/-- A text whose last line, a code line, has no line feed. -/
def open_code_text : List Char := [DQUOTE, 'G', DQUOTE, LF] ++ "AB CDEF".toList

/-- The raw lines of `open_title_text`: the title G and a description that starts with a
quoted H. -/
def open_title_lines : List (List Char) :=
  [[DQUOTE, 'G', DQUOTE], [DQUOTE, 'H', DQUOTE] ++ " A B".toList]

/-- A text whose last line, a description that starts with a quoted H, has no line feed. -/
def open_title_text : List Char :=
  [DQUOTE, 'G', DQUOTE, LF] ++ [DQUOTE, 'H', DQUOTE] ++ " A B".toList

/-- The text `text` holds the raw lines `ls`: each line is followed by a line feed, which
the last line may lack. -/
def is_text_of (text : List Char) (ls : List (List Char)) : Prop :=
  text = unlines ls ∨ text ++ [LF] = unlines ls

instance (text : List Char) (ls : List (List Char)) : Decidable (is_text_of text ls) := by
  unfold is_text_of; infer_instance
/-! ## Theorems -/

theorem splitOnP_head_isEmpty (s : List Char) :
    ((s.splitOnP (fun c => isspace c)).head?.map List.isEmpty) =
      some (match s with | [] => true | c :: _ => isspace c) := by
  cases s with
  | nil => simp
  | cons c s =>
    rw [List.splitOnP_cons]
    by_cases h : isspace c
    · simp [h]
    · simp only [h, Bool.false_eq_true, if_false]
      cases hs : List.splitOnP (fun c => isspace c) s with
      | nil => exact absurd hs (List.splitOnP_ne_nil _ _)
      | cons a l => simp [List.modifyHead]

theorem words_length (s : List Char) :
    (words s).length = word_starts false s := by
  suffices h : ∀ s : List Char, (words s).length = word_starts false s ∧
      (∀ c, ¬ isspace c = true → (words (c :: s)).length = 1 + word_starts true s) from (h s).1
  intro s
  induction s with
  | nil =>
    constructor
    · simp [words, word_starts]
    · intro c hc
      simp [words, word_starts, List.splitOnP_cons, hc, List.modifyHead]
  | cons d s ih =>
    have key : ∀ c, ¬ isspace c = true →
        (words (c :: d :: s)).length = 1 + word_starts true (d :: s) := by
      intro c hc
      by_cases hd : isspace d
      · have h1 : words (c :: d :: s) = [c] :: words s := by
          simp [words, List.splitOnP_cons, hc, hd, List.modifyHead]
        rw [h1]
        simp [word_starts, hd, ih.1]
        omega
      · have h2 := ih.2 d hd
        have h3 : (words (c :: d :: s)).length = (words (d :: s)).length := by
          unfold words
          rw [List.splitOnP_cons (fun c => isspace c) c]
          simp only [hc, Bool.false_eq_true, if_false]
          cases hs : List.splitOnP (fun c => isspace c) (d :: s) with
          | nil => exact absurd hs (List.splitOnP_ne_nil _ _)
          | cons a l =>
            have ha := splitOnP_head_isEmpty (d :: s)
            rw [hs] at ha
            simp [hd] at ha
            simp [List.modifyHead, List.filter_cons, ha]
        rw [h3, h2]
        simp [word_starts, hd]
    constructor
    · by_cases hd : isspace d
      · have : words (d :: s) = words s := by
          simp [words, List.splitOnP_cons, hd]
        rw [this, ih.1]
        simp [word_starts, hd]
      · rw [ih.2 d hd]
        simp [word_starts, hd]
    · exact key


theorem is_cheat_code_loop_some (s : List Char)
    (h : ∀ c ∈ s, isxdigit c = true ∨ isspace c = true) (w i : Nat) :
    is_cheat_code_loop s w i = some (w + word_closes (decide (i > 0)) s) := by
  induction s generalizing w i with
  | nil => simp [is_cheat_code_loop, word_closes]
  | cons c s ih =>
    have hs : ∀ c ∈ s, isxdigit c = true ∨ isspace c = true :=
      fun d hd => h d (List.mem_cons_of_mem _ hd)
    by_cases hc : isspace c = true
    · by_cases hi : i > 0
      · simp [is_cheat_code_loop, word_closes, hc, hi, ih hs]
        omega
      · simp [is_cheat_code_loop, word_closes, hc, hi, ih hs]
    · have hx : isxdigit c = true := by
        rcases h c (List.mem_cons_self _ _) with h1 | h1
        · exact h1
        · exact absurd h1 hc
      simp [is_cheat_code_loop, word_closes, hc, hx, ih hs]

theorem is_cheat_code_loop_none (s : List Char)
    (h : ∃ c ∈ s, isxdigit c = false ∧ isspace c = false) (w i : Nat) :
    is_cheat_code_loop s w i = none := by
  induction s generalizing w i with
  | nil => simp at h
  | cons c s ih =>
    by_cases hc : isspace c = true
    · have hs : ∃ c ∈ s, isxdigit c = false ∧ isspace c = false := by
        obtain ⟨d, hd, h1, h2⟩ := h
        rcases List.mem_cons.1 hd with rfl | hd
        · rw [hc] at h2; cases h2
        · exact ⟨d, hd, h1, h2⟩
      by_cases hi : i > 0
      · simp [is_cheat_code_loop, hc, hi, ih hs]
      · simp [is_cheat_code_loop, hc, hi, ih hs]
    · by_cases hx : isxdigit c = true
      · have hs : ∃ c ∈ s, isxdigit c = false ∧ isspace c = false := by
          obtain ⟨d, hd, h1, h2⟩ := h
          rcases List.mem_cons.1 hd with rfl | hd
          · rw [hx] at h1; cases h1
          · exact ⟨d, hd, h1, h2⟩
        simp [is_cheat_code_loop, hc, hx, ih hs]
      · simp [is_cheat_code_loop, hc, hx]

theorem word_starts_closes (s : List Char) (inw : Bool) :
    word_starts inw s + (if inw then 1 else 0) =
      word_closes inw s + (if ends_in_word inw s then 1 else 0) := by
  induction s generalizing inw with
  | nil => simp [word_starts, word_closes, ends_in_word]
  | cons c s ih =>
    by_cases hc : isspace c = true
    · have := ih false
      cases inw <;> simp [word_starts, word_closes, ends_in_word, hc] at this ⊢ <;> omega
    · have := ih true
      cases inw <;> simp [word_starts, word_closes, ends_in_word, hc] at this ⊢ <;> omega

theorem ends_in_word_getLast (s : List Char) (inw : Bool) (c : Char)
    (h : s.getLast? = some c) : ends_in_word inw s = !isspace c := by
  induction s generalizing inw with
  | nil => simp at h
  | cons d s ih =>
    cases s with
    | nil =>
      simp at h
      simp [ends_in_word, h]
    | cons e s =>
      rw [List.getLast?_cons_cons] at h
      simp only [ends_in_word]
      have := ih (!isspace d) h
      simpa [ends_in_word] using this

theorem is_cheat_code_iff (s : List Char)
    (hlast : ∀ c, s.getLast? = some c → isspace c = false) (hne : s ≠ []) :
    is_cheat_code s = true ↔
      (∀ c ∈ s, isxdigit c = true ∨ isspace c = true) ∧
        ((words s).length = 2 ∨ (words s).length = 3) := by
  by_cases hall : ∀ c ∈ s, isxdigit c = true ∨ isspace c = true
  · obtain ⟨c, hc⟩ : ∃ c, s.getLast? = some c := by
      cases h : s.getLast? with
      | none => exact absurd (List.getLast?_eq_none_iff.1 h) hne
      | some c => exact ⟨c, rfl⟩
    have h1 := word_starts_closes s false
    rw [ends_in_word_getLast s false c hc, hlast c hc] at h1
    simp only [Bool.false_eq_true, if_false, Bool.not_false, if_true, add_zero] at h1
    rw [is_cheat_code, is_cheat_code_loop_some s hall 0 0, words_length]
    simp only [gt_iff_lt, lt_self_iff_false, decide_False, zero_add, Bool.and_eq_true,
      decide_eq_true_eq]
    constructor
    · intro h; exact ⟨hall, by omega⟩
    · intro h; omega
  · have hex : ∃ c ∈ s, isxdigit c = false ∧ isspace c = false := by
      by_contra hcon
      apply hall
      intro c hc
      by_contra h2
      apply hcon
      refine ⟨c, hc, ?_, ?_⟩
      · cases hx : isxdigit c
        · rfl
        · exact absurd (Or.inl hx) h2
      · cases hx : isspace c
        · rfl
        · exact absurd (Or.inr hx) h2
    rw [is_cheat_code, is_cheat_code_loop_none s hex 0 0]
    simp [hall]

/-- Claim C3: a non-empty line without trailing white space that is not a game title is
a CheatCode exactly when all its characters are hex digits or white space and it has 2 or
3 white-space separated words, and a CheatDescription otherwise. -/
theorem get_token_cheat_code_iff (s : List Char) (top : Int) (hne : s ≠ [])
    (hlast : ∀ c, s.getLast? = some c → isspace c = false)
    (htitle : is_game_title s = false) :
    (get_token s top = TOK_CHEAT_CODE ↔
      (∀ c ∈ s, isxdigit c = true ∨ isspace c = true) ∧
        ((words s).length = 2 ∨ (words s).length = 3)) ∧
    (get_token s top ≠ TOK_CHEAT_CODE → get_token s top = TOK_CHEAT_DESC) ∧
    get_token "AB CD".toList top = TOK_CHEAT_CODE ∧
    get_token "AB CD EF".toList top = TOK_CHEAT_CODE ∧
    get_token "AB  CD \t EF".toList top = TOK_CHEAT_CODE ∧
    get_token "AB CD EF GH".toList top = TOK_CHEAT_DESC ∧
    get_token "ABCD".toList top = TOK_CHEAT_DESC ∧
    get_token "AB CD EF 01".toList top = TOK_CHEAT_DESC := by
  refine ⟨?_, ?_,
    (by decide : get_token "AB CD".toList 0 = TOK_CHEAT_CODE),
    (by decide : get_token "AB CD EF".toList 0 = TOK_CHEAT_CODE),
    (by decide : get_token "AB  CD \t EF".toList 0 = TOK_CHEAT_CODE),
    (by decide : get_token "AB CD EF GH".toList 0 = TOK_CHEAT_DESC),
    (by decide : get_token "ABCD".toList 0 = TOK_CHEAT_DESC),
    (by decide : get_token "AB CD EF 01".toList 0 = TOK_CHEAT_DESC)⟩
  · rw [← is_cheat_code_iff s hlast hne]
    unfold get_token
    rw [htitle]
    by_cases h : is_cheat_code s = true
    · simp [h]
    · simp [h, TOK_CHEAT_DESC, TOK_CHEAT_CODE]
  · unfold get_token
    rw [htitle]
    by_cases h : is_cheat_code s = true
    · simp [h]
    · simp [h]

theorem get_token_cheat_code_iff_witness :
    (get_token "10B8DAFA 00003F00".toList 0 = TOK_CHEAT_CODE ↔
      (∀ c ∈ "10B8DAFA 00003F00".toList, isxdigit c = true ∨ isspace c = true) ∧
        ((words "10B8DAFA 00003F00".toList).length = 2 ∨
          (words "10B8DAFA 00003F00".toList).length = 3)) :=
  (get_token_cheat_code_iff "10B8DAFA 00003F00".toList 0 (by decide) (by decide) (by decide)).1

theorem title_token_length (s : List Char) (top : Int)
    (h : get_token s top = TOK_GAME_TITLE) : s.length > 2 := by
  unfold get_token at h
  by_cases ht : is_game_title s = true
  · simp only [is_game_title, Bool.and_eq_true, decide_eq_true_eq] at ht
    exact ht.1.1
  · simp only [ht, Bool.false_eq_true, if_false] at h
    by_cases hc : is_cheat_code s = true
    · simp [hc, TOK_CHEAT_CODE, TOK_GAME_TITLE] at h
    · simp [hc, TOK_CHEAT_DESC, TOK_GAME_TITLE] at h

/-- Claim C4: `get_token` gives GameTitle exactly for lines longer than 2 characters that
begin and end with a double quote; the 3-character line of a quoted A is a GameTitle, the
2-character line of two quotes is a CheatDescription. -/
theorem get_token_game_title_iff (s : List Char) (top : Int) :
    (get_token s top = TOK_GAME_TITLE ↔
      s.length > 2 ∧ s.head? = some DQUOTE ∧ s.getLast? = some DQUOTE) ∧
    get_token [DQUOTE, 'A', DQUOTE] top = TOK_GAME_TITLE ∧
    get_token [DQUOTE, DQUOTE] top = TOK_CHEAT_DESC := by
  refine ⟨?_, (by decide : get_token [DQUOTE, 'A', DQUOTE] 0 = TOK_GAME_TITLE),
    (by decide : get_token [DQUOTE, DQUOTE] 0 = TOK_CHEAT_DESC)⟩
  unfold get_token
  by_cases h : is_game_title s = true
  · simp only [h, if_true, true_iff]
    simpa [is_game_title, and_assoc] using h
  · have h2 : ¬ (s.length > 2 ∧ s.head? = some DQUOTE ∧ s.getLast? = some DQUOTE) := by
      intro h3
      apply h
      simpa [is_game_title, and_assoc] using h3
    simp only [h, h2, iff_false]
    by_cases hc : is_cheat_code s = true
    · simp [hc, TOK_CHEAT_CODE, TOK_GAME_TITLE]
    · simp [hc, TOK_CHEAT_DESC, TOK_GAME_TITLE]

theorem get_token_top (s : List Char) (top : Int) : get_token s top = get_token s 0 := rfl

theorem get_token_cases (s : List Char) (top : Int) :
    get_token s top = TOK_GAME_TITLE ∨ get_token s top = TOK_CHEAT_DESC ∨
      get_token s top = TOK_CHEAT_CODE := by
  unfold get_token
  by_cases h : is_game_title s = true
  · simp [h]
  · by_cases hc : is_cheat_code s = true
    · simp [h, hc]
    · simp [h, hc]

theorem next_token_has_title (tok : Nat)
    (h : tok = TOK_GAME_TITLE ∨ tok = TOK_CHEAT_DESC ∨ tok = TOK_CHEAT_CODE) :
    next_token tok &&& TOK_GAME_TITLE ≠ 0 := by
  rcases h with h | h | h <;> subst h <;> decide

/-- The copy of `__make_game` stays inside `buf` for a title line with at most 80 characters
between its quotes: the game is that of `make_game` on the text between the quotes. -/
theorem make_game_fits {s : List Char} (ht : get_token s 0 = TOK_GAME_TITLE)
    (hf : s.length - 2 ≤ GAME_TITLE_MAX) : __make_game s = some (title_game s) := by
  have hl := title_token_length s 0 ht
  unfold __make_game title_game
  rw [if_pos ⟨by omega, hf⟩]

theorem make_game_some {s : List Char} {g : game_t} (h : __make_game s = some g) :
    g = title_game s ∧ s.length - 2 ≤ GAME_TITLE_MAX := by
  unfold __make_game at h
  split at h
  · rename_i hc
    simp only [Option.some.injEq] at h
    exact ⟨h.symm, hc.2⟩
  · cases h

theorem parse_line_ok_next {a1 a2 line : List Char} {nl : Nat} {ctx ctx1 : parser_ctx_t}
    {list list1 : gamelist_t} (h : parse_line a1 a2 line nl ctx list = .ok ctx1 list1) :
    ctx1.next = next_token (get_token line ctx.top) ∧ ctx1.top = ctx.top := by
  unfold parse_line at h
  simp only at h
  split at h
  · cases h
  · split at h
    · split at h
      · cases h
      · cases h; exact ⟨rfl, rfl⟩
    · split at h
      · split at h
        · cases h
        · split at h
          · cases h
          · cases h; exact ⟨rfl, rfl⟩
      · split at h
        · split at h
          · cases h
          · split at h
            · cases h
            · split at h
              · cases h
              · cases h; exact ⟨rfl, rfl⟩
        · cases h; exact ⟨rfl, rfl⟩

theorem reachable_has_title {ctx : parser_ctx_t} {list : gamelist_t} (h : reachable ctx list) :
    ctx.next &&& TOK_GAME_TITLE ≠ 0 := by
  induction h with
  | init ctx0 list0 => exact (by decide : TOK_GAME_TITLE &&& TOK_GAME_TITLE ≠ 0)
  | step a1 a2 line nl _ hstep _ =>
    rw [(parse_line_ok_next hstep).1]
    exact next_token_has_title _ (get_token_cases _ _)

/-- Claim C5: `next_token` maps GameTitle to the set GameTitle, CheatDescription and both
other tokens to the full set; the initial expected set is GameTitle alone; every
reachable expected set contains GameTitle, so a GameTitle line is never rejected as a
grammar violation: `parse_line` stores no error for it, and appends the game `__make_game`
builds, which it does when at most 80 characters stand between the quotes. -/
theorem next_token_table :
    tok_set (next_token TOK_GAME_TITLE) = [TOK_GAME_TITLE, TOK_CHEAT_DESC] ∧
    tok_set (next_token TOK_CHEAT_DESC) = [TOK_GAME_TITLE, TOK_CHEAT_DESC, TOK_CHEAT_CODE] ∧
    tok_set (next_token TOK_CHEAT_CODE) = [TOK_GAME_TITLE, TOK_CHEAT_DESC, TOK_CHEAT_CODE] ∧
    (∀ ctx0 : parser_ctx_t, tok_set (init_parser_ctx ctx0).next = [TOK_GAME_TITLE]) ∧
    (∀ (ctx : parser_ctx_t) (list : gamelist_t), reachable ctx list →
      TOK_GAME_TITLE ∈ tok_set ctx.next ∧
      ∀ (a1 a2 line : List Char) (nl : Nat), get_token line ctx.top = TOK_GAME_TITLE →
        ctx.next &&& get_token line ctx.top ≠ 0 ∧
        (∀ e, parse_line a1 a2 line nl ctx list ≠ .fail e) ∧
        (∀ g, __make_game line = some g →
          ∃ ctx1, parse_line a1 a2 line nl ctx list = .ok ctx1 (list ++ [g])) ∧
        (line.length - 2 ≤ GAME_TITLE_MAX → ∃ g, __make_game line = some g)) := by
  refine ⟨by decide, by decide, by decide,
    fun _ => (by decide : tok_set TOK_GAME_TITLE = [TOK_GAME_TITLE]), ?_⟩
  intro ctx list hr
  have h := reachable_has_title hr
  constructor
  · simp only [tok_set, List.mem_filter, List.mem_cons, true_or, bne_iff_ne, true_and]
    exact h
  · intro a1 a2 line nl htok
    refine ⟨by rw [htok]; exact h, ?_, ?_, ?_⟩
    · intro e he
      unfold parse_line at he
      simp only [htok] at he
      rw [if_neg h] at he
      simp only [if_true] at he
      split at he <;> cases he
    · intro g hg
      unfold parse_line
      simp only [htok]
      rw [if_neg h]
      simp [hg]
    · intro hf
      exact ⟨_, make_game_fits htok hf⟩

theorem next_token_table_witness :
    ∃ ctx1, parse_line [] [] [DQUOTE, 'G', DQUOTE] 1 (init_parser_ctx uninit_ctx) [] =
      .ok ctx1 ([] ++ [{ title := ['G'], cheats := [], tag := 0 }]) :=
  ((next_token_table.2.2.2.2 (init_parser_ctx uninit_ctx) [] (reachable.init uninit_ctx [])).2
    [] [] [DQUOTE, 'G', DQUOTE] 1 (by decide)).2.2.1 _ (by decide)
theorem set_concat_length {α : Type} (l : List α) (a b : α) :
    (l ++ [a]).set l.length b = l ++ [b] := by
  induction l with
  | nil => rfl
  | cons x l ih => simp [List.set, ih]

theorem absorb_title (list : gamelist_t) (g : game_t) : absorb list (.title g) = list ++ [g] := rfl

theorem absorb_desc (init : gamelist_t) (g : game_t) (c : cheat_t) :
    absorb (init ++ [g]) (.desc c) = init ++ [{ g with cheats := g.cheats ++ [c] }] := by
  simp [absorb]

theorem absorb_code (init : gamelist_t) (g : game_t) (cinit : List cheat_t) (c : cheat_t)
    (k : code_t) (hg : g.cheats = cinit ++ [c]) :
    absorb (init ++ [g]) (.code k) =
      init ++ [{ g with cheats := cinit ++ [{ c with codes := c.codes ++ [k] }] }] := by
  simp [absorb, hg]

theorem parse_line_fail {a1 a2 line : List Char} {nl : Nat} {ctx : parser_ctx_t}
    {list : gamelist_t} (h : ctx.next &&& get_token line ctx.top = 0) :
    parse_line a1 a2 line nl ctx list = .fail (parse_err nl (get_token line ctx.top)) := by
  unfold parse_line
  simp only [h, if_true]

theorem parse_line_wf (a1 a2 line : List Char) (nl : Nat) {ctx : parser_ctx_t}
    {list : gamelist_t} (hwf : ctx_wf ctx list)
    (h : ctx.next &&& get_token line ctx.top ≠ 0) (hfit : title_fits line) :
    ∃ ctx1, parse_line a1 a2 line nl ctx list = .ok ctx1 (absorb list (node a1 a2 line)) ∧
      ctx_wf ctx1 (absorb list (node a1 a2 line)) ∧
      ctx1.next = next_token (get_token line ctx.top) ∧ ctx1.top = ctx.top := by
  have htop : get_token line 0 = get_token line ctx.top := rfl
  rcases get_token_cases line ctx.top with ht | ht | ht
  · -- game title
    refine ⟨{ ctx with game := some list.length, next := next_token TOK_GAME_TITLE }, ?_, ?_,
      by rw [ht], rfl⟩
    · unfold parse_line
      simp only [ht] at h ⊢
      rw [if_neg h]
      simp [node, htop, ht, absorb, make_game_fits ht (hfit ht)]
    · right; left
      refine ⟨rfl, list, title_game line, ?_, rfl⟩
      simp [node, htop, ht, absorb]
  · -- cheat description
    have hnode : node a1 a2 line = .desc (__make_cheat line) := by
      simp [node, htop, ht, TOK_CHEAT_DESC, TOK_GAME_TITLE, TOK_CHEAT_CODE]
    rw [hnode]
    have hgame : ∃ init g, list = init ++ [g] ∧ ctx.game = some init.length := by
      rcases hwf with h1 | ⟨_, init, g, h2, h3⟩ | ⟨_, init, g, _, _, h2, _, h3, _⟩
      · rw [h1, ht] at h; exact absurd (by decide) h
      · exact ⟨init, g, h2, h3⟩
      · exact ⟨init, g, h2, h3⟩
    obtain ⟨init, g, hl, hg⟩ := hgame
    subst hl
    refine ⟨{ ctx with cheat := some (init.length, g.cheats.length),
                       next := next_token TOK_CHEAT_DESC }, ?_, ?_, by rw [ht], rfl⟩
    · unfold parse_line
      simp only [ht] at h ⊢
      rw [if_neg h]
      simp [TOK_CHEAT_DESC, TOK_GAME_TITLE, hg, set_concat_length, absorb]
    · right; right
      rw [absorb_desc]
      exact ⟨rfl, init, _, g.cheats, __make_cheat line, rfl, rfl, hg, rfl⟩
  · -- cheat code
    have hnode : node a1 a2 line = .code (__make_code a1 a2 line) := by
      simp [node, htop, ht, TOK_CHEAT_DESC, TOK_GAME_TITLE, TOK_CHEAT_CODE]
    rw [hnode]
    have hcheat : ∃ init g cinit c, list = init ++ [g] ∧ g.cheats = cinit ++ [c] ∧
        ctx.game = some init.length ∧ ctx.cheat = some (init.length, cinit.length) := by
      rcases hwf with h1 | ⟨h1, _⟩ | ⟨_, h2⟩
      · rw [h1, ht] at h; exact absurd (by decide) h
      · rw [h1, ht] at h; exact absurd (by decide) h
      · exact h2
    obtain ⟨init, g, cinit, c, hl, hgc, hg, hc⟩ := hcheat
    subst hl
    refine ⟨{ ctx with code := some (init.length, cinit.length, c.codes.length),
                       next := next_token TOK_CHEAT_CODE }, ?_, ?_, by rw [ht], rfl⟩
    · unfold parse_line
      simp only [ht] at h ⊢
      rw [if_neg h]
      simp [TOK_CHEAT_DESC, TOK_GAME_TITLE, TOK_CHEAT_CODE, hc, hgc, set_concat_length, absorb]
    · right; right
      rw [absorb_code init g cinit c _ hgc]
      exact ⟨rfl, init, _, cinit, _, rfl, rfl, hg, hc⟩


/-- A call of `parse_line` that returns 0 was on a line `__make_game` can take. -/
theorem parse_line_ok_fits {a1 a2 line : List Char} {nl : Nat} {ctx ctx1 : parser_ctx_t}
    {list list1 : gamelist_t} (h : parse_line a1 a2 line nl ctx list = .ok ctx1 list1) :
    title_fits line := by
  intro ht
  have ht2 : get_token line ctx.top = TOK_GAME_TITLE := ht
  unfold parse_line at h
  simp only [ht2] at h
  split at h
  · cases h
  · simp only [if_true] at h
    split at h
    · cases h
    · rename_i g hg
      exact (make_game_some hg).2

/-- On a title line that does not fit, `parse_line` writes past the end of `buf` when the
title is expected. -/
theorem parse_line_overrun (a1 a2 : List Char) {line : List Char} (nl : Nat)
    {ctx : parser_ctx_t} (list : gamelist_t) (ht : get_token line 0 = TOK_GAME_TITLE)
    (hx : ctx.next &&& TOK_GAME_TITLE ≠ 0) (hbig : GAME_TITLE_MAX < line.length - 2) :
    parse_line a1 a2 line nl ctx list = .overrun := by
  have ht2 : get_token line ctx.top = TOK_GAME_TITLE := ht
  have hn : __make_game line = none := by
    unfold __make_game
    rw [if_neg (by omega)]
  unfold parse_line
  simp only [ht2]
  rw [if_neg hx]
  simp [hn]

/-- The only failure of `parse_line` in the model is the token that is not expected; the
stored error is that of `parse_err` for the line number passed. -/
theorem parse_line_fail_form {a1 a2 line : List Char} {nl : Nat} {ctx : parser_ctx_t}
    {list : gamelist_t} {e : parse_error} (h : parse_line a1 a2 line nl ctx list = .fail e) :
    ctx.next &&& get_token line ctx.top = 0 ∧ e = parse_err nl (get_token line ctx.top) := by
  by_cases hx : ctx.next &&& get_token line ctx.top = 0
  · rw [parse_line_fail hx] at h
    simp only [line_result.fail.injEq] at h
    exact ⟨hx, h.symm⟩
  · exfalso
    unfold parse_line at h
    simp only [hx, if_false] at h
    split at h
    · split at h
      · cases h
      · cases h
    · split at h
      · split at h
        · cases h
        · split at h
          · cases h
          · cases h
      · split at h
        · split at h
          · cases h
          · split at h
            · cases h
            · split at h
              · cases h
              · cases h
        · cases h

theorem tokens_cons_sig {line : List Char} (stream : List (List Char))
    (h : significant line = true) : tokens (line :: stream) = line_token line :: tokens stream := by
  simp [tokens, List.filter_cons, h]

theorem tokens_cons_skip {line : List Char} (stream : List (List Char))
    (h : significant line = false) : tokens (line :: stream) = tokens stream := by
  simp [tokens, List.filter_cons, h]

theorem parse_stream_loop_skip (junk : Nat → List Char × List Char) {line : List Char}
    (stream : List (List Char)) (nl : Nat) (ctx : parser_ctx_t) (list : gamelist_t)
    (h : significant line = false) :
    parse_stream_loop junk (line :: stream) nl ctx list =
      parse_stream_loop junk stream (nl + 1) ctx list := by
  unfold significant at h
  rw [parse_stream_loop]
  by_cases h1 : is_empty_str line = true
  · simp [h1]
  · have h2 : ¬ (screen line).length > 0 := by
      simpa [h1] using h
    simp [h1, h2]

theorem parse_stream_loop_sig (junk : Nat → List Char × List Char) {line : List Char}
    (stream : List (List Char)) (nl : Nat) (ctx : parser_ctx_t) (list : gamelist_t)
    (h : significant line = true) :
    parse_stream_loop junk (line :: stream) nl ctx list =
      match parse_line (junk nl).1 (junk nl).2 (screen line) nl ctx list with
      | .fail e => .done (-1) ctx list (some e)
      | .fault => .fault
      | .overrun => .overrun
      | .ok ctx1 list1 => parse_stream_loop junk stream (nl + 1) ctx1 list1 := by
  unfold significant at h
  simp only [Bool.and_eq_true, Bool.not_eq_true', decide_eq_true_eq] at h
  rw [parse_stream_loop]
  simp [h.1, h.2]

/-- The outcome of the loop of `parse_stream` from a state that satisfies the invariant:
when the state machine accepts the tokens, return 0 with every node absorbed; otherwise
return -1 at the first line whose token is not expected, with the nodes before it
absorbed. -/
theorem parse_stream_loop_run (junk : Nat → List Char × List Char)
    (stream : List (List Char)) :
    titles_fit stream →
    ∀ (nl : Nat) (ctx : parser_ctx_t) (list : gamelist_t), ctx_wf ctx list →
    (accepts ctx.next (tokens stream) = true →
      ∃ ctx1, parse_stream_loop junk stream nl ctx list =
          .done 0 ctx1 ((items junk nl stream).foldl absorb list) none ∧
        ctx_wf ctx1 ((items junk nl stream).foldl absorb list) ∧
        ctx1.next = expected_after ctx.next (tokens stream)) ∧
    (accepts ctx.next (tokens stream) = false →
      ∃ pre line post ctx1, stream = pre ++ line :: post ∧ significant line = true ∧
        accepts ctx.next (tokens pre) = true ∧
        ctx1.next &&& line_token line = 0 ∧
        parse_stream_loop junk pre nl ctx list =
          .done 0 ctx1 ((items junk nl pre).foldl absorb list) none ∧
        parse_stream_loop junk stream nl ctx list =
          .done (-1) ctx1 ((items junk nl pre).foldl absorb list)
            (some (parse_err (nl + pre.length) (line_token line)))) := by
  induction stream with
  | nil =>
    intro _ nl ctx list hwf
    constructor
    · intro _
      exact ⟨ctx, rfl, hwf, rfl⟩
    · intro h
      simp [tokens, accepts] at h
  | cons line stream ih =>
    intro hfit nl ctx list hwf
    have ih := ih (fun l hl => hfit l (List.mem_cons_of_mem _ hl))
    by_cases hs : significant line = true
    · -- a significant line
      have htok : get_token (screen line) ctx.top = line_token line := rfl
      rw [tokens_cons_sig stream hs, parse_stream_loop_sig junk stream nl ctx list hs]
      by_cases hexp : ctx.next &&& line_token line = 0
      · -- rejected here
        constructor
        · intro h
          simp [accepts, hexp] at h
        · intro _
          refine ⟨[], line, stream, ctx, rfl, hs, rfl, hexp, rfl, ?_⟩
          rw [← htok] at hexp
          rw [parse_line_fail hexp]
          rfl
      · -- accepted
        rw [← htok] at hexp
        obtain ⟨ctx1, h1, hwf1, hnext1, _⟩ :=
          parse_line_wf (junk nl).1 (junk nl).2 (screen line) nl hwf hexp
            (hfit line (List.mem_cons_self _ _) hs)
        rw [htok] at hexp hnext1
        have hitems : items junk nl (line :: stream) =
            line_item (junk nl).1 (junk nl).2 line :: items junk (nl + 1) stream := by
          simp [items, hs]
        have hacc : accepts ctx.next (line_token line :: tokens stream) =
            accepts ctx1.next (tokens stream) := by
          simp [accepts, hexp, hnext1]
        have hexa : ∀ ts, expected_after ctx.next (line_token line :: ts) =
            expected_after ctx1.next ts := by
          intro ts; simp [expected_after, hnext1]
        obtain ⟨ihok, ihfail⟩ := ih (nl + 1) ctx1 _ hwf1
        rw [h1, hacc, hitems]
        simp only [List.foldl_cons, line_item]
        constructor
        · intro h
          obtain ⟨ctx2, h2, hwf2, hnext2⟩ := ihok h
          exact ⟨ctx2, h2, hwf2, by rw [hnext2, hexa]⟩
        · intro h
          obtain ⟨pre, l, post, ctx2, hst, hsl, hpre, hbad, hrun, hres⟩ := ihfail h
          refine ⟨line :: pre, l, post, ctx2, by rw [hst]; rfl, hsl, ?_, ?_, ?_, ?_⟩
          · rw [tokens_cons_sig pre hs]
            rw [hnext1] at hpre
            simp [accepts, hexp, hpre]
          · exact hbad
          · rw [parse_stream_loop_sig junk pre nl ctx list hs, h1]
            simp only [items, hs, if_true, List.foldl_cons, line_item]
            exact hrun
          · simp only [items, hs, if_true, List.foldl_cons, line_item, List.length_cons]
            rw [hres]
            congr 3
            omega
    · -- a skipped line
      have hs : significant line = false := by simpa using hs
      rw [tokens_cons_skip stream hs, parse_stream_loop_skip junk stream nl ctx list hs]
      have hitems : items junk nl (line :: stream) = items junk (nl + 1) stream := by
        simp [items, hs]
      rw [hitems]
      obtain ⟨ihok, ihfail⟩ := ih (nl + 1) ctx list hwf
      constructor
      · exact ihok
      · intro h
        obtain ⟨pre, l, post, ctx2, hst, hsl, hpre, hbad, hrun, hres⟩ := ihfail h
        refine ⟨line :: pre, l, post, ctx2, by rw [hst]; rfl, hsl, ?_, ?_, ?_, ?_⟩
        · rw [tokens_cons_skip pre hs]; exact hpre
        · exact hbad
        · rw [parse_stream_loop_skip junk pre nl ctx list hs]
          simp only [items, hs, Bool.false_eq_true, if_false]
          exact hrun
        · simp only [items, hs, Bool.false_eq_true, if_false, List.length_cons]
          rw [hres]
          congr 3
          omega

theorem tokens_is_tok (stream : List (List Char)) : ∀ t ∈ tokens stream, is_tok t := by
  intro t ht
  simp only [tokens, List.mem_map] at ht
  obtain ⟨l, _, rfl⟩ := ht
  exact get_token_cases _ _

theorem expects_iff (t u : Nat) (ht : is_tok t) (hu : is_tok u) :
    (next_token t &&& u != 0) = true ↔ ¬ (t = TOK_GAME_TITLE ∧ u = TOK_CHEAT_CODE) := by
  rcases ht with h | h | h <;> rcases hu with h2 | h2 | h2 <;> subst h <;> subst h2 <;> decide

theorem accepts_chain (t : Nat) (ts : List Nat) (ht : is_tok t) (hts : ∀ u ∈ ts, is_tok u) :
    accepts (next_token t) ts = true ↔
      List.Chain (fun a b => ¬ (a = TOK_GAME_TITLE ∧ b = TOK_CHEAT_CODE)) t ts := by
  induction ts generalizing t with
  | nil => simp [accepts]
  | cons u ts ih =>
    have hu : is_tok u := hts u (List.mem_cons_self _ _)
    have hts2 : ∀ v ∈ ts, is_tok v := fun v hv => hts v (List.mem_cons_of_mem _ hv)
    rw [List.chain_cons, ← ih u hu hts2, ← expects_iff t u ht hu]
    simp [accepts]

theorem accepts_iff_grammar_ok (ts : List Nat) (hts : ∀ u ∈ ts, is_tok u) :
    accepts TOK_GAME_TITLE ts = true ↔ grammar_ok ts := by
  cases ts with
  | nil => simp [accepts, grammar_ok]
  | cons t ts =>
    have ht : is_tok t := hts t (List.mem_cons_self _ _)
    have hts2 : ∀ v ∈ ts, is_tok v := fun v hv => hts v (List.mem_cons_of_mem _ hv)
    have h1 : (TOK_GAME_TITLE &&& t != 0) = true ↔ t = TOK_GAME_TITLE := by
      rcases ht with h | h | h <;> subst h <;> decide
    have h2 : List.Chain' (fun a b => ¬ (a = TOK_GAME_TITLE ∧ b = TOK_CHEAT_CODE)) (t :: ts) ↔
        List.Chain (fun a b => ¬ (a = TOK_GAME_TITLE ∧ b = TOK_CHEAT_CODE)) t ts := Iff.rfl
    simp only [accepts, Bool.and_eq_true, h1, accepts_chain t ts ht hts2, grammar_ok,
      List.head?_cons, Option.some.injEq, reduceCtorEq, false_or, h2]

theorem nil_or_snoc {α : Type} (l : List α) : l = [] ∨ ∃ L b, l = L ++ [b] := by
  rcases List.eq_nil_or_concat l with h | ⟨L, b, h⟩
  · exact Or.inl h
  · exact Or.inr ⟨L, b, by rw [h, List.concat_eq_append]⟩

theorem extend_cheats_nil_left (its : List item) : extend_cheats [] its = leading_cheats its := rfl

theorem extend_cheats_concat (cs : List cheat_t) (c : cheat_t) (its : List item) :
    extend_cheats (cs ++ [c]) its =
      cs ++ [{ c with codes := c.codes ++ leading_codes its }] ++ leading_cheats its := by
  simp [extend_cheats]

theorem extend_cheats_stop (cs : List cheat_t) (its : List item)
    (h1 : leading_codes its = []) (h2 : leading_cheats its = []) : extend_cheats cs its = cs := by
  rcases nil_or_snoc cs with rfl | ⟨cs1, c, rfl⟩
  · simp [extend_cheats, h2]
  · rw [extend_cheats_concat, h1, h2]; simp

theorem node_fresh (a1 a2 s : List Char) : fresh (node a1 a2 s) := by
  unfold node
  split
  · simp [fresh, title_game, make_game]
  · split <;> simp [fresh]

theorem items_fresh (junk : Nat → List Char × List Char) (stream : List (List Char)) :
    ∀ nl, ∀ it ∈ items junk nl stream, fresh it := by
  induction stream with
  | nil => intro nl it h; simp [items] at h
  | cons line stream ih =>
    intro nl it h
    unfold items at h
    split at h
    · rcases List.mem_cons.1 h with rfl | h
      · exact node_fresh _ _ _
      · exact ih _ _ h
    · exact ih _ _ h

theorem foldl_absorb_last (its : List item) (hf : ∀ it ∈ its, fresh it) :
    ∀ (L : gamelist_t) (g : game_t),
      its.foldl absorb (L ++ [g]) =
        L ++ [{ g with cheats := extend_cheats g.cheats its }] ++ group its := by
  induction its with
  | nil =>
    intro L g
    simp [extend_cheats_stop, leading_codes, leading_cheats, group]
  | cons it its ih =>
    have hf2 : ∀ it ∈ its, fresh it := fun x hx => hf x (List.mem_cons_of_mem _ hx)
    have hit := hf it (List.mem_cons_self _ _)
    intro L g
    cases it with
    | title g1 =>
      have hg1 : g1.cheats = [] := hit
      rw [List.foldl_cons, absorb_title, ih hf2 (L ++ [g]) g1]
      rw [extend_cheats_stop g.cheats (item.title g1 :: its) rfl rfl]
      simp [group, hg1, extend_cheats_nil_left]
    | desc c =>
      rw [List.foldl_cons, absorb_desc, ih hf2 L _]
      simp only [extend_cheats_concat, group]
      congr 3
      rcases nil_or_snoc g.cheats with h | ⟨cs1, b, h⟩
      · rw [h]; simp [extend_cheats, leading_cheats]
      · rw [h, extend_cheats_concat]; simp [leading_codes, leading_cheats]
    | code k =>
      rcases nil_or_snoc g.cheats with h | ⟨cs1, b, h⟩
      · have h1 : absorb (L ++ [g]) (.code k) = L ++ [g] := by
          simp [absorb, h]
        rw [List.foldl_cons, h1, ih hf2 L g, h]
        simp [extend_cheats, leading_cheats, group]
      · rw [List.foldl_cons, absorb_code L g cs1 b k h, ih hf2 L _]
        simp only [extend_cheats_concat, group, h]
        simp [leading_codes, leading_cheats]

theorem foldl_absorb_nil (its : List item) (hf : ∀ it ∈ its, fresh it) :
    its.foldl absorb [] = group its := by
  induction its with
  | nil => rfl
  | cons it its ih =>
    have hf2 : ∀ it ∈ its, fresh it := fun x hx => hf x (List.mem_cons_of_mem _ hx)
    have hit := hf it (List.mem_cons_self _ _)
    cases it with
    | title g1 =>
      have hg1 : g1.cheats = [] := hit
      have := foldl_absorb_last its hf2 [] g1
      simp only [List.nil_append] at this
      rw [List.foldl_cons, absorb_title, List.nil_append, this]
      simp [group, hg1, extend_cheats_nil_left]
    | desc c =>
      rw [List.foldl_cons]
      simpa [absorb, group] using ih hf2
    | code k =>
      rw [List.foldl_cons]
      simpa [absorb, group] using ih hf2

theorem unlines_cons (l : List Char) (ls : List (List Char)) :
    unlines (l :: ls) = l ++ LF :: unlines ls := by
  simp [unlines]

theorem chr_idx_line (l rest : List Char) (h : LF ∉ l) :
    chr_idx (l ++ LF :: rest) LF = (l.length : Int) := by
  unfold chr_idx
  rw [if_pos (by simp), List.indexOf_append_of_not_mem h, List.indexOf_cons_self]
  simp

/-- On the text of raw lines, each ended by a line feed, the loop of `parse_buf` takes the
same turns as the loop of `parse_stream` on the lines. -/
theorem parse_buf_loop_unlines (junk : Nat → List Char × List Char) (ls : List (List Char))
    (h : raw_lines ls) :
    ∀ (fuel : Nat) (line : List Char) (nl : Nat) (ctx : parser_ctx_t) (list : gamelist_t),
      (unlines ls).length < fuel →
      parse_buf_loop junk fuel (unlines ls) line nl ctx list =
        parse_stream_loop junk ls nl ctx list := by
  induction ls with
  | nil =>
    intro fuel line nl ctx list hf
    cases fuel with
    | zero => simp at hf
    | succ f => simp [unlines, parse_buf_loop, parse_stream_loop]
  | cons l ls ih =>
    intro fuel line nl ctx list hf
    have hl := h l (List.mem_cons_self _ _)
    have hls : raw_lines ls := fun x hx => h x (List.mem_cons_of_mem _ hx)
    cases fuel with
    | zero => simp at hf
    | succ f =>
      rw [unlines_cons] at hf ⊢
      have hf2 : (unlines ls).length < f := by
        simp at hf; omega
      have hne : l ++ LF :: unlines ls ≠ [] := by simp
      have hlen : (if chr_idx (l ++ LF :: unlines ls) LF < 0 then line.length
          else if chr_idx (l ++ LF :: unlines ls) LF > (LINE_MAX : Int) then LINE_MAX
          else (chr_idx (l ++ LF :: unlines ls) LF).toNat) = l.length := by
        rw [chr_idx_line l _ hl.1]
        have := hl.2
        rw [if_neg (by omega), if_neg (by omega)]
        simp
      have htake : (l ++ LF :: unlines ls).take l.length = l := by simp
      have hdrop : (l ++ LF :: unlines ls).drop (l.length + 1) = unlines ls := by
        rw [← List.drop_drop]; simp
      have hlt : l.length < (l ++ LF :: unlines ls).length := by simp
      rw [parse_buf_loop, parse_stream_loop]
      simp only [hne, if_false, hlen, is_empty_substr, htake, hdrop, hlt, if_true, is_empty_str]
      split
      · split
        · cases parse_line (junk nl).1 (junk nl).2 (screen l) nl ctx list with
          | ok ctx1 list1 => exact ih hls f _ _ _ _ hf2
          | fail e => rfl
          | fault => rfl
          | overrun => rfl
        · exact ih hls f _ _ _ _ hf2
      · exact ih hls f _ _ _ _ hf2

theorem parse_buf_unlines (junk : Nat → List Char × List Char) (line0 : List Char)
    (list : gamelist_t) (ls : List (List Char)) (h : raw_lines ls) :
    parse_buf junk line0 list (unlines ls) = parse_stream junk list ls :=
  parse_buf_loop_unlines junk ls h _ _ _ _ _ (Nat.lt_succ_self _)


/-- The loop of `parse_buf` does not run out of fuel: each turn shortens the buffer. -/
theorem parse_buf_loop_fuel (junk : Nat → List Char × List Char) :
    ∀ (fuel : Nat) (buf line : List Char) (nl : Nat) (ctx : parser_ctx_t) (list : gamelist_t),
      buf.length < fuel → parse_buf_loop junk fuel buf line nl ctx list ≠ .nofuel := by
  intro fuel
  induction fuel with
  | zero => intro buf line nl ctx list h; simp at h
  | succ f ih =>
    intro buf line nl ctx list h
    have hrec : ∀ (len : Nat) (l : List Char) (c : parser_ctx_t) (g : gamelist_t),
        len < buf.length →
        parse_buf_loop junk f (buf.drop (len + 1)) l (nl + 1) c g ≠ .nofuel := by
      intro len l c g hlen
      apply ih
      rw [List.length_drop]
      omega
    rw [parse_buf_loop]
    by_cases hb : buf = []
    · simp [hb]
    · simp only [hb, if_false]
      generalize (if chr_idx buf LF < 0 then line.length
        else if chr_idx buf LF > (LINE_MAX : Int) then LINE_MAX
        else (chr_idx buf LF).toNat) = len
      by_cases hlen : len < buf.length
      · simp only [hlen, if_true]
        by_cases he : (!is_empty_substr buf len) = true
        · simp only [he, if_true]
          by_cases hs : (screen (buf.take len)).length > 0
          · simp only [hs, if_true]
            cases parse_line (junk nl).1 (junk nl).2 (screen (buf.take len)) nl ctx list with
            | ok c g => exact hrec len _ c g hlen
            | fail e => simp
            | fault => simp
            | overrun => simp
          · simp only [hs, if_false]
            exact hrec len _ ctx list hlen
        · simp only [he, Bool.false_eq_true, if_false]
          exact hrec len _ ctx list hlen
      · simp only [hlen, if_false]
        by_cases he : (!is_empty_substr buf len) = true
        · simp only [he, if_true]
          by_cases hs : (screen (buf.take len)).length > 0
          · simp only [hs, if_true]
            cases parse_line (junk nl).1 (junk nl).2 (screen (buf.take len)) nl ctx list with
            | ok c g => simp
            | fail e => simp
            | fault => simp
            | overrun => simp
          · simp [hs]
        · simp [he]

/-- The function `parse_buf` returns or meets undefined behaviour; the fuel of the model
is never used up. -/
theorem parse_buf_total (junk : Nat → List Char × List Char) (line0 : List Char)
    (list : gamelist_t) (buf : List Char) : parse_buf junk line0 list buf ≠ .nofuel :=
  parse_buf_loop_fuel junk _ buf line0 1 _ list (Nat.lt_succ_self _)
theorem init_wf (list : gamelist_t) : ctx_wf (init_parser_ctx uninit_ctx) list := Or.inl rfl

theorem parse_stream_loop_append (junk : Nat → List Char × List Char)
    (pre rest : List (List Char)) :
    ∀ (nl : Nat) (ctx ctx1 : parser_ctx_t) (list list1 : gamelist_t) (e : Option parse_error),
      parse_stream_loop junk pre nl ctx list = .done 0 ctx1 list1 e →
      parse_stream_loop junk (pre ++ rest) nl ctx list =
        parse_stream_loop junk rest (nl + pre.length) ctx1 list1 := by
  induction pre with
  | nil =>
    intro nl ctx ctx1 list list1 e h
    simp only [parse_stream_loop, parse_outcome.done.injEq, true_and] at h
    obtain ⟨h1, h2, _⟩ := h
    subst h1; subst h2
    rfl
  | cons line pre ih =>
    intro nl ctx ctx1 list list1 e h
    have hnl : nl + (line :: pre).length = nl + 1 + pre.length := by
      simp only [List.length_cons]; omega
    rw [hnl]
    by_cases hs : significant line = true
    · rw [parse_stream_loop_sig junk pre nl ctx list hs] at h
      rw [List.cons_append, parse_stream_loop_sig junk (pre ++ rest) nl ctx list hs]
      cases hp : parse_line (junk nl).1 (junk nl).2 (screen line) nl ctx list with
      | ok ctx2 list2 =>
        rw [hp] at h
        exact ih _ _ _ _ _ _ h
      | fail err =>
        rw [hp] at h
        simp at h
      | fault =>
        rw [hp] at h
        simp at h
      | overrun =>
        rw [hp] at h
        simp at h
    · have hs : significant line = false := by simpa using hs
      rw [parse_stream_loop_skip junk pre nl ctx list hs] at h
      rw [List.cons_append, parse_stream_loop_skip junk (pre ++ rest) nl ctx list hs]
      exact ih _ _ _ _ _ _ h

theorem parse_stream_loop_reject (junk : Nat → List Char × List Char) (line : List Char)
    (post : List (List Char)) (nl : Nat) (ctx : parser_ctx_t) (list : gamelist_t)
    (hs : significant line = true) (hbad : ctx.next &&& line_token line = 0) :
    parse_stream_loop junk (line :: post) nl ctx list =
      .done (-1) ctx list (some (parse_err nl (line_token line))) := by
  have htok : get_token (screen line) ctx.top = line_token line := rfl
  rw [parse_stream_loop_sig junk post nl ctx list hs]
  rw [← htok] at hbad
  rw [parse_line_fail hbad]
  rfl

/-- The two outcomes of `parse_stream`: return 0 when the state machine accepts the
tokens, else return -1 at the first line that is not expected, whatever follows it. -/
theorem parse_stream_cases (junk : Nat → List Char × List Char) (list : gamelist_t)
    (stream : List (List Char)) (hfit : titles_fit stream) :
    (accepts TOK_GAME_TITLE (tokens stream) = true ∧
      ∃ ctx1, parse_stream junk list stream =
        .done 0 ctx1 ((items junk 1 stream).foldl absorb list) none) ∨
    (accepts TOK_GAME_TITLE (tokens stream) = false ∧
      ∃ pre line post ctx1 list1, stream = pre ++ line :: post ∧ significant line = true ∧
        parse_stream junk list pre = .done 0 ctx1 list1 none ∧
        list1 = (items junk 1 pre).foldl absorb list ∧
        ctx1.next &&& line_token line = 0 ∧
        ∀ post2, parse_stream junk list (pre ++ line :: post2) =
          .done (-1) ctx1 list1 (some (parse_err (pre.length + 1) (line_token line)))) := by
  obtain ⟨hok, hfail⟩ := parse_stream_loop_run junk stream hfit 1 _ list (init_wf list)
  cases hacc : accepts TOK_GAME_TITLE (tokens stream) with
  | true =>
    left
    obtain ⟨ctx1, h1, _, _⟩ := hok hacc
    exact ⟨rfl, ctx1, h1⟩
  | false =>
    right
    obtain ⟨pre, line, post, ctx1, hst, hs, _, hbad, hrun, _⟩ := hfail hacc
    refine ⟨rfl, pre, line, post, ctx1, _, hst, hs, hrun, rfl, hbad, ?_⟩
    intro post2
    unfold parse_stream
    rw [parse_stream_loop_append junk pre (line :: post2) _ _ _ _ _ _ hrun,
      parse_stream_loop_reject junk line post2 _ _ _ hs hbad, Nat.add_comm]



/-- Every significant line of an input on which the loop of `parse_stream` returns 0 was
taken by `__make_game` when it was a title. -/
theorem parse_stream_loop_ok_fit (junk : Nat → List Char × List Char)
    (stream : List (List Char)) :
    ∀ (nl : Nat) (ctx ctx1 : parser_ctx_t) (list list1 : gamelist_t) (e : Option parse_error),
      parse_stream_loop junk stream nl ctx list = .done 0 ctx1 list1 e → titles_fit stream := by
  induction stream with
  | nil => intro nl ctx ctx1 list list1 e _ l hl; cases hl
  | cons line stream ih =>
    intro nl ctx ctx1 list list1 e h
    by_cases hs : significant line = true
    · rw [parse_stream_loop_sig junk stream nl ctx list hs] at h
      cases hp : parse_line (junk nl).1 (junk nl).2 (screen line) nl ctx list with
      | ok ctx2 list2 =>
        rw [hp] at h
        intro l hl hsl
        rcases List.mem_cons.1 hl with hl | hl
        · rw [hl]; exact parse_line_ok_fits hp
        · exact ih _ _ _ _ _ _ h l hl hsl
      | fail err =>
        rw [hp] at h
        simp at h
      | fault =>
        rw [hp] at h
        simp at h
      | overrun =>
        rw [hp] at h
        simp at h
    · have hs : significant line = false := by simpa using hs
      rw [parse_stream_loop_skip junk stream nl ctx list hs] at h
      intro l hl hsl
      rcases List.mem_cons.1 hl with hl | hl
      · rw [hl, hs] at hsl; cases hsl
      · exact ih _ _ _ _ _ _ h l hl hsl

/-- A return of the loop of `parse_stream` with a stored error: the lines before the
rejected line were parsed with return 0 into the state and list left, and the error is
that of the rejected line, whatever follows it. -/
theorem parse_stream_loop_fail_split (junk : Nat → List Char × List Char)
    (stream : List (List Char)) :
    ∀ (nl : Nat) (ctx ctx1 : parser_ctx_t) (list list1 : gamelist_t) (ret : Int)
      (e : parse_error),
      parse_stream_loop junk stream nl ctx list = .done ret ctx1 list1 (some e) →
      ∃ pre line post, stream = pre ++ line :: post ∧ significant line = true ∧
        parse_stream_loop junk pre nl ctx list = .done 0 ctx1 list1 none ∧
        ctx1.next &&& line_token line = 0 ∧ ret = -1 ∧
        e = parse_err (nl + pre.length) (line_token line) := by
  induction stream with
  | nil =>
    intro nl ctx ctx1 list list1 ret e h
    simp [parse_stream_loop] at h
  | cons line stream ih =>
    intro nl ctx ctx1 list list1 ret e h
    by_cases hs : significant line = true
    · rw [parse_stream_loop_sig junk stream nl ctx list hs] at h
      cases hp : parse_line (junk nl).1 (junk nl).2 (screen line) nl ctx list with
      | ok ctx2 list2 =>
        rw [hp] at h
        obtain ⟨pre, l, post, hst, hsl, hrun, hbad, hret, he⟩ := ih _ _ _ _ _ _ _ h
        refine ⟨line :: pre, l, post, by rw [hst]; rfl, hsl, ?_, hbad, hret, ?_⟩
        · rw [parse_stream_loop_sig junk pre nl ctx list hs, hp]
          exact hrun
        · rw [he, List.length_cons]
          congr 1
          omega
      | fail err =>
        rw [hp] at h
        simp only [parse_outcome.done.injEq, Option.some.injEq] at h
        obtain ⟨hret, hc, hl, he⟩ := h
        obtain ⟨hbad, herr⟩ := parse_line_fail_form hp
        refine ⟨[], line, stream, rfl, hs, ?_, ?_, hret.symm, ?_⟩
        · rw [← hc, ← hl]; rfl
        · rw [← hc]; exact hbad
        · rw [← he, herr]; rfl
      | fault =>
        rw [hp] at h
        simp at h
      | overrun =>
        rw [hp] at h
        simp at h
    · have hs : significant line = false := by simpa using hs
      rw [parse_stream_loop_skip junk stream nl ctx list hs] at h
      obtain ⟨pre, l, post, hst, hsl, hrun, hbad, hret, he⟩ := ih _ _ _ _ _ _ _ h
      refine ⟨line :: pre, l, post, by rw [hst]; rfl, hsl, ?_, hbad, hret, ?_⟩
      · rw [parse_stream_loop_skip junk pre nl ctx list hs]
        exact hrun
      · rw [he, List.length_cons]
        congr 1
        omega
theorem isxdigit_not_isspace (c : Char) (h : isxdigit c = true) : isspace c = false := by
  unfold isxdigit at h
  unfold isspace
  simp only [Bool.or_eq_true, Bool.and_eq_true, decide_eq_true_eq] at h
  simp only [Bool.or_eq_false_iff, beq_eq_false_iff_ne, ne_eq, Bool.and_eq_false_imp,
    decide_eq_true_eq, decide_eq_false_iff_not, not_le]
  omega

theorem dropWhile_append_all {α : Type} (p : α → Bool) (a b : List α) (h : ∀ c ∈ a, p c = true) :
    (a ++ b).dropWhile p = b.dropWhile p := by
  induction a with
  | nil => rfl
  | cons x a ih =>
    have hx := h x (List.mem_cons_self _ _)
    simp only [List.cons_append, List.dropWhile_cons, hx, if_true]
    exact ih (fun c hc => h c (List.mem_cons_of_mem _ hc))

theorem takeWhile_append_all {α : Type} (p : α → Bool) (a b : List α) (h : ∀ c ∈ a, p c = true) :
    (a ++ b).takeWhile p = a ++ b.takeWhile p := by
  induction a with
  | nil => rfl
  | cons x a ih =>
    have hx := h x (List.mem_cons_self _ _)
    simp only [List.cons_append, List.takeWhile_cons, hx, if_true]
    rw [ih (fun c hc => h c (List.mem_cons_of_mem _ hc))]

theorem hexword_not_space {w : List Char} (h : hexword w) :
    ∀ c ∈ w, (!isspace c) = true := by
  intro c hc
  rw [isxdigit_not_isspace c (h.2 c hc)]; rfl

/-- `%s` at the start of a word: the word, up to the white space or the end after it. -/
theorem scan_s_word (w rest : List Char) (h : hexword w)
    (hrest : rest = [] ∨ ∃ c r, rest = c :: r ∧ isspace c = true) :
    scan_s (w ++ rest) = some (w, rest) := by
  obtain ⟨x, w1, rfl⟩ : ∃ x w1, w = x :: w1 := by
    cases w with
    | nil => exact absurd rfl h.1
    | cons x w1 => exact ⟨x, w1, rfl⟩
  have hx : isspace x = false := isxdigit_not_isspace x (h.2 x (List.mem_cons_self _ _))
  have hns := hexword_not_space h
  unfold scan_s
  have h1 : ((x :: w1) ++ rest).dropWhile isspace = (x :: w1) ++ rest := by
    simp [List.dropWhile_cons, hx]
  simp only [h1]
  rw [if_neg (by simp), takeWhile_append_all _ _ _ hns, dropWhile_append_all _ _ _ hns]
  rcases hrest with rfl | ⟨c, r, rfl, hc⟩
  · simp
  · simp [List.takeWhile_cons, List.dropWhile_cons, hc]

/-- `%s` after white space: the white space is skipped. -/
theorem scan_s_blanks (ws s : List Char) (h : ∀ c ∈ ws, isspace c = true) :
    scan_s (ws ++ s) = scan_s s := by
  unfold scan_s
  rw [dropWhile_append_all _ _ _ h]

theorem scan_s_nil : scan_s [] = none := rfl

/-- The loop of `__make_code` counts the white-space characters, up to 3. -/
theorem make_code_count_ge (s : List Char) (w : Nat) (h : 3 ≤ w) : make_code_count s w = w := by
  cases s with
  | nil => rfl
  | cons c s => simp [make_code_count, show ¬ w < 3 by omega]

theorem make_code_count_hex (a s : List Char) (w : Nat) (h : ∀ c ∈ a, isxdigit c = true) :
    make_code_count (a ++ s) w = make_code_count s w := by
  induction a with
  | nil => rfl
  | cons x a ih =>
    have hx := h x (List.mem_cons_self _ _)
    have ih2 := ih (fun c hc => h c (List.mem_cons_of_mem _ hc))
    by_cases hw : w < 3
    · simp only [List.cons_append, make_code_count, hw, if_true, hx]
      exact ih2
    · rw [make_code_count_ge _ _ (by omega), make_code_count_ge _ _ (by omega)]

theorem make_code_count_space (c : Char) (s : List Char) (w : Nat) (hc : isspace c = true)
    (hw : w < 3) : make_code_count (c :: s) w = make_code_count s (w + 1) := by
  have hx : isxdigit c = false := by
    cases h : isxdigit c
    · rfl
    · rw [isxdigit_not_isspace c h] at hc; cases hc
  simp [make_code_count, hw, hx, hc]

theorem make_code_count_mono (s : List Char) (w : Nat) : w ≤ make_code_count s w := by
  induction s generalizing w with
  | nil => simp [make_code_count]
  | cons c s ih =>
    unfold make_code_count
    split
    · split
      · exact ih w
      · split
        · exact Nat.le_trans (Nat.le_succ w) (ih (w + 1))
        · exact ih w
    · exact Nat.le_refl w

theorem hexstr2bytes_length (w : List Char) : (hexstr2bytes w).length = w.length / 2 := by
  induction w using hexstr2bytes.induct with
  | case1 a b s ih =>
    simp only [hexstr2bytes, List.length_cons, ih]
    omega
  | case2 s hs =>
    match s with
    | [] => rfl
    | [a] => simp [hexstr2bytes]
    | a :: b :: s => exact absurd rfl (hs a b s)

theorem hexnum_append (a b : List Char) :
    hexnum (a ++ b) = b.foldl (fun acc c => 16 * acc + hexval c) (hexnum a) := by
  simp [hexnum, List.foldl_append]

theorem foldl_hex_bytes (w : List Char) (h : w.length % 2 = 0) (acc : Nat) :
    (hexstr2bytes w).foldl (fun acc b => 256 * acc + b) acc =
      w.foldl (fun acc c => 16 * acc + hexval c) acc := by
  induction w using hexstr2bytes.induct generalizing acc with
  | case1 a b s ih =>
    have hs : s.length % 2 = 0 := by
      simp only [List.length_cons] at h; omega
    simp only [hexstr2bytes, List.foldl_cons, ih hs]
    congr 1
    ring
  | case2 s hs =>
    match s with
    | [] => rfl
    | [a] => simp at h
    | a :: b :: s => exact absurd rfl (hs a b s)

/-- A hex string with an even number of digits and the bytes `hexstr2bytes` decodes from
it denote the same integer. -/
theorem bytes2nat_hexstr2bytes (w : List Char) (h : w.length % 2 = 0) :
    bytes2nat (hexstr2bytes w) = hexnum w :=
  foldl_hex_bytes w h 0

theorem hexval_lt (c : Char) : hexval c < 16 := by
  unfold hexval
  split
  · omega
  · split
    · omega
    · split <;> omega

theorem hexnum_lt (w : List Char) : hexnum w < 16 ^ w.length := by
  induction w using List.reverseRecOn with
  | nil => simp [hexnum]
  | append_singleton w c ih =>
    rw [hexnum_append]
    simp only [List.foldl_cons, List.foldl_nil, List.length_append, List.length_singleton,
      pow_succ]
    have := hexval_lt c
    omega

theorem hexnum_lt_32 (w : List Char) (h : w.length ≤ 8) : hexnum w < 2 ^ 32 := by
  have h1 := hexnum_lt w
  have h2 : 16 ^ w.length ≤ 16 ^ 8 := Nat.pow_le_pow_right (by omega) h
  have h3 : (16 : Nat) ^ 8 = 2 ^ 32 := by norm_num
  omega

/-- The code `make_code` builds from two decoded hex words of an even number of digits
whose values fit in 32 bits. -/
theorem make_code_words (w1 w2 : List Char) (tag : Nat)
    (h1 : w1.length % 2 = 0) (h1b : hexnum w1 < 2 ^ 32)
    (h2 : w2.length % 2 = 0) (h2b : hexnum w2 < 2 ^ 32) (ht : tag < 2 ^ 32) :
    make_code (hexstr2bytes w1) (w1.length / 2) (hexstr2bytes w2) (w2.length / 2) tag =
      { addr := hexnum w1, val := hexnum w2, tag := tag } := by
  unfold make_code
  rw [← hexstr2bytes_length w1, ← hexstr2bytes_length w2, List.take_length, List.take_length,
    bytes2nat_hexstr2bytes w1 h1, bytes2nat_hexstr2bytes w2 h2,
    Nat.mod_eq_of_lt h1b, Nat.mod_eq_of_lt h2b, Nat.mod_eq_of_lt ht]

/-- A line of two hex words with one white-space character between them: the loop of
`__make_code` counts 1 and `sscanf` with "%s %s" stores both words. -/
theorem make_code_two_words (a1 a2 w1 w2 : List Char) (sp : Char) (h1 : hexword w1)
    (h2 : hexword w2) (hsp : isspace sp = true) :
    __make_code a1 a2 (w1 ++ sp :: w2) =
      make_code (hexstr2bytes w1) (w1.length / 2) (hexstr2bytes w2) (w2.length / 2) 0 := by
  have hc : make_code_count (w1 ++ sp :: w2) 0 = 1 := by
    rw [make_code_count_hex _ _ _ h1.2, make_code_count_space _ _ _ hsp (by omega)]
    have := make_code_count_hex w2 [] 1 h2.2
    rw [List.append_nil] at this
    rw [this]; rfl
  have hs : sscanf_s_s (w1 ++ sp :: w2) a1 a2 = (w1, w2) := by
    unfold sscanf_s_s
    rw [scan_s_word w1 (sp :: w2) h1 (Or.inr ⟨sp, w2, rfl, hsp⟩)]
    have h3 : scan_s (sp :: w2) = some (w2, []) := by
      have := scan_s_blanks [sp] w2 (by simpa using hsp)
      rw [List.singleton_append] at this
      rw [this]
      have := scan_s_word w2 [] h2 (Or.inl rfl)
      rwa [List.append_nil] at this
    simp only [h3]
  unfold __make_code
  simp only [hc, hs, if_true]

theorem five_lines_code (a1 a2 : List Char) :
    __make_code a1 a2 "11112222 33334444".toList = ⟨0x11112222, 0x33334444, 0⟩ := by
  have h := make_code_two_words a1 a2 "11112222".toList "33334444".toList ' '
    (by decide) (by decide) (by decide)
  have h2 : "11112222".toList ++ ' ' :: "33334444".toList = "11112222 33334444".toList := by
    decide
  rw [h2] at h
  rw [h]
  decide

theorem five_lines_items (junk : Nat → List Char × List Char) :
    items junk 1 five_lines =
      [.title ⟨"Game A".toList, [], 0⟩, .desc ⟨"Cheat X".toList, [], 0⟩,
       .code ⟨0x11112222, 0x33334444, 0⟩,
       .title ⟨"Game B".toList, [], 0⟩, .desc ⟨"Cheat Y".toList, [], 0⟩] := by
  have h : items junk 1 five_lines =
      [.title ⟨"Game A".toList, [], 0⟩, .desc ⟨"Cheat X".toList, [], 0⟩,
       .code (__make_code (junk 3).1 (junk 3).2 "11112222 33334444".toList),
       .title ⟨"Game B".toList, [], 0⟩, .desc ⟨"Cheat Y".toList, [], 0⟩] := by rfl
  rw [h, five_lines_code]

/-- At the level of the lines the loop is given, when the titles fit: `parse_stream` returns
0 exactly when the tokens satisfy the grammar, and otherwise returns -1 at the first line
whose token is not expected, whatever follows that line. -/
theorem parse_stream_iff_grammar (junk : Nat → List Char × List Char) (list : gamelist_t)
    (stream : List (List Char)) (hfit : titles_fit stream) :
    ((∃ ctx1 list1, parse_stream junk list stream = .done 0 ctx1 list1 none) ↔
      grammar_ok (tokens stream)) ∧
    (¬ grammar_ok (tokens stream) →
      ∃ pre line post ctx1 list1, stream = pre ++ line :: post ∧ significant line = true ∧
        parse_stream junk list pre = .done 0 ctx1 list1 none ∧
        ctx1.next &&& line_token line = 0 ∧
        ∀ post2, parse_stream junk list (pre ++ line :: post2) =
          .done (-1) ctx1 list1 (some (parse_err (pre.length + 1) (line_token line)))) := by
  have hiff := accepts_iff_grammar_ok (tokens stream) (tokens_is_tok stream)
  have hmain : (∃ ctx1 list1, parse_stream junk list stream = .done 0 ctx1 list1 none) ↔
      grammar_ok (tokens stream) := by
    rcases parse_stream_cases junk list stream hfit with ⟨hacc, ctx1, h1⟩ | ⟨hacc, hrest⟩
    · exact ⟨fun _ => hiff.1 hacc, fun _ => ⟨ctx1, _, h1⟩⟩
    · obtain ⟨pre, line, post, ctx1, list1, hst, _, _, _, _, hres⟩ := hrest
      constructor
      · rintro ⟨ctx2, list2, h2⟩
        rw [hst, hres post] at h2
        simp at h2
      · intro hg
        rw [hiff.2 hg] at hacc
        cases hacc
  refine ⟨hmain, ?_⟩
  intro hng
  rcases parse_stream_cases junk list stream hfit with ⟨hacc, _⟩ | ⟨_, hrest⟩
  · exact absurd (hiff.1 hacc) hng
  · obtain ⟨pre, line, post, ctx1, list1, hst, hs, hrun, _, hbad, hres⟩ := hrest
    exact ⟨pre, line, post, ctx1, list1, hst, hs, hrun, hbad, hres⟩

/-- The list a successful parse into an empty list leaves is the grouping of the nodes. -/
theorem parse_stream_group (junk : Nat → List Char × List Char) (stream : List (List Char))
    (ctx1 : parser_ctx_t) (list1 : gamelist_t) (e : Option parse_error)
    (h : parse_stream junk [] stream = .done 0 ctx1 list1 e) :
    list1 = group (items junk 1 stream) := by
  have hfit := parse_stream_loop_ok_fit junk stream _ _ _ _ _ _ h
  rcases parse_stream_cases junk [] stream hfit with ⟨_, ctx2, h2⟩ | ⟨_, hrest⟩
  · rw [h2] at h
    simp only [parse_outcome.done.injEq, true_and] at h
    rw [← h.2.1]
    exact foldl_absorb_nil _ (items_fresh junk stream 1)
  · obtain ⟨pre, line, post, ctx2, list2, hst, _, _, _, _, hres⟩ := hrest
    rw [hst, hres post] at h
    simp at h

/-- The five-line input of the spec parses into its two games. -/
theorem five_lines_parse (junk : Nat → List Char × List Char) :
    ∃ ctx1, parse_stream junk [] five_lines = .done 0 ctx1 five_lines_result none := by
  rcases parse_stream_cases junk [] five_lines (by decide) with ⟨_, ctx1, h1⟩ | ⟨hacc, _⟩
  · rw [five_lines_items] at h1
    exact ⟨ctx1, h1⟩
  · exact absurd hacc (by decide)
/-- At the level of the lines the loop is given: when `parse_stream` returns with a stored
error, the error line is the 1-based index of the rejected line, the lines skipped before
it counted, and the state and list are those the lines before it leave. -/
theorem parse_stream_error_line (junk : Nat → List Char × List Char) (list : gamelist_t)
    (stream : List (List Char)) (ret : Int) (ctx1 : parser_ctx_t) (list1 : gamelist_t)
    (e : parse_error) (h : parse_stream junk list stream = .done ret ctx1 list1 (some e)) :
    ∃ pre line post, stream = pre ++ line :: post ∧ e.line = pre.length + 1 ∧
      significant line = true ∧ ctx1.next &&& line_token line = 0 ∧
      parse_stream junk list pre = .done 0 ctx1 list1 none ∧ ret = -1 ∧
      e = parse_err (pre.length + 1) (line_token line) := by
  obtain ⟨pre, line, post, hst, hs, hrun, hbad, hret, he⟩ :=
    parse_stream_loop_fail_split junk stream _ _ _ _ _ _ _ h
  rw [Nat.add_comm] at he
  exact ⟨pre, line, post, hst, by rw [he]; rfl, hs, hbad, hrun, hret, he⟩

theorem parse_stream_loop_skip_all (junk : Nat → List Char × List Char)
    (pre rest : List (List Char)) (h : ∀ l ∈ pre, significant l = false) :
    ∀ (nl : Nat) (ctx : parser_ctx_t) (list : gamelist_t),
      parse_stream_loop junk (pre ++ rest) nl ctx list =
        parse_stream_loop junk rest (nl + pre.length) ctx list := by
  induction pre with
  | nil => intro nl ctx list; rfl
  | cons l pre ih =>
    intro nl ctx list
    rw [List.cons_append, parse_stream_loop_skip junk _ nl ctx list (h l (List.mem_cons_self _ _)),
      ih (fun x hx => h x (List.mem_cons_of_mem _ hx))]
    congr 1
    simp only [List.length_cons]; omega

/-- At the level of the lines the loop is given: when the first significant line is not a
quoted game title, `parse_stream` returns -1 with the error stored for that line. -/
theorem parse_stream_first_not_title (junk : Nat → List Char × List Char) (list : gamelist_t)
    (pre : List (List Char)) (line : List Char) (post : List (List Char))
    (hpre : ∀ l ∈ pre, significant l = false) (hs : significant line = true)
    (hnt : is_game_title (screen line) = false) :
    parse_stream junk list (pre ++ line :: post) =
      .done (-1) (init_parser_ctx uninit_ctx) list
        (some (parse_err (pre.length + 1) (line_token line))) ∧
    (line_token line = TOK_CHEAT_DESC ∨ line_token line = TOK_CHEAT_CODE) := by
  have htok : line_token line = TOK_CHEAT_DESC ∨ line_token line = TOK_CHEAT_CODE := by
    unfold line_token get_token
    rw [hnt]
    by_cases hc : is_cheat_code (screen line) = true
    · right; simp [hc]
    · left; simp [hc]
  have hbad : (init_parser_ctx uninit_ctx).next &&& line_token line = 0 := by
    rcases htok with h | h <;> rw [h] <;> decide
  refine ⟨?_, htok⟩
  unfold parse_stream
  rw [parse_stream_loop_skip_all junk pre _ hpre,
    parse_stream_loop_reject junk line post _ _ _ hs hbad, Nat.add_comm]
theorem is_cheat_code_loop_hex (w s : List Char) (k i : Nat) (h : ∀ c ∈ w, isxdigit c = true) :
    is_cheat_code_loop (w ++ s) k i = is_cheat_code_loop s k (i + w.length) := by
  induction w generalizing i with
  | nil => rfl
  | cons x w ih =>
    have hx := h x (List.mem_cons_self _ _)
    have hsp := isxdigit_not_isspace x hx
    have e : is_cheat_code_loop (x :: (w ++ s)) k i = is_cheat_code_loop (w ++ s) k (i + 1) := by
      simp only [is_cheat_code_loop, hsp, hx, Bool.false_eq_true, if_false, Bool.not_true]
    rw [List.cons_append, e, ih (i + 1) (fun c hc => h c (List.mem_cons_of_mem _ hc))]
    congr 1
    simp only [List.length_cons]
    omega

theorem is_cheat_code_loop_blank0 (ws s : List Char) (k : Nat) (h : ∀ c ∈ ws, isspace c = true) :
    is_cheat_code_loop (ws ++ s) k 0 = is_cheat_code_loop s k 0 := by
  induction ws with
  | nil => rfl
  | cons x ws ih =>
    have hx := h x (List.mem_cons_self _ _)
    have e : is_cheat_code_loop (x :: (ws ++ s)) k 0 = is_cheat_code_loop (ws ++ s) k 0 := by
      simp only [is_cheat_code_loop, hx, if_true, gt_iff_lt, lt_self_iff_false, if_false]
    rw [List.cons_append, e]
    exact ih (fun c hc => h c (List.mem_cons_of_mem _ hc))

theorem is_cheat_code_loop_blanks (ws s : List Char) (k i : Nat) (h : blanks ws) (hi : i > 0) :
    is_cheat_code_loop (ws ++ s) k i = is_cheat_code_loop s (k + 1) 0 := by
  obtain ⟨hne, hall⟩ := h
  cases ws with
  | nil => exact absurd rfl hne
  | cons x ws =>
    have hx := hall x (List.mem_cons_self _ _)
    have e : is_cheat_code_loop (x :: (ws ++ s)) k i = is_cheat_code_loop (ws ++ s) (k + 1) 0 := by
      simp only [is_cheat_code_loop, hx, if_true, hi]
    rw [List.cons_append, e]
    exact is_cheat_code_loop_blank0 ws s (k + 1) (fun c hc => hall c (List.mem_cons_of_mem _ hc))

theorem hexword_length_pos {w : List Char} (h : hexword w) : 0 < w.length :=
  List.length_pos.2 h.1

theorem hexword_not_title {w : List Char} (s : List Char) (h : hexword w) :
    is_game_title (w ++ s) = false := by
  obtain ⟨hne, hall⟩ := h
  cases w with
  | nil => exact absurd rfl hne
  | cons x w =>
    have hx := hall x (List.mem_cons_self _ _)
    have : x ≠ DQUOTE := by
      intro hq
      rw [hq] at hx
      exact absurd hx (by decide)
    simp [is_game_title, this]

/-- A line of two hex words and a run of white space between them is a CheatCode. -/
theorem get_token_two_words (w1 ws w2 : List Char) (top : Int) (h1 : hexword w1)
    (hws : blanks ws) (h2 : hexword w2) :
    get_token (w1 ++ ws ++ w2) top = TOK_CHEAT_CODE := by
  have hloop : is_cheat_code_loop (w1 ++ (ws ++ w2)) 0 0 = some 1 := by
    rw [is_cheat_code_loop_hex _ _ _ _ h1.2,
      is_cheat_code_loop_blanks _ _ _ _ hws (by have := hexword_length_pos h1; omega)]
    have := is_cheat_code_loop_hex w2 [] 1 0 h2.2
    rw [List.append_nil] at this
    rw [this]
    rfl
  unfold get_token
  rw [List.append_assoc, hexword_not_title _ h1]
  simp [is_cheat_code, hloop]

/-- A line of three hex words and runs of white space between them is a CheatCode. -/
theorem get_token_three_words (w1 ws1 w2 ws2 w3 : List Char) (top : Int) (h1 : hexword w1)
    (hws1 : blanks ws1) (h2 : hexword w2) (hws2 : blanks ws2) (h3 : hexword w3) :
    get_token (w1 ++ ws1 ++ w2 ++ ws2 ++ w3) top = TOK_CHEAT_CODE := by
  have hloop : is_cheat_code_loop (w1 ++ (ws1 ++ (w2 ++ (ws2 ++ w3)))) 0 0 = some 2 := by
    rw [is_cheat_code_loop_hex _ _ _ _ h1.2,
      is_cheat_code_loop_blanks _ _ _ _ hws1 (by have := hexword_length_pos h1; omega),
      is_cheat_code_loop_hex _ _ _ _ h2.2,
      is_cheat_code_loop_blanks _ _ _ _ hws2 (by have := hexword_length_pos h2; omega)]
    have := is_cheat_code_loop_hex w3 [] 2 0 h3.2
    rw [List.append_nil] at this
    rw [this]
    rfl
  unfold get_token
  simp only [List.append_assoc]
  rw [hexword_not_title _ h1]
  simp [is_cheat_code, hloop]

theorem make_code_count_blank_ge (s : List Char) (k : Nat) (h : ∃ c ∈ s, isspace c = true)
    (hk : k < 3) : k + 1 ≤ make_code_count s k := by
  induction s with
  | nil => simp at h
  | cons x s ih =>
    unfold make_code_count
    rw [if_pos hk]
    by_cases hx : isspace x = true
    · have hxd : isxdigit x = false := by
        cases hd : isxdigit x
        · rfl
        · rw [isxdigit_not_isspace x hd] at hx; cases hx
      simp only [hxd, Bool.false_eq_true, if_false, hx, if_true]
      exact make_code_count_mono s (k + 1)
    · have hs : ∃ c ∈ s, isspace c = true := by
        obtain ⟨c, hc, hcs⟩ := h
        rcases List.mem_cons.1 hc with rfl | hc
        · exact absurd hcs hx
        · exact ⟨c, hc, hcs⟩
      by_cases hd : isxdigit x = true
      · simp only [hd, if_true]
        exact ih hs
      · simp only [hd, hx, if_false]
        exact ih hs

/-- `%08x` at the start of a hex word of at most 8 digits followed by white space. -/
theorem scan_08x_word (w ws rest : List Char) (h : hexword w) (hlen : w.length ≤ 8)
    (hws : blanks ws) : scan_08x (w ++ ws ++ rest) = some (hexnum w, ws ++ rest) := by
  obtain ⟨x, w1, rfl⟩ : ∃ x w1, w = x :: w1 := by
    cases w with
    | nil => exact absurd rfl h.1
    | cons x w1 => exact ⟨x, w1, rfl⟩
  obtain ⟨c, ws1, rfl⟩ : ∃ c ws1, ws = c :: ws1 := by
    cases ws with
    | nil => exact absurd rfl hws.1
    | cons c ws1 => exact ⟨c, ws1, rfl⟩
  have hx : isspace x = false := isxdigit_not_isspace x (h.2 x (List.mem_cons_self _ _))
  have hc : isspace c = true := hws.2 c (List.mem_cons_self _ _)
  have hcd : isxdigit c = false := by
    cases hd : isxdigit c
    · rfl
    · rw [isxdigit_not_isspace c hd] at hc; cases hc
  have h1 : ((x :: w1) ++ (c :: ws1) ++ rest).dropWhile isspace =
      (x :: w1) ++ ((c :: ws1) ++ rest) := by
    simp [List.dropWhile_cons, hx]
  have h2 : (((x :: w1) ++ ((c :: ws1) ++ rest)).take 8).takeWhile isxdigit = x :: w1 := by
    rw [List.take_append_eq_append_take, List.take_of_length_le hlen,
      takeWhile_append_all _ _ _ h.2]
    cases hn : 8 - (x :: w1).length with
    | zero => simp
    | succ n => simp [List.takeWhile_cons, hcd]
  unfold scan_08x
  simp only [h1, h2]
  rw [if_neg (by simp)]
  simp

/-- A line of three hex words, the first of at most 8 digits: `sscanf` with "%08x %s %s"
stores the first word in `tag` and the two others in the arrays. -/
theorem make_code_three_words (a1 a2 w1 ws1 w2 ws2 w3 : List Char) (h1 : hexword w1)
    (hlen : w1.length ≤ 8) (hws1 : blanks ws1) (h2 : hexword w2) (hws2 : blanks ws2)
    (h3 : hexword w3) :
    __make_code a1 a2 (w1 ++ ws1 ++ w2 ++ ws2 ++ w3) =
      make_code (hexstr2bytes w2) (w2.length / 2) (hexstr2bytes w3) (w3.length / 2)
        (hexnum w1) := by
  have hc : 2 ≤ make_code_count (w1 ++ ws1 ++ w2 ++ ws2 ++ w3) 0 := by
    obtain ⟨c, ws, rfl⟩ : ∃ c ws, ws1 = c :: ws := by
      cases ws1 with
      | nil => exact absurd rfl hws1.1
      | cons c ws => exact ⟨c, ws, rfl⟩
    obtain ⟨d, hd⟩ : ∃ d, d ∈ ws2 := List.exists_mem_of_ne_nil _ hws2.1
    simp only [List.append_assoc]
    rw [make_code_count_hex _ _ _ h1.2, List.cons_append,
      make_code_count_space _ _ _ (hws1.2 c (List.mem_cons_self _ _)) (by omega)]
    exact make_code_count_blank_ge _ 1 ⟨d, by simp [hd], hws2.2 d hd⟩ (by omega)
  have hscan : sscanf_x_s_s (w1 ++ ws1 ++ w2 ++ ws2 ++ w3) 0 a1 a2 = (hexnum w1, w2, w3) := by
    have e1 : w1 ++ ws1 ++ w2 ++ ws2 ++ w3 = w1 ++ ws1 ++ (w2 ++ ws2 ++ w3) := by
      simp only [List.append_assoc]
    have hs2 : scan_s (ws1 ++ (w2 ++ ws2 ++ w3)) = some (w2, ws2 ++ w3) := by
      rw [scan_s_blanks _ _ hws1.2, List.append_assoc]
      obtain ⟨c, ws, rfl⟩ : ∃ c ws, ws2 = c :: ws := by
        cases ws2 with
        | nil => exact absurd rfl hws2.1
        | cons c ws => exact ⟨c, ws, rfl⟩
      exact scan_s_word w2 _ h2 (Or.inr ⟨c, ws ++ w3, rfl, hws2.2 c (List.mem_cons_self _ _)⟩)
    have hs3 : scan_s (ws2 ++ w3) = some (w3, []) := by
      rw [scan_s_blanks _ _ hws2.2]
      have := scan_s_word w3 [] h3 (Or.inl rfl)
      rwa [List.append_nil] at this
    unfold sscanf_x_s_s
    rw [e1, scan_08x_word w1 ws1 _ h1 hlen hws1]
    simp only [sscanf_s_s, hs2, hs3]
  unfold __make_code
  simp only [hscan]
  rw [if_neg (by omega), if_pos (by omega)]

/-- Claim C6, amended: for a line of exactly 2 hex words, each of an even number of
digits and a value that fits in 32 bits, separated by one white-space character, the
line is a CheatCode and the code of `__make_code` has the first word as address, the
second as value and tag 0, whatever the arrays held before. -/
theorem make_code_two_word_line (a1 a2 w1 w2 : List Char) (sp : Char) (h1 : hexword w1)
    (h2 : hexword w2) (hsp : isspace sp = true)
    (he1 : w1.length % 2 = 0) (he2 : w2.length % 2 = 0)
    (hv1 : hexnum w1 < 2 ^ 32) (hv2 : hexnum w2 < 2 ^ 32) :
    get_token (w1 ++ sp :: w2) 0 = TOK_CHEAT_CODE ∧
    __make_code a1 a2 (w1 ++ sp :: w2) = { addr := hexnum w1, val := hexnum w2, tag := 0 } := by
  constructor
  · have := get_token_two_words w1 [sp] w2 0 h1 ⟨by simp, by simpa using hsp⟩ h2
    simpa using this
  · rw [make_code_two_words a1 a2 w1 w2 sp h1 h2 hsp,
      make_code_words w1 w2 0 he1 hv1 he2 hv2 (by norm_num)]

theorem make_code_two_word_line_witness :
    get_token ("10B8DAFA".toList ++ ' ' :: "00003F00".toList) 0 = TOK_CHEAT_CODE ∧
    __make_code "junk".toList [] ("10B8DAFA".toList ++ ' ' :: "00003F00".toList) =
      { addr := hexnum "10B8DAFA".toList, val := hexnum "00003F00".toList, tag := 0 } :=
  make_code_two_word_line "junk".toList [] "10B8DAFA".toList "00003F00".toList ' '
    (by decide) (by decide) (by decide) (by decide) (by decide) (by decide) (by decide)

/-- Claim C6 as stated fails: with a first word of 3 digits the address loses the last
digit (`ABC 12` gives address 0xAB; `hexstr2bytes` decodes `ABC` and `ABD` to the same
byte), and with two blanks between the words the line is read as tag and address, the
value coming from the array `a2` as it was on entry. -/
theorem make_code_two_word_line_counterexample :
    (¬ ∀ (a1 a2 w1 ws w2 : List Char), hexword w1 → blanks ws → hexword w2 →
      get_token (w1 ++ ws ++ w2) 0 = TOK_CHEAT_CODE →
      __make_code a1 a2 (w1 ++ ws ++ w2) =
        { addr := hexnum w1, val := hexnum w2, tag := 0 }) ∧
    get_token "ABC 12".toList 0 = TOK_CHEAT_CODE ∧
    __make_code [] [] "ABC 12".toList = { addr := 0xAB, val := 0x12, tag := 0 } ∧
    hexnum "ABC".toList = 0xABC ∧
    get_token "AB  CD".toList 0 = TOK_CHEAT_CODE ∧
    __make_code [] [] "AB  CD".toList = { addr := 0xCD, val := 0, tag := 0xAB } ∧
    __make_code [] "77".toList "AB  CD".toList = { addr := 0xCD, val := 0x77, tag := 0xAB } ∧
    hexstr2bytes "ABC".toList = [0xAB] ∧ hexstr2bytes "ABD".toList = [0xAB] := by
  refine ⟨?_, by decide, by decide, by decide, by decide, by decide, by decide, by decide,
    by decide⟩
  intro h
  have h1 := h [] [] "ABC".toList " ".toList "12".toList (by decide) (by decide) (by decide)
    (by decide)
  exact absurd h1 (by decide)

/-- Claim C7, amended: for a line of exactly 3 hex words, the first of at most 8 digits,
the second and the third of an even number of digits and values that fit in 32 bits, the
line is a CheatCode and the code of `__make_code` has the first word as tag, the second
as address and the third as value. -/
theorem make_code_three_word_line (a1 a2 w1 ws1 w2 ws2 w3 : List Char) (h1 : hexword w1)
    (hlen : w1.length ≤ 8) (hws1 : blanks ws1) (h2 : hexword w2) (hws2 : blanks ws2)
    (h3 : hexword w3) (he2 : w2.length % 2 = 0) (he3 : w3.length % 2 = 0)
    (hv2 : hexnum w2 < 2 ^ 32) (hv3 : hexnum w3 < 2 ^ 32) :
    get_token (w1 ++ ws1 ++ w2 ++ ws2 ++ w3) 0 = TOK_CHEAT_CODE ∧
    __make_code a1 a2 (w1 ++ ws1 ++ w2 ++ ws2 ++ w3) =
      { addr := hexnum w2, val := hexnum w3, tag := hexnum w1 } := by
  constructor
  · exact get_token_three_words w1 ws1 w2 ws2 w3 0 h1 hws1 h2 hws2 h3
  · rw [make_code_three_words a1 a2 w1 ws1 w2 ws2 w3 h1 hlen hws1 h2 hws2 h3,
      make_code_words w2 w3 (hexnum w1) he2 hv2 he3 hv3 (hexnum_lt_32 w1 hlen)]

theorem make_code_three_word_line_witness :
    get_token ("F10".toList ++ " ".toList ++ "00B80000".toList ++ " ".toList ++
      "00B8DA00".toList) 0 = TOK_CHEAT_CODE ∧
    __make_code [] [] ("F10".toList ++ " ".toList ++ "00B80000".toList ++ " ".toList ++
      "00B8DA00".toList) =
      { addr := hexnum "00B80000".toList, val := hexnum "00B8DA00".toList,
        tag := hexnum "F10".toList } :=
  make_code_three_word_line [] [] "F10".toList " ".toList "00B80000".toList " ".toList
    "00B8DA00".toList (by decide) (by decide) (by decide) (by decide) (by decide) (by decide)
    (by decide) (by decide) (by decide) (by decide)

/-- Claim C7 as stated fails: an address of 3 digits loses its last digit (`0 ABC 12`
gives address 0xAB; `hexstr2bytes` decodes `ABC` and `ABD` to the same byte), and a first
word of 9 digits is cut after 8 by `%08x`, the rest being read as the address
(`000000001 AB CD` gives tag 0, address 0, value 0xAB). -/
theorem make_code_three_word_line_counterexample :
    (¬ ∀ (a1 a2 w1 ws1 w2 ws2 w3 : List Char), hexword w1 → blanks ws1 → hexword w2 →
      blanks ws2 → hexword w3 →
      hexnum w1 < 2 ^ 32 → hexnum w2 < 2 ^ 32 → hexnum w3 < 2 ^ 32 →
      __make_code a1 a2 (w1 ++ ws1 ++ w2 ++ ws2 ++ w3) =
        { addr := hexnum w2, val := hexnum w3, tag := hexnum w1 }) ∧
    get_token "0 ABC 12".toList 0 = TOK_CHEAT_CODE ∧
    __make_code [] [] "0 ABC 12".toList = { addr := 0xAB, val := 0x12, tag := 0 } ∧
    hexnum "ABC".toList = 0xABC ∧
    get_token "000000001 AB CD".toList 0 = TOK_CHEAT_CODE ∧
    __make_code [] [] "000000001 AB CD".toList = { addr := 0, val := 0xAB, tag := 0 } ∧
    hexnum "000000001".toList = 1 ∧
    hexstr2bytes "ABC".toList = [0xAB] ∧ hexstr2bytes "ABD".toList = [0xAB] := by
  refine ⟨?_, by decide, by decide, by decide, by decide, by decide, by decide, by decide,
    by decide⟩
  intro h
  have h1 := h [] [] "0".toList " ".toList "ABC".toList " ".toList "12".toList
    (by decide) (by decide) (by decide) (by decide) (by decide) (by decide) (by decide)
    (by decide)
  exact absurd h1 (by decide)
theorem unlines_append (a b : List (List Char)) : unlines (a ++ b) = unlines a ++ unlines b := by
  simp [unlines]

theorem unlines_flatten (ls : List (List (List Char))) :
    unlines ls.flatten = (ls.map unlines).flatten := by
  induction ls with
  | nil => rfl
  | cons a ls ih => simp [unlines_append, ih]

theorem write_code_eq (k : code_t) : write_code k = unlines [code_line k] := by
  simp [write_code, code_line, unlines]

theorem write_cheat_eq (c : cheat_t) : write_cheat c = unlines (cheat_lines c) := by
  unfold write_cheat cheat_lines
  rw [unlines_cons]
  have h : (c.codes.map write_code).flatten = unlines (c.codes.map code_line) := by
    induction c.codes with
    | nil => rfl
    | cons k ks ih =>
      simp only [List.map_cons, List.flatten_cons, ih, unlines_cons, write_code_eq]
      simp [unlines]
  rw [h]
  simp

theorem write_game_eq (g : game_t) : write_game g = unlines (game_lines g) := by
  unfold write_game game_lines
  have h : (g.cheats.map write_cheat).flatten = unlines (g.cheats.map cheat_lines).flatten := by
    rw [unlines_flatten]
    congr 1
    simp only [List.map_map]
    apply List.map_congr_left
    intro c _
    exact write_cheat_eq c
  rw [h]
  simp [unlines]

/-- The text `cheats_write` prints is the text of the written lines. -/
theorem cheats_write_eq (list : gamelist_t) : cheats_write list = unlines (written_lines list) := by
  unfold cheats_write written_lines
  rw [unlines_flatten]
  congr 1
  simp only [List.map_map]
  apply List.map_congr_left
  intro g _
  exact write_game_eq g
theorem trim_str_eq (s : List Char) :
    trim_str s = (s.dropWhile isspace).rdropWhile isspace := rfl

theorem term_str_of_cmt_free (s : List Char) (h : cmt_free s) : term_str s is_cmt_str = s := by
  induction s with
  | nil => rfl
  | cons c s ih =>
    have h2 : cmt_free s := List.Chain'.tail h
    have h3 : is_cmt_str (c :: s) = false := by
      cases s with
      | nil => rfl
      | cons d s =>
        have := (List.chain'_cons.1 h).1
        simp only [is_cmt_str, Bool.and_eq_false_imp, beq_iff_eq]
        intro hc
        simp only [beq_eq_false_iff_ne, ne_eq]
        intro hd
        exact this ⟨hc, hd⟩
    simp only [term_str, h3, Bool.false_eq_true, if_false, ih h2]

theorem term_str_head (s : List Char) (c : Char)
    (h : (term_str s is_cmt_str).head? = some c) : s.head? = some c := by
  cases s with
  | nil => simp [term_str] at h
  | cons d s =>
    unfold term_str at h
    split at h
    · simp at h
    · simpa using h

theorem cmt_free_term_str (s : List Char) : cmt_free (term_str s is_cmt_str) := by
  induction s with
  | nil => exact List.chain'_nil
  | cons c s ih =>
    unfold term_str
    split
    · exact List.chain'_nil
    · rename_i hc
      apply List.Chain'.cons' ih
      intro y hy
      have hy2 : s.head? = some y := term_str_head s y hy
      cases s with
      | nil => simp at hy2
      | cons d s =>
        simp only [List.head?_cons, Option.some.injEq] at hy2
        subst hy2
        intro ⟨h1, h2⟩
        apply hc
        simp [is_cmt_str, h1, h2]

theorem trim_str_prefix_suffix (s : List Char) : trim_str s <:+: s := by
  rw [trim_str_eq]
  exact List.IsInfix.trans (List.rdropWhile_prefix isspace _).isInfix
    (List.dropWhile_suffix isspace).isInfix

theorem term_str_initial (s : List Char) : term_str s is_cmt_str <+: s := by
  induction s with
  | nil => exact List.prefix_refl _
  | cons c s ih =>
    unfold term_str
    split
    · exact List.nil_prefix
    · exact (List.prefix_cons_inj c).2 ih

theorem screen_within (s : List Char) : screen s <:+: s :=
  List.IsInfix.trans (trim_str_prefix_suffix _) (term_str_initial s).isInfix

theorem cmt_free_screen (s : List Char) : cmt_free (screen s) :=
  List.Chain'.infix (cmt_free_term_str s) (trim_str_prefix_suffix _)

theorem trim_str_fixed (s : List Char)
    (hhead : ∀ c, s.head? = some c → isspace c = false)
    (hlast : ∀ c, s.getLast? = some c → isspace c = false) : trim_str s = s := by
  rw [trim_str_eq]
  have h1 : s.dropWhile isspace = s := by
    cases s with
    | nil => rfl
    | cons c s => simp [List.dropWhile_cons, hhead c rfl]
  rw [h1, List.rdropWhile_eq_self_iff]
  intro hl
  have := hlast (s.getLast hl) (List.getLast?_eq_getLast s hl)
  simp [this]

theorem trim_str_head (s : List Char) (c : Char) (h : (trim_str s).head? = some c) :
    isspace c = false := by
  rw [trim_str_eq] at h
  have hp : (s.dropWhile isspace).rdropWhile isspace <+: s.dropWhile isspace :=
    List.rdropWhile_prefix isspace _
  obtain ⟨t, ht⟩ := hp
  have h2 : (s.dropWhile isspace).head? = some c := by
    rw [← ht]
    cases hx : (s.dropWhile isspace).rdropWhile isspace with
    | nil => rw [hx] at h; simp at h
    | cons a l => rw [hx] at h; simpa using h
  have h3 := List.head?_dropWhile_not isspace s
  rw [h2] at h3
  simpa using h3

theorem trim_str_last (s : List Char) (c : Char) (h : (trim_str s).getLast? = some c) :
    isspace c = false := by
  rw [trim_str_eq] at h
  have hne : (s.dropWhile isspace).rdropWhile isspace ≠ [] := by
    intro h0; rw [h0] at h; simp at h
  have h1 := List.rdropWhile_last_not isspace _ hne
  rw [List.getLast?_eq_getLast _ hne] at h
  simp only [Option.some.injEq] at h
  rw [h] at h1
  simpa using h1

theorem trim_str_idem (s : List Char) : trim_str (trim_str s) = trim_str s :=
  trim_str_fixed _ (trim_str_head s) (trim_str_last s)

theorem screen_head (s : List Char) (c : Char) (h : (screen s).head? = some c) :
    isspace c = false := trim_str_head _ c h

theorem screen_last (s : List Char) (c : Char) (h : (screen s).getLast? = some c) :
    isspace c = false := trim_str_last _ c h

/-- A text without comment marker, white space at its ends is left as it is by the
screener. -/
theorem screen_fixed (s : List Char) (hc : cmt_free s)
    (hhead : ∀ c, s.head? = some c → isspace c = false)
    (hlast : ∀ c, s.getLast? = some c → isspace c = false) : screen s = s := by
  unfold screen
  rw [term_str_of_cmt_free s hc, trim_str_fixed s hhead hlast]

theorem screen_idem (s : List Char) : screen (screen s) = screen s :=
  screen_fixed _ (cmt_free_screen s) (screen_head s) (screen_last s)

theorem is_empty_str_false (s : List Char) (c : Char) (hc : c ∈ s) (h : isspace c = false) :
    is_empty_str s = false := by
  unfold is_empty_str
  rw [Bool.eq_false_iff]
  intro hall
  rw [List.all_eq_true] at hall
  rw [hall c hc] at h
  cases h

/-- A non-empty text the screener leaves as it is makes a significant line. -/
theorem significant_of_screen_fixed (s : List Char) (hne : s ≠ []) (h : screen s = s) :
    significant s = true := by
  obtain ⟨c, s1, rfl⟩ : ∃ c s1, s = c :: s1 := by
    cases s with
    | nil => exact absurd rfl hne
    | cons c s1 => exact ⟨c, s1, rfl⟩
  have hc : isspace c = false := screen_head (c :: s1) c (by rw [h]; rfl)
  unfold significant
  rw [is_empty_str_false (c :: s1) c (List.mem_cons_self _ _) hc, h]
  simp
theorem hexdigit_spec : ∀ k, k < 16 →
    isxdigit (hexdigit k) = true ∧ hexval (hexdigit k) = k ∧ hexdigit k ≠ LF := by
  decide

theorem hexdigit_mod (n : Nat) : hexdigit n = hexdigit (n % 16) := by
  simp [hexdigit]

theorem isxdigit_hexdigit (n : Nat) : isxdigit (hexdigit n) = true := by
  rw [hexdigit_mod]; exact (hexdigit_spec _ (Nat.mod_lt _ (by omega))).1

theorem hexval_hexdigit (n : Nat) : hexval (hexdigit n) = n % 16 := by
  rw [hexdigit_mod]; exact (hexdigit_spec _ (Nat.mod_lt _ (by omega))).2.1

theorem hexdigit_ne_LF (n : Nat) : hexdigit n ≠ LF := by
  rw [hexdigit_mod]; exact (hexdigit_spec _ (Nat.mod_lt _ (by omega))).2.2

theorem fmt_08X_length (n : Nat) : (fmt_08X n).length = 8 := rfl

theorem fmt_08X_hexword (n : Nat) : hexword (fmt_08X n) := by
  refine ⟨by simp [fmt_08X], ?_⟩
  intro c hc
  simp only [fmt_08X, List.mem_cons, List.mem_singleton, List.not_mem_nil, or_false] at hc
  rcases hc with h | h | h | h | h | h | h | h <;> rw [h] <;> exact isxdigit_hexdigit _

theorem hexnum_fmt_08X (n : Nat) : hexnum (fmt_08X n) = n % 2 ^ 32 := by
  simp only [hexnum, fmt_08X, List.foldl_cons, List.foldl_nil, hexval_hexdigit]
  norm_num
  omega

theorem LF_not_mem_fmt_08X (n : Nat) : LF ∉ fmt_08X n := by
  intro hc
  simp only [fmt_08X, List.mem_cons, List.mem_singleton, List.not_mem_nil, or_false] at hc
  rcases hc with h | h | h | h | h | h | h | h <;> exact hexdigit_ne_LF _ h.symm

theorem cmt_free_of_no_slash (s : List Char) (h : ∀ c ∈ s, c ≠ SLASH) : cmt_free s := by
  induction s with
  | nil => exact List.chain'_nil
  | cons c s ih =>
    apply List.Chain'.cons' (ih (fun d hd => h d (List.mem_cons_of_mem _ hd)))
    intro y _ hy
    exact h c (List.mem_cons_self _ _) hy.1

theorem isxdigit_ne_slash (c : Char) (h : isxdigit c = true) : c ≠ SLASH := by
  intro hc
  rw [hc] at h
  exact absurd h (by decide)

/-- The line written for a code is read back as a CheatCode with the same address and
value and tag 0, whatever the arrays of `__make_code` held. -/
theorem code_line_item (a1 a2 : List Char) (k : code_t) (hk : good_code k) :
    significant (code_line k) = true ∧ line_token (code_line k) = TOK_CHEAT_CODE ∧
      line_item a1 a2 (code_line k) = .code (erase_code_tag k) ∧
      LF ∉ code_line k ∧ (code_line k).length = 17 := by
  have hw1 := fmt_08X_hexword k.addr
  have hw2 := fmt_08X_hexword k.val
  have hsp : isspace ' ' = true := by decide
  have hmem : ∀ c ∈ code_line k, isxdigit c = true ∨ c = ' ' := by
    intro c hc
    simp only [code_line, List.mem_append, List.mem_cons] at hc
    rcases hc with h | h | h
    · exact Or.inl (hw1.2 c h)
    · exact Or.inr h
    · exact Or.inl (hw2.2 c h)
  have hfree : cmt_free (code_line k) := by
    apply cmt_free_of_no_slash
    intro c hc
    rcases hmem c hc with h | h
    · exact isxdigit_ne_slash c h
    · rw [h]; decide
  have hscreen : screen (code_line k) = code_line k := by
    apply screen_fixed _ hfree
    · intro c hc
      simp only [code_line, fmt_08X, List.cons_append, List.head?_cons, Option.some.injEq] at hc
      rw [← hc]
      exact isxdigit_not_isspace _ (isxdigit_hexdigit _)
    · intro c hc
      simp only [code_line, fmt_08X, List.cons_append, List.nil_append, List.getLast?_cons_cons,
        List.getLast?_singleton, Option.some.injEq] at hc
      rw [← hc]
      exact isxdigit_not_isspace _ (isxdigit_hexdigit _)
  have hne : code_line k ≠ [] := by simp [code_line]
  have hv1 : hexnum (fmt_08X k.addr) < 2 ^ 32 := by
    rw [hexnum_fmt_08X]; exact Nat.mod_lt _ (by norm_num)
  have hv2 : hexnum (fmt_08X k.val) < 2 ^ 32 := by
    rw [hexnum_fmt_08X]; exact Nat.mod_lt _ (by norm_num)
  have hmk : get_token (fmt_08X k.addr ++ ' ' :: fmt_08X k.val) 0 = TOK_CHEAT_CODE ∧
      __make_code a1 a2 (fmt_08X k.addr ++ ' ' :: fmt_08X k.val) =
        { addr := hexnum (fmt_08X k.addr), val := hexnum (fmt_08X k.val), tag := 0 } := by
    constructor
    · have := get_token_two_words (fmt_08X k.addr) [' '] (fmt_08X k.val) 0 hw1
        ⟨by simp, by simpa using hsp⟩ hw2
      simpa using this
    · rw [make_code_two_words a1 a2 _ _ ' ' hw1 hw2 hsp,
        make_code_words _ _ 0 (by rw [fmt_08X_length]) hv1 (by rw [fmt_08X_length]) hv2
          (by norm_num)]
  rw [hexnum_fmt_08X, hexnum_fmt_08X, Nat.mod_eq_of_lt hk.1, Nat.mod_eq_of_lt hk.2] at hmk
  refine ⟨significant_of_screen_fixed _ hne hscreen, ?_, ?_, ?_, ?_⟩
  · unfold line_token
    rw [hscreen]
    exact hmk.1
  · unfold line_item node
    rw [hscreen]
    have h1 : get_token (code_line k) 0 = TOK_CHEAT_CODE := hmk.1
    rw [h1, if_neg (by decide), if_pos rfl]
    exact congrArg item.code hmk.2
  · intro h
    simp only [code_line, List.mem_append, List.mem_cons] at h
    rcases h with h | h | h
    · exact LF_not_mem_fmt_08X _ h
    · exact absurd h (by decide)
    · exact LF_not_mem_fmt_08X _ h
  · simp [code_line, fmt_08X_length]

/-- The line written for a title is read back as a GameTitle with the same title. -/
theorem title_line_item (a1 a2 t : List Char) (h : good_title t) :
    significant (DQUOTE :: t ++ [DQUOTE]) = true ∧
      line_token (DQUOTE :: t ++ [DQUOTE]) = TOK_GAME_TITLE ∧
      line_item a1 a2 (DQUOTE :: t ++ [DQUOTE]) =
        .title { title := t, cheats := [], tag := 0 } := by
  obtain ⟨hne, hlen, _, hfree⟩ := h
  have hq : isspace DQUOTE = false := by decide
  have hqs : DQUOTE ≠ SLASH := by decide
  have hfreeW : cmt_free (DQUOTE :: t ++ [DQUOTE]) := by
    rw [List.cons_append]
    apply List.Chain'.cons'
    · apply List.Chain'.append hfree (List.chain'_singleton _)
      intro x _ y hy hxy
      simp only [List.head?_cons, Option.mem_def, Option.some.injEq] at hy
      rw [← hy] at hxy
      exact hqs hxy.2
    · intro y _ hy
      exact hqs hy.1
  have hlast : (DQUOTE :: t ++ [DQUOTE]).getLast? = some DQUOTE := by
    rw [List.cons_append, ← List.cons_append, List.getLast?_append]
    simp
  have hscreen : screen (DQUOTE :: t ++ [DQUOTE]) = DQUOTE :: t ++ [DQUOTE] := by
    apply screen_fixed _ hfreeW
    · intro c hc
      simp only [List.cons_append, List.head?_cons, Option.some.injEq] at hc
      rw [← hc]; exact hq
    · intro c hc
      rw [hlast] at hc
      simp only [Option.some.injEq] at hc
      rw [← hc]; exact hq
  have htitle : is_game_title (DQUOTE :: t ++ [DQUOTE]) = true := by
    have hl : 0 < t.length := List.length_pos.2 hne
    unfold is_game_title
    rw [hlast]
    simp only [List.cons_append, List.length_cons, List.length_append, List.length_singleton,
      List.head?_cons, beq_self_eq_true, Bool.and_true, decide_eq_true_eq]
    omega
  have htok : get_token (DQUOTE :: t ++ [DQUOTE]) 0 = TOK_GAME_TITLE := by
    unfold get_token
    rw [htitle]; rfl
  refine ⟨significant_of_screen_fixed _ (by simp) hscreen, ?_, ?_⟩
  · unfold line_token
    rw [hscreen]; exact htok
  · unfold line_item node
    rw [hscreen, htok, if_pos rfl]
    have hmid : ((DQUOTE :: t ++ [DQUOTE]).drop 1).take ((DQUOTE :: t ++ [DQUOTE]).length - 2)
        = t := by
      have h0 : (DQUOTE :: t ++ [DQUOTE]).length - 2 = t.length := by simp
      rw [h0]
      simp
    unfold title_game make_game
    rw [hmid, List.take_of_length_le hlen]
    rfl

/-- The line written for a description is read back as the same CheatDescription. -/
theorem desc_line_item (a1 a2 d : List Char) (h : good_desc d) :
    significant d = true ∧ line_token d = TOK_CHEAT_DESC ∧
      line_item a1 a2 d = .desc { desc := d, codes := [], tag := 0 } := by
  obtain ⟨hne, hlen, _, hscreen, htok⟩ := h
  refine ⟨significant_of_screen_fixed _ hne hscreen, ?_, ?_⟩
  · unfold line_token
    rw [hscreen]; exact htok
  · unfold line_item node
    rw [hscreen, htok, if_neg (by decide), if_neg (by decide)]
    simp only [__make_cheat, make_cheat, Option.getD_none]
    rw [List.take_of_length_le hlen]
    rfl
theorem items_cons_sig (junk : Nat → List Char × List Char) (nl : Nat) {l : List Char}
    (stream : List (List Char)) (h : significant l = true) :
    items junk nl (l :: stream) =
      line_item (junk nl).1 (junk nl).2 l :: items junk (nl + 1) stream := by
  simp [items, h]

theorem items_cons_skip (junk : Nat → List Char × List Char) (nl : Nat) {l : List Char}
    (stream : List (List Char)) (h : significant l = false) :
    items junk nl (l :: stream) = items junk (nl + 1) stream := by
  simp [items, h]

theorem items_append (junk : Nat → List Char × List Char) (a b : List (List Char)) :
    ∀ nl, items junk nl (a ++ b) = items junk nl a ++ items junk (nl + a.length) b := by
  induction a with
  | nil => intro nl; rfl
  | cons l a ih =>
    intro nl
    have e : nl + (l :: a).length = nl + 1 + a.length := by
      simp only [List.length_cons]; omega
    rw [e, List.cons_append]
    by_cases hs : significant l = true
    · rw [items_cons_sig junk nl _ hs, items_cons_sig junk nl _ hs, ih (nl + 1)]; rfl
    · have hs : significant l = false := by simpa using hs
      rw [items_cons_skip junk nl _ hs, items_cons_skip junk nl _ hs, ih (nl + 1)]

theorem item_tok_node (a1 a2 s : List Char) : item_tok (node a1 a2 s) = get_token s 0 := by
  unfold node
  split
  · rename_i h; rw [h]; rfl
  · split
    · rename_i h; rw [h]; rfl
    · rename_i h1 h2
      rcases get_token_cases s 0 with h | h | h
      · exact absurd h h1
      · rw [h]; rfl
      · exact absurd h h2

theorem tokens_eq_items (junk : Nat → List Char × List Char) (stream : List (List Char)) :
    ∀ nl, tokens stream = (items junk nl stream).map item_tok := by
  induction stream with
  | nil => intro nl; rfl
  | cons l stream ih =>
    intro nl
    by_cases hs : significant l = true
    · rw [tokens_cons_sig stream hs]
      simp only [items, hs, if_true, List.map_cons, line_item, item_tok_node]
      rw [← ih (nl + 1)]
      rfl
    · have hs : significant l = false := by simpa using hs
      rw [tokens_cons_skip stream hs]
      simp only [items, hs, Bool.false_eq_true, if_false]
      exact ih (nl + 1)

theorem items_code_lines (junk : Nat → List Char × List Char) (ks : List code_t)
    (h : ∀ k ∈ ks, good_code k) :
    ∀ nl, items junk nl (ks.map code_line) = ks.map (fun k => .code (erase_code_tag k)) := by
  induction ks with
  | nil => intro nl; rfl
  | cons k ks ih =>
    intro nl
    obtain ⟨hs, _, hi, _⟩ := code_line_item (junk nl).1 (junk nl).2 k (h k (List.mem_cons_self _ _))
    rw [List.map_cons, items_cons_sig junk nl _ hs, hi,
      ih (fun x hx => h x (List.mem_cons_of_mem _ hx))]
    rfl

theorem items_cheat_lines (junk : Nat → List Char × List Char) (c : cheat_t)
    (h : good_cheat c) : ∀ nl, items junk nl (cheat_lines c) = flat_cheat c := by
  intro nl
  obtain ⟨hs, _, hi⟩ := desc_line_item (junk nl).1 (junk nl).2 c.desc h.2.1
  unfold cheat_lines flat_cheat
  rw [items_cons_sig junk nl _ hs, hi, items_code_lines junk c.codes h.2.2]

theorem items_cheats_lines (junk : Nat → List Char × List Char) (cs : List cheat_t)
    (h : ∀ c ∈ cs, good_cheat c) :
    ∀ nl, items junk nl (cs.map cheat_lines).flatten = (cs.map flat_cheat).flatten := by
  induction cs with
  | nil => intro nl; rfl
  | cons c cs ih =>
    intro nl
    simp only [List.map_cons, List.flatten_cons]
    rw [items_append, items_cheat_lines junk c (h c (List.mem_cons_self _ _)),
      ih (fun x hx => h x (List.mem_cons_of_mem _ hx))]

theorem items_separator (junk : Nat → List Char × List Char) (nl : Nat) :
    items junk nl [[], "//--------".toList, []] = [] := by
  have h1 : significant [] = false := by decide
  have h2 : significant "//--------".toList = false := by decide
  rw [items_cons_skip junk _ _ h1, items_cons_skip junk _ _ h2, items_cons_skip junk _ _ h1]
  rfl

theorem items_game_lines (junk : Nat → List Char × List Char) (g : game_t)
    (h : good_game g) : ∀ nl, items junk nl (game_lines g) = flat_game g := by
  intro nl
  obtain ⟨hs, _, hi⟩ := title_line_item (junk nl).1 (junk nl).2 g.title h.2.1
  unfold game_lines flat_game
  rw [List.cons_append, items_cons_sig junk nl _ hs, hi, items_append,
    items_cheats_lines junk g.cheats h.2.2, items_separator]
  simp

/-- The nodes read back from the written lines of a collection the parser built. -/
theorem items_written_lines (junk : Nat → List Char × List Char) (list : gamelist_t)
    (h : ∀ g ∈ list, good_game g) :
    ∀ nl, items junk nl (written_lines list) = flat_items list := by
  induction list with
  | nil => intro nl; rfl
  | cons g list ih =>
    intro nl
    simp only [written_lines, flat_items, List.map_cons, List.flatten_cons]
    rw [items_append, items_game_lines junk g (h g (List.mem_cons_self _ _))]
    congr 1
    exact ih (fun x hx => h x (List.mem_cons_of_mem _ hx)) _

theorem raw_lines_written (list : gamelist_t) (h : ∀ g ∈ list, good_game g) :
    raw_lines (written_lines list) := by
  intro l hl
  simp only [written_lines, List.mem_flatten, List.mem_map] at hl
  obtain ⟨ls, ⟨g, hg, rfl⟩, hl⟩ := hl
  obtain ⟨_, ⟨hne, hlen, hlf, _⟩, hcheats⟩ := h g hg
  simp only [game_lines, List.cons_append, List.mem_cons, List.mem_append, List.mem_flatten,
    List.mem_map] at hl
  rcases hl with rfl | ⟨ls, ⟨c, hc, rfl⟩, hl⟩ | hl
  · constructor
    · intro hmem
      simp only [List.mem_cons, List.mem_append, List.mem_singleton] at hmem
      rcases hmem with h1 | h1 | h1
      · exact absurd h1 (by decide)
      · exact hlf h1
      · exact absurd h1 (by decide)
    · have e : (DQUOTE :: (g.title ++ [DQUOTE])).length = g.title.length + 2 := by simp
      rw [e]
      unfold GAME_TITLE_MAX at hlen
      unfold LINE_MAX
      omega
  · obtain ⟨_, ⟨_, hdlen, hdlf, _, _⟩, hcodes⟩ := hcheats c hc
    simp only [cheat_lines, List.mem_cons, List.mem_map] at hl
    rcases hl with rfl | ⟨k, hk, rfl⟩
    · refine ⟨hdlf, ?_⟩
      unfold CHEAT_DESC_MAX at hdlen
      unfold LINE_MAX
      omega
    · obtain ⟨_, _, _, h4, h5⟩ := code_line_item [] [] k (hcodes k hk)
      refine ⟨h4, ?_⟩
      rw [h5]; unfold LINE_MAX; omega
  · simp only [List.not_mem_nil, or_false] at hl
    rcases hl with rfl | rfl | rfl <;> decide
theorem accepts_code_items (ks : List code_t) (rest : List Nat) :
    accepts 7 ((ks.map (fun k => item.code (erase_code_tag k))).map item_tok ++ rest) =
      accepts 7 rest := by
  induction ks with
  | nil => rfl
  | cons k ks ih =>
    simp only [List.map_cons, List.cons_append, List.append_eq, accepts, item_tok]
    rw [show next_token TOK_CHEAT_CODE = 7 by decide, ih]
    rfl

theorem accepts_flat_cheat (n : Nat) (hn : n = 3 ∨ n = 7) (c : cheat_t) (rest : List Nat) :
    accepts n ((flat_cheat c).map item_tok ++ rest) = accepts 7 rest := by
  unfold flat_cheat
  simp only [List.map_cons, List.cons_append, List.append_eq, accepts, item_tok]
  rw [show next_token TOK_CHEAT_DESC = 7 by decide, accepts_code_items]
  rcases hn with h | h <;> rw [h] <;> rfl

theorem accepts_flat_cheats (cs : List cheat_t) (rest : List Nat) :
    ∀ n, n = 3 ∨ n = 7 →
      ∃ m, (m = 3 ∨ m = 7) ∧
        accepts n (((cs.map flat_cheat).flatten).map item_tok ++ rest) = accepts m rest := by
  induction cs with
  | nil => intro n hn; exact ⟨n, hn, rfl⟩
  | cons c cs ih =>
    intro n hn
    obtain ⟨m, hm, h⟩ := ih 7 (Or.inr rfl)
    refine ⟨m, hm, ?_⟩
    simp only [List.map_cons, List.flatten_cons, List.map_append, List.append_assoc]
    rw [accepts_flat_cheat n hn]
    exact h

/-- The tokens of the lines written for a collection are accepted from any expected set
that holds GameTitle. -/
theorem accepts_flat_items (list : gamelist_t) :
    ∀ n, n = 1 ∨ n = 3 ∨ n = 7 → accepts n ((flat_items list).map item_tok) = true := by
  induction list with
  | nil => intro n _; rfl
  | cons g list ih =>
    intro n hn
    simp only [flat_items, List.map_cons, List.flatten_cons, flat_game, List.cons_append, List.append_eq,
      accepts, item_tok, List.map_append]
    rw [show next_token TOK_GAME_TITLE = 3 by decide]
    obtain ⟨m, hm, h⟩ := accepts_flat_cheats g.cheats
      (((list.map flat_game).flatten).map item_tok) 3 (Or.inl rfl)
    rw [h]
    have h2 := ih m (Or.inr hm)
    unfold flat_items at h2
    rw [h2]
    rcases hn with h | h | h <;> rw [h] <;> rfl

theorem leading_codes_code_items (ks : List code_t) (rest : List item) :
    leading_codes (ks.map (fun k => item.code (erase_code_tag k)) ++ rest) =
      ks.map erase_code_tag ++ leading_codes rest := by
  induction ks with
  | nil => rfl
  | cons k ks ih => simp only [List.map_cons, List.cons_append, List.append_eq, leading_codes, ih]

theorem leading_cheats_code_items (ks : List code_t) (rest : List item) :
    leading_cheats (ks.map (fun k => item.code (erase_code_tag k)) ++ rest) =
      leading_cheats rest := by
  induction ks with
  | nil => rfl
  | cons k ks ih => simp only [List.map_cons, List.cons_append, List.append_eq, leading_cheats, ih]

theorem group_code_items (ks : List code_t) (rest : List item) :
    group (ks.map (fun k => item.code (erase_code_tag k)) ++ rest) = group rest := by
  induction ks with
  | nil => rfl
  | cons k ks ih => simp only [List.map_cons, List.cons_append, List.append_eq, group, ih]

theorem leading_codes_flat_cheats (cs : List cheat_t) (rest : List item)
    (h : leading_codes rest = []) :
    leading_codes ((cs.map flat_cheat).flatten ++ rest) = [] := by
  cases cs with
  | nil => exact h
  | cons c cs => rfl

theorem leading_cheats_flat_cheats (cs : List cheat_t) (rest : List item)
    (hc : ∀ c ∈ cs, c.tag = 0) (h : leading_codes rest = []) :
    leading_cheats ((cs.map flat_cheat).flatten ++ rest) =
      cs.map erase_cheat_tags ++ leading_cheats rest := by
  induction cs with
  | nil => rfl
  | cons c cs ih =>
    have hc2 : ∀ c ∈ cs, c.tag = 0 := fun x hx => hc x (List.mem_cons_of_mem _ hx)
    simp only [List.map_cons, List.flatten_cons, flat_cheat, List.cons_append, List.append_eq,
      List.append_assoc, leading_cheats]
    rw [leading_codes_code_items, leading_cheats_code_items,
      leading_codes_flat_cheats cs rest h, ih hc2]
    simp [erase_cheat_tags, hc c (List.mem_cons_self _ _)]

theorem group_flat_cheats (cs : List cheat_t) (rest : List item) :
    group ((cs.map flat_cheat).flatten ++ rest) = group rest := by
  induction cs with
  | nil => rfl
  | cons c cs ih =>
    simp only [List.map_cons, List.flatten_cons, flat_cheat, List.cons_append, List.append_eq,
      List.append_assoc, group]
    rw [group_code_items, ih]

theorem leading_flat_items (list : gamelist_t) :
    leading_codes (flat_items list) = [] ∧ leading_cheats (flat_items list) = [] := by
  cases list with
  | nil => exact ⟨rfl, rfl⟩
  | cons g list => exact ⟨rfl, rfl⟩

/-- Grouping the nodes of the written lines gives the collection back, the tags of the
codes cleared. -/
theorem group_flat_items (list : gamelist_t)
    (h : ∀ g ∈ list, g.tag = 0 ∧ ∀ c ∈ g.cheats, c.tag = 0) :
    group (flat_items list) = erase_tags list := by
  induction list with
  | nil => rfl
  | cons g list ih =>
    have hg := h g (List.mem_cons_self _ _)
    have ih2 := ih (fun x hx => h x (List.mem_cons_of_mem _ hx))
    have e : flat_items (g :: list) =
        item.title { title := g.title, cheats := [], tag := 0 } ::
          ((g.cheats.map flat_cheat).flatten ++ flat_items list) := by
      simp [flat_items, flat_game]
    rw [e]
    simp only [group]
    rw [leading_cheats_flat_cheats g.cheats _ hg.2 (leading_flat_items list).1,
      (leading_flat_items list).2, group_flat_cheats, ih2]
    simp [erase_tags, erase_game_tags, hg.1]
theorem mem_of_within {l1 l2 : List Char} (h : l1 <:+: l2) (c : Char) (hc : c ∈ l1) : c ∈ l2 :=
  h.sublist.subset hc

/-- The node built from a significant raw line without line feed, whose description, if
it is one, has at most 80 characters, is a good node. -/
theorem line_item_good (a1 a2 l : List Char) (hlf : LF ∉ l) (hs : significant l = true)
    (hd : line_token l = TOK_CHEAT_DESC → (screen l).length ≤ CHEAT_DESC_MAX) :
    good_item (line_item a1 a2 l) := by
  have hne : screen l ≠ [] := by
    unfold significant at hs
    simp only [Bool.and_eq_true, decide_eq_true_eq] at hs
    exact List.length_pos.1 hs.2
  have hlf2 : LF ∉ screen l := fun h => hlf (mem_of_within (screen_within l) LF h)
  have hfree := cmt_free_screen l
  unfold line_item node
  split
  · -- a title
    rename_i htok
    have hlen : (screen l).length > 2 := by
      exact title_token_length (screen l) 0 htok
    refine ⟨by simp [title_game, make_game], ⟨?_, ?_, ?_, ?_⟩, by simp [title_game, make_game]⟩
    · apply List.ne_nil_of_length_pos
      simp only [title_game, make_game, List.length_take, List.length_drop, GAME_TITLE_MAX]
      omega
    · simp only [title_game, make_game, List.length_take, GAME_TITLE_MAX]
      omega
    · intro h
      simp only [title_game, make_game] at h
      exact hlf2 (List.mem_of_mem_drop (List.mem_of_mem_take (List.mem_of_mem_take h)))
    · simp only [title_game, make_game]
      exact ((hfree.drop 1).take _).take _
  · split
    · -- a code
      refine ⟨?_, ?_⟩
      · simp only [__make_code, make_code]
        exact Nat.mod_lt _ (by norm_num)
      · simp only [__make_code, make_code]
        exact Nat.mod_lt _ (by norm_num)
    · -- a description
      rename_i h1 h2
      have htok : get_token (screen l) 0 = TOK_CHEAT_DESC := by
        rcases get_token_cases (screen l) 0 with h | h | h
        · exact absurd h h1
        · exact h
        · exact absurd h h2
      have hlen := hd htok
      refine ⟨by simp [__make_cheat, make_cheat], ?_, by simp [__make_cheat, make_cheat]⟩
      simp only [__make_cheat, make_cheat]
      rw [List.take_of_length_le hlen]
      exact ⟨hne, hlen, hlf2, screen_idem l, htok⟩

theorem items_good (junk : Nat → List Char × List Char) (stream : List (List Char))
    (hraw : raw_lines stream)
    (hdesc : ∀ l ∈ stream, significant l = true → line_token l = TOK_CHEAT_DESC →
      (screen l).length ≤ CHEAT_DESC_MAX) :
    ∀ nl, ∀ it ∈ items junk nl stream, good_item it := by
  induction stream with
  | nil => intro nl it h; simp [items] at h
  | cons l stream ih =>
    intro nl it h
    have ih2 := ih (fun x hx => hraw x (List.mem_cons_of_mem _ hx))
      (fun x hx => hdesc x (List.mem_cons_of_mem _ hx))
    by_cases hs : significant l = true
    · rw [items_cons_sig junk nl _ hs] at h
      rcases List.mem_cons.1 h with rfl | h
      · exact line_item_good _ _ l (hraw l (List.mem_cons_self _ _)).1 hs
          (hdesc l (List.mem_cons_self _ _) hs)
      · exact ih2 _ _ h
    · have hs : significant l = false := by simpa using hs
      rw [items_cons_skip junk nl _ hs] at h
      exact ih2 _ _ h

theorem leading_codes_good (its : List item) (h : ∀ it ∈ its, good_item it) :
    ∀ k ∈ leading_codes its, good_code k := by
  induction its with
  | nil => intro k hk; simp [leading_codes] at hk
  | cons it its ih =>
    intro k hk
    cases it with
    | title g => simp [leading_codes] at hk
    | desc c => simp [leading_codes] at hk
    | code k0 =>
      simp only [leading_codes, List.mem_cons] at hk
      rcases hk with rfl | hk
      · exact h _ (List.mem_cons_self _ _)
      · exact ih (fun x hx => h x (List.mem_cons_of_mem _ hx)) k hk

theorem leading_cheats_good (its : List item) (h : ∀ it ∈ its, good_item it) :
    ∀ c ∈ leading_cheats its, good_cheat c := by
  induction its with
  | nil => intro c hc; simp [leading_cheats] at hc
  | cons it its ih =>
    intro c hc
    have h2 : ∀ it ∈ its, good_item it := fun x hx => h x (List.mem_cons_of_mem _ hx)
    cases it with
    | title g => simp [leading_cheats] at hc
    | desc c0 =>
      simp only [leading_cheats, List.mem_cons] at hc
      rcases hc with rfl | hc
      · have h0 : good_item (.desc c0) := h _ (List.mem_cons_self _ _)
        obtain ⟨ht, hd, hcodes⟩ := h0
        refine ⟨ht, hd, ?_⟩
        intro k hk
        simp only [hcodes, List.nil_append] at hk
        exact leading_codes_good its h2 k hk
      · exact ih h2 c hc
    | code k0 =>
      simp only [leading_cheats] at hc
      exact ih h2 c hc

/-- The games grouped from good nodes are good games. -/
theorem group_good (its : List item) (h : ∀ it ∈ its, good_item it) :
    ∀ g ∈ group its, good_game g := by
  induction its with
  | nil => intro g hg; simp [group] at hg
  | cons it its ih =>
    intro g hg
    have h2 : ∀ it ∈ its, good_item it := fun x hx => h x (List.mem_cons_of_mem _ hx)
    cases it with
    | title g0 =>
      simp only [group, List.mem_cons] at hg
      rcases hg with rfl | hg
      · have h0 : good_item (.title g0) := h _ (List.mem_cons_self _ _)
        obtain ⟨ht, htitle, hcheats⟩ := h0
        refine ⟨ht, htitle, ?_⟩
        intro c hc
        simp only [hcheats, List.nil_append] at hc
        exact leading_cheats_good its h2 c hc
      · exact ih h2 g hg
    | desc c0 =>
      simp only [group] at hg
      exact ih h2 g hg
    | code k0 =>
      simp only [group] at hg
      exact ih h2 g hg

/-- A line of at most 82 characters is taken by `__make_game` when it screens to a title. -/
theorem title_fits_of_length (l : List Char) (h : l.length ≤ GAME_TITLE_MAX + 2) :
    title_fits (screen l) := by
  intro _
  have := (screen_within l).length_le
  omega

/-- The lines written for good games have at most 82 characters each, so their titles fit
the array of `__make_game`. -/
theorem titles_fit_written (list : gamelist_t) (h : ∀ g ∈ list, good_game g) :
    titles_fit (written_lines list) := by
  intro l hl _
  apply title_fits_of_length
  simp only [written_lines, List.mem_flatten, List.mem_map] at hl
  obtain ⟨ls, ⟨g, hg, rfl⟩, hl⟩ := hl
  obtain ⟨_, ⟨hne, hlen, hlf, _⟩, hcheats⟩ := h g hg
  simp only [game_lines, List.cons_append, List.mem_cons, List.mem_append, List.mem_flatten,
    List.mem_map] at hl
  rcases hl with rfl | ⟨ls, ⟨c, hc, rfl⟩, hl⟩ | hl
  · have e : (DQUOTE :: (g.title ++ [DQUOTE])).length = g.title.length + 2 := by simp
    rw [e]
    omega
  · obtain ⟨_, ⟨_, hdlen, hdlf, _, _⟩, hcodes⟩ := hcheats c hc
    simp only [cheat_lines, List.mem_cons, List.mem_map] at hl
    rcases hl with rfl | ⟨k, hk, rfl⟩
    · unfold CHEAT_DESC_MAX at hdlen
      unfold GAME_TITLE_MAX
      omega
    · obtain ⟨_, _, _, h4, h5⟩ := code_line_item [] [] k (hcodes k hk)
      rw [h5]; unfold GAME_TITLE_MAX; omega
  · simp only [List.not_mem_nil, or_false] at hl
    rcases hl with rfl | rfl | rfl <;> decide

/-- Writing a collection of good games and parsing the text gives the collection back,
the tags of the codes cleared. -/
theorem parse_buf_cheats_write (junk : Nat → List Char × List Char) (line0 : List Char)
    (list : gamelist_t) (h : ∀ g ∈ list, good_game g) :
    ∃ ctx, parse_buf junk line0 [] (cheats_write list) = .done 0 ctx (erase_tags list) none := by
  rw [cheats_write_eq, parse_buf_unlines junk line0 [] _ (raw_lines_written list h)]
  rcases parse_stream_cases junk [] (written_lines list) (titles_fit_written list h) with ⟨_, ctx, h1⟩ | ⟨hacc, _⟩
  · refine ⟨ctx, ?_⟩
    rw [h1, foldl_absorb_nil _ (items_fresh junk _ 1), items_written_lines junk list h 1,
      group_flat_items list (fun g hg => ⟨(h g hg).1, fun c hc => ((h g hg).2.2 c hc).1⟩)]
  · rw [tokens_eq_items junk _ 1, items_written_lines junk list h 1] at hacc
    have h2 := accepts_flat_items list TOK_GAME_TITLE (Or.inl rfl)
    rw [h2] at hacc
    cases hacc
/-- Claim C8, amended: for an input of raw lines that parses successfully and whose
description lines have at most 80 characters after screening, writing the collection and
parsing the written text again succeeds and gives the same games, cheats, addresses and
values in the same order (the tags of the codes are 0 in the second collection). -/
theorem write_parse_roundtrip (junk junk2 : Nat → List Char × List Char)
    (line0 line1 : List Char) (stream : List (List Char)) (ctx1 : parser_ctx_t)
    (list1 : gamelist_t) (e : Option parse_error) (hraw : raw_lines stream)
    (hdesc : ∀ l ∈ stream, significant l = true → line_token l = TOK_CHEAT_DESC →
      (screen l).length ≤ CHEAT_DESC_MAX)
    (hparse : parse_buf junk line0 [] (unlines stream) = .done 0 ctx1 list1 e) :
    ∃ ctx2, parse_buf junk2 line1 [] (cheats_write list1) =
      .done 0 ctx2 (erase_tags list1) none := by
  rw [parse_buf_unlines junk line0 [] stream hraw] at hparse
  have hgroup := parse_stream_group junk stream ctx1 list1 e hparse
  apply parse_buf_cheats_write
  rw [hgroup]
  exact group_good _ (items_good junk stream hraw hdesc 1)

theorem write_parse_roundtrip_witness :
    ∃ ctx2, parse_buf (fun _ => ("zz".toList, [])) "old".toList []
        (cheats_write five_lines_result) =
      .done 0 ctx2 (erase_tags five_lines_result) none :=
  write_parse_roundtrip (fun _ => ([], [])) (fun _ => ("zz".toList, [])) [] "old".toList
    five_lines
    { top := 0, next := 7, game := some 1, cheat := some (1, 0), code := some (0, 0, 0) }
    five_lines_result none (by decide) (by decide) (by decide)

/-- Claim C8 as stated fails: the input "G", then a description of 81 characters whose
first 80 are `AB CD` and blanks, parses; its description is cut to 80 characters; the
written text has the line `AB CD` and blanks, a CheatCode after screening, and the second
parse fails at line 2. -/
theorem write_parse_roundtrip_counterexample :
    raw_lines long_desc_lines ∧
    parse_buf (fun _ => ([], [])) [] [] (unlines long_desc_lines) =
      .done 0 { top := 0, next := 7, game := some 0, cheat := some (0, 0), code := none }
        long_desc_result none ∧
    parse_buf (fun _ => ([], [])) [] [] (cheats_write long_desc_result) =
      .done (-1) { top := 0, next := 3, game := some 0, cheat := none, code := none }
        [{ title := ['G'], cheats := [], tag := 0 }]
        (some { line := 2, text := "parse error: cheat code invalid here" }) := by
  refine ⟨by decide, by decide, by decide⟩

/-- At the level of the lines the loop is given: when `parse_stream` returns with an error
stored for line n, the state and list left are those of the parse of the first n-1 lines,
which returns 0, and the outcome is the same whatever follows line n. -/
theorem parse_stream_keeps_parsed (junk : Nat → List Char × List Char) (list : gamelist_t)
    (stream : List (List Char)) (ret : Int) (ctx1 : parser_ctx_t) (list1 : gamelist_t)
    (e : parse_error) (h : parse_stream junk list stream = .done ret ctx1 list1 (some e)) :
    1 ≤ e.line ∧ e.line ≤ stream.length ∧
    parse_stream junk list (stream.take (e.line - 1)) = .done 0 ctx1 list1 none ∧
    ∀ post2, parse_stream junk list (stream.take e.line ++ post2) =
      .done ret ctx1 list1 (some e) := by
  obtain ⟨pre, line, post, hst, hline, hs, hbad, hrun, hret, he⟩ :=
    parse_stream_error_line junk list stream ret ctx1 list1 e h
  have htake : stream.take (e.line - 1) = pre := by
    rw [hline, hst]; simp
  refine ⟨by omega, ?_, ?_, ?_⟩
  · rw [hline, hst]; simp
  · rw [htake]; exact hrun
  · intro post2
    have e2 : stream.take e.line = pre ++ [line] := by
      rw [hline, hst, List.take_append_eq_append_take]
      simp
    rw [e2, List.append_assoc, List.singleton_append, hret, he]
    unfold parse_stream at hrun ⊢
    rw [parse_stream_loop_append junk pre (line :: post2) _ _ _ _ _ _ hrun,
      parse_stream_loop_reject junk line post2 _ _ _ hs hbad, Nat.add_comm]
theorem hexdigit_upper : ∀ k, k < 16 → hexdigit k ∈ "0123456789ABCDEF".toList := by
  decide

theorem fmt_08X_upper (n : Nat) : ∀ c ∈ fmt_08X n, c ∈ "0123456789ABCDEF".toList := by
  intro c hc
  simp only [fmt_08X, List.mem_cons, List.mem_singleton, List.not_mem_nil, or_false] at hc
  rcases hc with h | h | h | h | h | h | h | h <;>
    (rw [h, hexdigit_mod]; exact hexdigit_upper _ (Nat.mod_lt _ (by omega)))

theorem write_code_clear (k : code_t) : write_code (erase_code_tag k) = write_code k := rfl

theorem write_cheat_clear (c : cheat_t) :
    write_cheat { desc := c.desc, codes := c.codes.map erase_code_tag, tag := 0 } =
      write_cheat c := by
  simp only [write_cheat, List.map_map]
  congr 2

theorem write_game_clear (g : game_t) :
    write_game { title := g.title,
                 cheats := g.cheats.map (fun c =>
                   { desc := c.desc, codes := c.codes.map erase_code_tag, tag := 0 }),
                 tag := 0 } = write_game g := by
  simp only [write_game, List.map_map]
  congr 5
  apply List.map_congr_left
  intro c _
  exact write_cheat_clear c

theorem cheats_write_clear (list : gamelist_t) :
    cheats_write (clear_tags list) = cheats_write list := by
  simp only [cheats_write, clear_tags, List.map_map]
  congr 1
  apply List.map_congr_left
  intro g _
  exact write_game_clear g

/-- Claim C12: the text of `cheats_write` is, game after game, the line of the quoted
title, then for each cheat the line of its description and for each of its codes a line
of address and value as 8 upper-case zero-padded hex digits with one space between, then
an empty line, the separator line (two slashes, eight dashes) and another empty line; no
tag field is used. -/
theorem cheats_write_text (list : gamelist_t) :
    cheats_write list =
      (list.map (fun g => unlines
        ([DQUOTE :: g.title ++ [DQUOTE]] ++
         (g.cheats.map (fun c =>
           c.desc :: c.codes.map (fun k => fmt_08X k.addr ++ ' ' :: fmt_08X k.val))).flatten ++
         [[], "//--------".toList, []]))).flatten ∧
    (∀ n, (fmt_08X n).length = 8 ∧ (∀ c ∈ fmt_08X n, c ∈ "0123456789ABCDEF".toList) ∧
      hexnum (fmt_08X n) = n % 2 ^ 32) ∧
    cheats_write (clear_tags list) = cheats_write list ∧
    (∀ list2, clear_tags list2 = clear_tags list → cheats_write list2 = cheats_write list) ∧
    cheats_write five_lines_result =
      [DQUOTE] ++ "Game A".toList ++ [DQUOTE, LF] ++ "Cheat X".toList ++ [LF] ++
      "11112222 33334444".toList ++ [LF] ++ [LF] ++ "//--------".toList ++ [LF, LF] ++
      [DQUOTE] ++ "Game B".toList ++ [DQUOTE, LF] ++ "Cheat Y".toList ++ [LF] ++
      [LF] ++ "//--------".toList ++ [LF, LF] := by
  refine ⟨?_, fun n => ⟨fmt_08X_length n, fmt_08X_upper n, hexnum_fmt_08X n⟩,
    cheats_write_clear list, ?_, by decide⟩
  · rw [cheats_write_eq, written_lines, unlines_flatten, List.map_map]
    congr 1
  · intro list2 h
    rw [← cheats_write_clear list2, h, cheats_write_clear]

theorem cheats_write_text_witness :
    cheats_write [{ title := ['G'], cheats := [], tag := 7 }] =
      cheats_write [{ title := ['G'], cheats := [], tag := 0 }] :=
  (cheats_write_text [{ title := ['G'], cheats := [], tag := 0 }]).2.2.2.1
    [{ title := ['G'], cheats := [], tag := 7 }] (by decide)
/-- Claim C13, the code as it is: `cheats_write` returns CHEATS_FALSE in every case, also
after it has written the whole text to a stream that is not NULL for a cheats object
that is not NULL. -/
theorem cheats_write_returns_false (cheats : Option cheats_t) (stream : Option (List Char)) :
    (cheats_write_ret cheats stream).1 = .CHEATS_FALSE ∧
    (cheats_write_ret cheats stream).1 ≠ .CHEATS_TRUE ∧
    (∀ c out, (cheats_write_ret (some c) (some out)).2 = some (out ++ cheats_write c.games)) ∧
    (cheats_write_ret (some { games := [], error_text := "", error_line := 0 }) (some [])) =
      (.CHEATS_FALSE, some []) := by
  have h : (cheats_write_ret cheats stream).1 = .CHEATS_FALSE := by
    unfold cheats_write_ret
    cases cheats <;> cases stream <;> rfl
  refine ⟨h, ?_, fun _ _ => rfl, rfl⟩
  rw [h]
  decide
/-- When the loop of `parse_buf` returns, it returns 0 without a stored error or -1 with
the error `parse_err` stored. -/
theorem parse_buf_loop_done (junk : Nat → List Char × List Char) :
    ∀ (fuel : Nat) (buf line : List Char) (nl : Nat) (ctx : parser_ctx_t) (list : gamelist_t)
      (ret : Int) (ctx1 : parser_ctx_t) (list1 : gamelist_t) (e : Option parse_error),
      parse_buf_loop junk fuel buf line nl ctx list = .done ret ctx1 list1 e →
      (ret = 0 ∧ e = none) ∨ (ret = -1 ∧ ∃ n tok, e = some (parse_err n tok)) := by
  intro fuel
  induction fuel with
  | zero =>
    intro buf line nl ctx list ret ctx1 list1 e h
    simp [parse_buf_loop] at h
  | succ f ih =>
    intro buf line nl ctx list ret ctx1 list1 e h
    rw [parse_buf_loop] at h
    by_cases hb : buf = []
    · simp only [hb, if_true, parse_outcome.done.injEq] at h
      exact Or.inl ⟨h.1.symm, h.2.2.2.symm⟩
    · simp only [hb, if_false] at h
      generalize (if chr_idx buf LF < 0 then line.length
        else if chr_idx buf LF > (LINE_MAX : Int) then LINE_MAX
        else (chr_idx buf LF).toNat) = len at h
      by_cases he : (!is_empty_substr buf len) = true
      · simp only [he, if_true] at h
        by_cases hs : (screen (buf.take len)).length > 0
        · simp only [hs, if_true] at h
          cases hp : parse_line (junk nl).1 (junk nl).2 (screen (buf.take len)) nl ctx list with
          | ok c g =>
            rw [hp] at h
            by_cases hlen : len < buf.length
            · simp only [hlen, if_true] at h
              exact ih _ _ _ _ _ _ _ _ _ h
            · simp [hlen] at h
          | fail err =>
            rw [hp] at h
            simp only [parse_outcome.done.injEq] at h
            right
            refine ⟨h.1.symm, nl, get_token (screen (buf.take len)) ctx.top, ?_⟩
            rw [← h.2.2.2, (parse_line_fail_form hp).2]
          | fault =>
            rw [hp] at h
            simp at h
          | overrun =>
            rw [hp] at h
            simp at h
        · simp only [hs, if_false] at h
          by_cases hlen : len < buf.length
          · simp only [hlen, if_true] at h
            exact ih _ _ _ _ _ _ _ _ _ h
          · simp [hlen] at h
      · simp only [he, Bool.false_eq_true, if_false] at h
        by_cases hlen : len < buf.length
        · simp only [hlen, if_true] at h
          exact ih _ _ _ _ _ _ _ _ _ h
        · simp [hlen] at h

theorem cl_find_loop_none (title : List Char) (l : List game_t) :
    ∀ k, cl_find_loop title l k = none ↔ ∀ g ∈ l, g.title ≠ title := by
  induction l with
  | nil => intro k; simp [cl_find_loop]
  | cons g l ih =>
    intro k
    unfold cl_find_loop
    by_cases hg : g.title = title
    · simp [hg]
    · simp [hg, ih (k + 1)]

theorem cl_find_loop_some (title : List Char) (l : List game_t) :
    ∀ k i, cl_find_loop title l k = some i ↔
      ∃ m, i = k + m ∧ (∃ g, l[m]? = some g ∧ g.title = title) ∧
        ∀ j, j < m → ∀ g, l[j]? = some g → g.title ≠ title := by
  induction l with
  | nil => intro k i; simp [cl_find_loop]
  | cons g l ih =>
    intro k i
    unfold cl_find_loop
    by_cases hg : g.title = title
    · simp only [hg, if_true, Option.some.injEq]
      constructor
      · intro h
        refine ⟨0, by omega, ⟨g, by simp, hg⟩, ?_⟩
        intro j hj; omega
      · rintro ⟨m, hi, _, hfirst⟩
        cases m with
        | zero => omega
        | succ m => exact absurd hg (hfirst 0 (by omega) g (by simp))
    · simp only [hg, if_false]
      rw [ih (k + 1) i]
      constructor
      · rintro ⟨m, hi, ⟨g1, hg1, ht⟩, hfirst⟩
        refine ⟨m + 1, by omega, ⟨g1, by simpa using hg1, ht⟩, ?_⟩
        intro j hj g2 hg2
        cases j with
        | zero =>
          simp only [List.getElem?_cons_zero, Option.some.injEq] at hg2
          rw [← hg2]; exact hg
        | succ j =>
          exact hfirst j (by omega) g2 (by simpa using hg2)
      · rintro ⟨m, hi, ⟨g1, hg1, ht⟩, hfirst⟩
        cases m with
        | zero =>
          simp only [List.getElem?_cons_zero, Option.some.injEq] at hg1
          rw [← hg1] at ht
          exact absurd ht hg
        | succ m =>
          refine ⟨m, by omega, ⟨g1, by simpa using hg1, ht⟩, ?_⟩
          intro j hj g2 hg2
          exact hfirst (j + 1) (by omega) g2 (by simpa using hg2)

/-- Claim C14: `cl_find_game_by_title` returns the first game of the list, head first,
whose title equals the given title, and NULL exactly when no game has that title; of two
games titled Dup it returns the first. -/
theorem cl_find_game_by_title_first (title : List Char) (list : gamelist_t) :
    (∀ i, cl_find_game_by_title title (some list) = some i ↔
      (∃ g, list[i]? = some g ∧ g.title = title) ∧
        ∀ j, j < i → ∀ g, list[j]? = some g → g.title ≠ title) ∧
    (cl_find_game_by_title title (some list) = none ↔ ∀ g ∈ list, g.title ≠ title) ∧
    cl_find_game_by_title "Dup".toList
      (some [{ title := "Other".toList, cheats := [], tag := 0 },
             { title := "Dup".toList, cheats := [], tag := 1 },
             { title := "Dup".toList, cheats := [], tag := 2 }]) = some 1 := by
  refine ⟨?_, ?_, by decide⟩
  · intro i
    unfold cl_find_game_by_title
    rw [cl_find_loop_some title list 0 i]
    constructor
    · rintro ⟨m, hi, h1, h2⟩
      have : i = m := by omega
      subst this
      exact ⟨h1, h2⟩
    · rintro ⟨h1, h2⟩
      exact ⟨i, by omega, h1, h2⟩
  · unfold cl_find_game_by_title
    exact cl_find_loop_none title list 0
theorem drop_one_take (line : List Char) :
    (line.drop 1).take (line.length - 2) = (line.drop 1).dropLast := by
  rw [List.dropLast_eq_take, List.length_drop]
  congr 1

theorem title_line_shape (line : List Char) (top : Int)
    (h : get_token line top = TOK_GAME_TITLE) :
    line = DQUOTE :: (line.drop 1).dropLast ++ [DQUOTE] := by
  have hlen := title_token_length line top h
  have ht : is_game_title line = true := by
    unfold get_token at h
    by_cases ht : is_game_title line = true
    · exact ht
    · simp only [ht, Bool.false_eq_true, if_false] at h
      by_cases hc : is_cheat_code line = true
      · simp [hc, TOK_CHEAT_CODE, TOK_GAME_TITLE] at h
      · simp [hc, TOK_CHEAT_DESC, TOK_GAME_TITLE] at h
  simp only [is_game_title, Bool.and_eq_true, decide_eq_true_eq, beq_iff_eq] at ht
  obtain ⟨⟨_, hhead⟩, hlast⟩ := ht
  cases line with
  | nil => simp at hlen
  | cons c rest =>
    simp only [List.head?_cons, Option.some.injEq] at hhead
    subst hhead
    have hne : rest ≠ [] := by
      intro h0; subst h0; simp at hlen
    have hl2 : rest.getLast? = some DQUOTE := by
      cases rest with
      | nil => exact absurd rfl hne
      | cons d r => rwa [List.getLast?_cons_cons] at hlast
    have := List.dropLast_append_getLast? DQUOTE hl2
    simp only [List.drop_succ_cons, List.drop_zero, List.cons_append]
    rw [this]

/-- Claim C15, amended: for a line classified as GameTitle whose text between the two
quotes has at most 80 characters, the game `__make_game` builds, and `parse_line` appends,
has that text as title, inner quotes kept; the line of A, a quote and B between quotes
gives the title A, quote, B. -/
theorem make_game_title_payload (line : List Char) (top : Int)
    (h : get_token line top = TOK_GAME_TITLE)
    (hlen : ((line.drop 1).dropLast).length ≤ GAME_TITLE_MAX) :
    line = DQUOTE :: (line.drop 1).dropLast ++ [DQUOTE] ∧
    __make_game line = some { title := (line.drop 1).dropLast, cheats := [], tag := 0 } ∧
    (∀ (a1 a2 : List Char) (nl : Nat) (ctx : parser_ctx_t) (list : gamelist_t),
      ctx.top = top → ctx.next &&& TOK_GAME_TITLE ≠ 0 →
      ∃ ctx1, parse_line a1 a2 line nl ctx list =
        .ok ctx1 (list ++ [{ title := (line.drop 1).dropLast, cheats := [], tag := 0 }])) ∧
    __make_game [DQUOTE, 'A', DQUOTE, 'B', DQUOTE] =
      some { title := ['A', DQUOTE, 'B'], cheats := [], tag := 0 } := by
  have hl := title_token_length line top h
  have hlen2 : line.length - 2 ≤ GAME_TITLE_MAX := by
    rw [List.length_dropLast, List.length_drop] at hlen
    omega
  have hmk : __make_game line =
      some { title := (line.drop 1).dropLast, cheats := [], tag := 0 } := by
    unfold __make_game make_game
    rw [if_pos ⟨by omega, hlen2⟩, drop_one_take, List.take_of_length_le hlen]
    rfl
  refine ⟨title_line_shape line top h, hmk, ?_, by decide⟩
  intro a1 a2 nl ctx list htop hexp
  subst htop
  unfold parse_line
  simp only [h]
  rw [if_neg hexp]
  simp [hmk]

theorem make_game_title_payload_witness :
    __make_game [DQUOTE, 'A', DQUOTE, 'B', DQUOTE] =
      some { title := ([DQUOTE, 'A', DQUOTE, 'B', DQUOTE].drop 1).dropLast, cheats := [],
             tag := 0 } :=
  (make_game_title_payload [DQUOTE, 'A', DQUOTE, 'B', DQUOTE] 0 (by decide) (by decide)).2.1

/-- Claim C15 as stated fails: a title line with 81 characters between the quotes is a
GameTitle, and no game with these 81 characters as title is built: a title holds 80
characters, `make_game` cuts the text it is given to 80, and here the copy of
`__make_game` does not even stay inside `buf`. -/
theorem make_game_title_payload_counterexample :
    (¬ ∀ line : List Char, get_token line 0 = TOK_GAME_TITLE →
      __make_game line = some { title := (line.drop 1).dropLast, cheats := [], tag := 0 }) ∧
    get_token long_title_line 0 = TOK_GAME_TITLE ∧
    (long_title_line.drop 1).dropLast = List.replicate 81 'a' ∧
    __make_game long_title_line = none ∧
    (make_game (List.replicate 81 'a') none 0).title = List.replicate 80 'a' := by
  refine ⟨?_, by decide, by decide, by decide, by decide⟩
  intro h
  exact absurd (h long_title_line (by decide)) (by decide)

/-- A property of the game list that every successful `parse_line` keeps holds of the list
the loop of `parse_stream` leaves, on success and on failure. -/
theorem parse_stream_loop_inv (P : gamelist_t → Prop) (junk : Nat → List Char × List Char)
    (hstep : ∀ (a1 a2 line : List Char) (nl : Nat) (ctx ctx1 : parser_ctx_t)
      (list list1 : gamelist_t), P list → parse_line a1 a2 line nl ctx list = .ok ctx1 list1 →
      P list1) :
    ∀ (stream : List (List Char)) (nl : Nat) (ctx : parser_ctx_t) (list : gamelist_t)
      (ret : Int) (ctx1 : parser_ctx_t) (list1 : gamelist_t) (e : Option parse_error),
      P list → parse_stream_loop junk stream nl ctx list = .done ret ctx1 list1 e → P list1 := by
  intro stream
  induction stream with
  | nil =>
    intro nl ctx list ret ctx1 list1 e hP h
    simp only [parse_stream_loop, parse_outcome.done.injEq] at h
    rw [← h.2.2.1]; exact hP
  | cons line stream ih =>
    intro nl ctx list ret ctx1 list1 e hP h
    cases hs : significant line with
    | false =>
      rw [parse_stream_loop_skip junk stream nl ctx list hs] at h
      exact ih _ _ _ _ _ _ _ hP h
    | true =>
      rw [parse_stream_loop_sig junk stream nl ctx list hs] at h
      cases hp : parse_line (junk nl).1 (junk nl).2 (screen line) nl ctx list with
      | ok c g =>
        rw [hp] at h
        exact ih _ _ _ _ _ _ _ (hstep _ _ _ _ _ _ _ _ hP hp) h
      | fail err =>
        rw [hp] at h
        simp only [parse_outcome.done.injEq] at h
        rw [← h.2.2.1]; exact hP
      | fault =>
        rw [hp] at h
        simp at h
      | overrun =>
        rw [hp] at h
        simp at h

/-- A property of the game list that every successful `parse_line` keeps holds of the list
the loop of `parse_buf` leaves, on success and on failure. -/
theorem parse_buf_loop_inv (P : gamelist_t → Prop) (junk : Nat → List Char × List Char)
    (hstep : ∀ (a1 a2 line : List Char) (nl : Nat) (ctx ctx1 : parser_ctx_t)
      (list list1 : gamelist_t), P list → parse_line a1 a2 line nl ctx list = .ok ctx1 list1 →
      P list1) :
    ∀ (fuel : Nat) (buf line : List Char) (nl : Nat) (ctx : parser_ctx_t) (list : gamelist_t)
      (ret : Int) (ctx1 : parser_ctx_t) (list1 : gamelist_t) (e : Option parse_error),
      P list → parse_buf_loop junk fuel buf line nl ctx list = .done ret ctx1 list1 e →
      P list1 := by
  intro fuel
  induction fuel with
  | zero =>
    intro buf line nl ctx list ret ctx1 list1 e _ h
    simp [parse_buf_loop] at h
  | succ f ih =>
    intro buf line nl ctx list ret ctx1 list1 e hP h
    rw [parse_buf_loop] at h
    by_cases hb : buf = []
    · simp only [hb, if_true, parse_outcome.done.injEq] at h
      rw [← h.2.2.1]; exact hP
    · simp only [hb, if_false] at h
      generalize (if chr_idx buf LF < 0 then line.length
        else if chr_idx buf LF > (LINE_MAX : Int) then LINE_MAX
        else (chr_idx buf LF).toNat) = len at h
      by_cases he : (!is_empty_substr buf len) = true
      · simp only [he, if_true] at h
        by_cases hs : (screen (buf.take len)).length > 0
        · simp only [hs, if_true] at h
          cases hp : parse_line (junk nl).1 (junk nl).2 (screen (buf.take len)) nl ctx list with
          | ok c g =>
            rw [hp] at h
            by_cases hlen : len < buf.length
            · simp only [hlen, if_true] at h
              exact ih _ _ _ _ _ _ _ _ _ (hstep _ _ _ _ _ _ _ _ hP hp) h
            · simp [hlen] at h
          | fail err =>
            rw [hp] at h
            simp only [parse_outcome.done.injEq] at h
            rw [← h.2.2.1]; exact hP
          | fault =>
            rw [hp] at h
            simp at h
          | overrun =>
            rw [hp] at h
            simp at h
        · simp only [hs, if_false] at h
          by_cases hlen : len < buf.length
          · simp only [hlen, if_true] at h
            exact ih _ _ _ _ _ _ _ _ _ hP h
          · simp [hlen] at h
      · simp only [he, Bool.false_eq_true, if_false] at h
        by_cases hlen : len < buf.length
        · simp only [hlen, if_true] at h
          exact ih _ _ _ _ _ _ _ _ _ hP h
        · simp [hlen] at h

/-- A successful `parse_line` keeps the titles and descriptions within 80 characters: the
nodes it adds come from `make_game` and `make_cheat`. -/
theorem parse_line_bounded (a1 a2 line : List Char) (nl : Nat) (ctx ctx1 : parser_ctx_t)
    (list list1 : gamelist_t) (hb : bounded list)
    (h : parse_line a1 a2 line nl ctx list = .ok ctx1 list1) : bounded list1 := by
  have hg : (title_game line).title.length ≤ GAME_TITLE_MAX ∧
      ∀ c ∈ (title_game line).cheats, c.desc.length ≤ CHEAT_DESC_MAX := by
    refine ⟨?_, ?_⟩
    · simp only [title_game, make_game, List.length_take]; omega
    · intro c hc; simp [title_game, make_game] at hc
  have hc : (__make_cheat line).desc.length ≤ CHEAT_DESC_MAX := by
    simp only [__make_cheat, make_cheat, List.length_take]; omega
  unfold parse_line at h
  simp only at h
  split at h
  · cases h
  · split at h
    · split at h
      · cases h
      · rename_i game hmk
        cases h
        intro g hgm
        rcases List.mem_append.1 hgm with hm | hm
        · exact hb g hm
        · rw [List.mem_singleton] at hm
          rw [hm, (make_game_some hmk).1]
          exact hg
    · split at h
      · split at h
        · cases h
        · split at h
          · cases h
          · rename_i g0 game hget
            cases h
            have hmem : game ∈ list := List.mem_iff_getElem?.2 ⟨_, hget⟩
            intro g hgm
            rcases List.mem_or_eq_of_mem_set hgm with hm | hm
            · exact hb g hm
            · subst hm
              refine ⟨(hb game hmem).1, ?_⟩
              intro c hcm
              rcases List.mem_append.1 hcm with hm2 | hm2
              · exact (hb game hmem).2 c hm2
              · rw [List.mem_singleton] at hm2; subst hm2; exact hc
      · split at h
        · split at h
          · cases h
          · split at h
            · cases h
            · split at h
              · cases h
              · rename_i game hget x cheat hgetc
                cases h
                have hmem : game ∈ list := List.mem_iff_getElem?.2 ⟨_, hget⟩
                have hcmem : cheat ∈ game.cheats := List.mem_iff_getElem?.2 ⟨_, hgetc⟩
                intro g hgm
                rcases List.mem_or_eq_of_mem_set hgm with hm | hm
                · exact hb g hm
                · subst hm
                  refine ⟨(hb game hmem).1, ?_⟩
                  intro c hcm
                  rcases List.mem_or_eq_of_mem_set hcm with hm2 | hm2
                  · exact (hb game hmem).2 c hm2
                  · subst hm2; exact (hb game hmem).2 cheat hcmem
        · cases h; exact hb

/-- Claim C16, amended: the constructors `mkgame` and `mkcheat` store the text itself when
it has at most 127 characters and its first 127 characters otherwise, and build the object
whatever the length; the titles and descriptions of the collection a parse leaves, built by
`make_game` and `make_cheat`, have at most 80 characters. -/
theorem constructors_truncate (text : List Char) :
    (∀ (cheats : Option (List cheat_t)) (codes : Option (List code_t)) (tag : Nat),
      (text.length ≤ CL_TITLE_MAX → (mkgame (some text) cheats tag).title = text ∧
        (mkcheat (some text) codes tag).desc = text) ∧
      (CL_TITLE_MAX < text.length →
        (mkgame (some text) cheats tag).title = text.take 127 ∧
        (mkcheat (some text) codes tag).desc = text.take 127 ∧
        (mkgame (some text) cheats tag).title.length = 127 ∧
        (mkcheat (some text) codes tag).desc.length = 127)) ∧
    (make_game text none 0).title = text.take 80 ∧
    (make_cheat text none 0).desc = text.take 80 ∧
    (∀ (junk : Nat → List Char × List Char) (stream : List (List Char)) (ret : Int)
      (ctx : parser_ctx_t) (list : gamelist_t) (e : Option parse_error),
      parse_stream junk [] stream = .done ret ctx list e → bounded list) ∧
    (∀ (junk : Nat → List Char × List Char) (line0 buf : List Char) (ret : Int)
      (ctx : parser_ctx_t) (list : gamelist_t) (e : Option parse_error),
      parse_buf junk line0 [] buf = .done ret ctx list e → bounded list) := by
  refine ⟨?_, rfl, rfl, ?_, ?_⟩
  · intro cheats codes tag
    refine ⟨?_, ?_⟩
    · intro h
      simp only [mkgame, mkcheat, Option.getD_some, CL_DESC_MAX]
      exact ⟨List.take_of_length_le h, List.take_of_length_le h⟩
    · intro h
      simp only [CL_TITLE_MAX] at h
      refine ⟨rfl, rfl, ?_, ?_⟩
      · simp only [mkgame, Option.getD_some, CL_TITLE_MAX, List.length_take]; omega
      · simp only [mkcheat, Option.getD_some, CL_DESC_MAX, List.length_take]; omega
  · intro junk stream ret ctx list e h
    exact parse_stream_loop_inv bounded junk parse_line_bounded stream _ _ _ _ _ _ _
      (by intro g hg; simp at hg) h
  · intro junk line0 buf ret ctx list e h
    exact parse_buf_loop_inv bounded junk parse_line_bounded _ _ _ _ _ _ _ _ _ _
      (by intro g hg; simp at hg) h

theorem constructors_truncate_witness :
    (mkgame (some "Game A".toList) none 0).title = "Game A".toList ∧
    (mkcheat (some (List.replicate 130 'a')) none 0).desc = (List.replicate 130 'a').take 127 ∧
    bounded [] :=
  ⟨((constructors_truncate "Game A".toList).1 none none 0).1 (by decide) |>.1,
   ((constructors_truncate (List.replicate 130 'a')).1 none none 0).2 (by simp [CL_TITLE_MAX]) |>.2.1,
   (constructors_truncate []).2.2.2.1 (fun _ => ([], [])) [] 0 _ [] none rfl⟩

/-- Claim C16 as stated fails for the constructors of codelist.c: a title and a description
of 81 characters are stored whole, not cut to 80. -/
theorem constructors_truncate_counterexample :
    (¬ ∀ text : List Char, 80 < text.length →
      (mkgame (some text) none 0).title = text.take 80) ∧
    (mkgame (some (List.replicate 81 'a')) none 0).title = List.replicate 81 'a' ∧
    (mkcheat (some (List.replicate 81 'a')) none 0).desc = List.replicate 81 'a' ∧
    (List.replicate 81 'a').take 80 ≠ List.replicate 81 'a' := by
  refine ⟨?_, by decide, by decide, by decide⟩
  intro h
  exact absurd (h (List.replicate 81 'a') (by decide)) (by decide)

/-- Claim C20, amended: when `parse_line` fails because the token of the line is not in the
expected set, the stored message is "parse error: " followed by the name of the token and
" invalid here", and the stored line is the line number passed; in a reachable state the
token is a cheat description or a cheat code. -/
theorem parse_line_error_message (a1 a2 line : List Char) (nl : Nat) (ctx : parser_ctx_t)
    (list : gamelist_t) (e : parse_error)
    (h : parse_line a1 a2 line nl ctx list = .fail e) :
    ctx.next &&& get_token line ctx.top = 0 ∧
    e.line = nl ∧
    e.text = "parse error: " ++ (tok2str (get_token line ctx.top)).getD "(null)" ++
      " invalid here" ∧
    (get_token line ctx.top = TOK_CHEAT_DESC →
      e.text = "parse error: cheat description invalid here") ∧
    (get_token line ctx.top = TOK_CHEAT_CODE →
      e.text = "parse error: cheat code invalid here") ∧
    (reachable ctx list →
      get_token line ctx.top = TOK_CHEAT_DESC ∨ get_token line ctx.top = TOK_CHEAT_CODE) := by
  obtain ⟨hbad, he⟩ := parse_line_fail_form h
  subst he
  refine ⟨hbad, rfl, rfl, ?_, ?_, ?_⟩
  · intro ht
    simp only [parse_err, ht]
    decide
  · intro ht
    simp only [parse_err, ht]
    decide
  · intro hr
    rcases get_token_cases line ctx.top with ht | ht | ht
    · rw [ht] at hbad
      exact absurd hbad (reachable_has_title hr)
    · exact Or.inl ht
    · exact Or.inr ht

theorem parse_line_error_message_witness :
    parse_line [] [] "AB CD".toList 7 (init_parser_ctx uninit_ctx) [] =
      .fail { line := 7, text := "parse error: cheat code invalid here" } ∧
    (init_parser_ctx uninit_ctx).next &&& get_token "AB CD".toList 0 = 0 :=
  ⟨by decide,
   (parse_line_error_message [] [] "AB CD".toList 7 (init_parser_ctx uninit_ctx) []
    { line := 7, text := "parse error: cheat code invalid here" } (by decide)).1⟩

/-- Claim C20 as stated fails: a description line in the initial state is rejected with the
message "parse error: cheat description invalid here", not "cheat description invalid
here". -/
theorem parse_line_error_message_counterexample :
    (¬ ∀ (a1 a2 line : List Char) (nl : Nat) (ctx : parser_ctx_t) (list : gamelist_t)
      (e : parse_error), parse_line a1 a2 line nl ctx list = .fail e →
      e.text = (tok2str (get_token line ctx.top)).getD "(null)" ++ " invalid here") ∧
    parse_line [] [] ['x'] 1 (init_parser_ctx uninit_ctx) [] =
      .fail { line := 1, text := "parse error: cheat description invalid here" } ∧
    tok2str (get_token ['x'] 0) = some "cheat description" ∧
    "parse error: cheat description invalid here" ≠ "cheat description invalid here" := by
  refine ⟨?_, by decide, by decide, by decide⟩
  intro h
  have := h [] [] ['x'] 1 (init_parser_ctx uninit_ctx) []
    { line := 1, text := "parse error: cheat description invalid here" } (by decide)
  revert this
  decide

/-- On a line whose content starts with two slashes `term_str` keeps the leading white
space only. -/
theorem term_str_comment_line (l : List Char) (h : is_cmt_str (l.dropWhile isspace) = true) :
    term_str l is_cmt_str = l.takeWhile isspace := by
  induction l with
  | nil => simp [is_cmt_str] at h
  | cons c s ih =>
    cases hc : isspace c with
    | true =>
      have hns : is_cmt_str (c :: s) = false := by
        cases s with
        | nil => rfl
        | cons d r =>
          have : (c == SLASH) = false := by
            cases hcs : c == SLASH with
            | false => rfl
            | true =>
              rw [beq_iff_eq] at hcs
              rw [hcs] at hc
              exact absurd hc (by decide)
          simp [is_cmt_str, this]
      rw [List.dropWhile_cons_of_pos hc] at h
      rw [term_str, hns, List.takeWhile_cons_of_pos hc, ih h]
      simp
    | false =>
      rw [List.dropWhile_cons_of_neg (by simp [hc])] at h
      rw [term_str, h, List.takeWhile_cons_of_neg (by simp [hc])]
      simp

/-- Blank lines, white-space lines and comment lines are not significant: the drivers skip
them. -/
theorem skippable_not_significant (l : List Char) (h : skippable l = true) :
    significant l = false := by
  unfold skippable at h
  rw [Bool.or_eq_true] at h
  unfold significant
  rcases h with h | h
  · simp [is_empty_str, h]
  · have : screen l = [] := by
      unfold screen
      rw [term_str_comment_line l h, trim_str]
      have : (l.takeWhile isspace).dropWhile isspace = [] := by
        rw [List.dropWhile_eq_nil_iff]
        intro x hx
        exact List.mem_takeWhile_imp hx
      rw [this]
      rfl
    simp [this]

/-- The line number passed to `parse_line` is used for the stored error only. -/
theorem parse_line_nl {a1 a2 line : List Char} (nl nl2 : Nat) {ctx : parser_ctx_t}
    {list : gamelist_t} (hx : ctx.next &&& get_token line ctx.top ≠ 0) :
    parse_line a1 a2 line nl ctx list = parse_line a1 a2 line nl2 ctx list := by
  unfold parse_line
  simp only [hx, if_false]

/-- The loop of `parse_stream` run one line number later is the loop run with the contents
of the arrays moved accordingly, but for the stored error line. -/
theorem parse_stream_loop_shift (junk : Nat → List Char × List Char) (k : Nat)
    (post : List (List Char)) :
    ∀ (m : Nat) (ctx : parser_ctx_t) (list : gamelist_t), k ≤ m →
      parse_stream_loop junk post (m + 1) ctx list =
        bump k (parse_stream_loop (unshift junk k) post m ctx list) := by
  induction post with
  | nil => intro m ctx list _; rfl
  | cons x post ih =>
    intro m ctx list hm
    cases hs : significant x with
    | false =>
      rw [parse_stream_loop_skip junk post _ ctx list hs,
        parse_stream_loop_skip (unshift junk k) post _ ctx list hs]
      exact ih (m + 1) ctx list (by omega)
    | true =>
      have hj : unshift junk k m = junk (m + 1) := by
        unfold unshift; rw [if_neg (by omega)]
      rw [parse_stream_loop_sig junk post _ ctx list hs,
        parse_stream_loop_sig (unshift junk k) post _ ctx list hs, hj]
      by_cases hx : ctx.next &&& get_token (screen x) ctx.top = 0
      · rw [parse_line_fail hx, parse_line_fail hx]
        simp only [bump, parse_err]
        rw [if_neg (by omega)]
      · rw [parse_line_nl (m + 1) m hx]
        cases hp : parse_line (junk (m + 1)).1 (junk (m + 1)).2 (screen x) m ctx list with
        | ok c g => exact ih (m + 1) c g (by omega)
        | fail e => exact absurd (parse_line_fail_form hp).1 hx
        | fault => rfl
        | overrun => rfl

/-- The loop of `parse_stream` on an input with a skipped line inserted: the loop on the
input without it, but for the stored error line. -/
theorem parse_stream_loop_insert (junk : Nat → List Char × List Char) (l : List Char)
    (post : List (List Char)) (hl : significant l = false) (pre : List (List Char)) :
    ∀ (nl : Nat) (ctx : parser_ctx_t) (list : gamelist_t),
      parse_stream_loop junk (pre ++ l :: post) nl ctx list =
        bump (nl + pre.length)
          (parse_stream_loop (unshift junk (nl + pre.length)) (pre ++ post) nl ctx list) := by
  induction pre with
  | nil =>
    intro nl ctx list
    rw [List.nil_append, List.nil_append, parse_stream_loop_skip junk post nl ctx list hl]
    exact parse_stream_loop_shift junk _ post nl ctx list (by simp)
  | cons x pre ih =>
    intro nl ctx list
    have hk : nl + (x :: pre).length = nl + 1 + pre.length := by
      simp only [List.length_cons]; omega
    rw [hk, List.cons_append, List.cons_append]
    cases hs : significant x with
    | false =>
      rw [parse_stream_loop_skip junk _ _ ctx list hs,
        parse_stream_loop_skip (unshift junk _) _ _ ctx list hs]
      exact ih (nl + 1) ctx list
    | true =>
      have hj : unshift junk (nl + 1 + pre.length) nl = junk nl := by
        unfold unshift; rw [if_pos (by omega)]
      rw [parse_stream_loop_sig junk _ _ ctx list hs,
        parse_stream_loop_sig (unshift junk _) _ _ ctx list hs, hj]
      cases hp : parse_line (junk nl).1 (junk nl).2 (screen x) nl ctx list with
      | ok c g => exact ih (nl + 1) c g
      | fail e =>
        have he := (parse_line_fail_form hp).2
        subst he
        simp only [bump, parse_err]
        rw [if_pos (by omega)]
      | fault => rfl
      | overrun => rfl

/-- With the same contents of the arrays at every line, the loop of `parse_stream` gives
the same verdict on an input and on the input without its skippable lines. -/
theorem parse_stream_loop_filter (j : List Char × List Char) (s : List (List Char)) :
    ∀ (nl nl2 : Nat) (ctx : parser_ctx_t) (list : gamelist_t),
      verdict (parse_stream_loop (fun _ => j) s nl ctx list) =
        verdict (parse_stream_loop (fun _ => j) (s.filter (fun l => !skippable l)) nl2 ctx
          list) := by
  induction s with
  | nil => intro nl nl2 ctx list; rfl
  | cons x s ih =>
    intro nl nl2 ctx list
    cases hk : skippable x with
    | true =>
      rw [List.filter_cons_of_neg (by simp [hk]),
        parse_stream_loop_skip _ s nl ctx list (skippable_not_significant x hk)]
      exact ih _ _ ctx list
    | false =>
      rw [List.filter_cons_of_pos (by simp [hk])]
      cases hs : significant x with
      | false =>
        rw [parse_stream_loop_skip _ _ nl ctx list hs, parse_stream_loop_skip _ _ nl2 ctx list hs]
        exact ih _ _ ctx list
      | true =>
        rw [parse_stream_loop_sig _ _ nl ctx list hs, parse_stream_loop_sig _ _ nl2 ctx list hs]
        by_cases hx : ctx.next &&& get_token (screen x) ctx.top = 0
        · rw [parse_line_fail hx, parse_line_fail hx]
          rfl
        · rw [parse_line_nl nl nl2 hx]
          cases parse_line j.1 j.2 (screen x) nl2 ctx list with
          | ok c g => exact ih _ _ c g
          | fail e => rfl
          | fault => rfl
          | overrun => rfl


/-- One turn of the loop of `parse_buf` on two buffers that agree on the length the scanner
finds, on the line it cuts and on what is left after it. -/
theorem parse_buf_loop_turn (junk : Nat → List Char × List Char) (fuel : Nat)
    (b1 b2 line : List Char) (nl : Nat) (ctx : parser_ctx_t) (list : gamelist_t) (len : Nat)
    (h1 : 0 ≤ chr_idx b1 LF ∧
      (if chr_idx b1 LF > (LINE_MAX : Int) then LINE_MAX else (chr_idx b1 LF).toNat) = len)
    (h2 : 0 ≤ chr_idx b2 LF ∧
      (if chr_idx b2 LF > (LINE_MAX : Int) then LINE_MAX else (chr_idx b2 LF).toNat) = len)
    (ht : b1.take len = b2.take len) (hd : b1.drop (len + 1) = b2.drop (len + 1))
    (hl1 : len < b1.length) (hl2 : len < b2.length) :
    parse_buf_loop junk (fuel + 1) b1 line nl ctx list =
      parse_buf_loop junk (fuel + 1) b2 line nl ctx list := by
  have hne1 : b1 ≠ [] := by intro h; rw [h] at hl1; simp at hl1
  have hne2 : b2 ≠ [] := by intro h; rw [h] at hl2; simp at hl2
  have e1 : (if chr_idx b1 LF < 0 then line.length
      else if chr_idx b1 LF > (LINE_MAX : Int) then LINE_MAX
      else (chr_idx b1 LF).toNat) = len := by
    rw [if_neg (by omega)]; exact h1.2
  have e2 : (if chr_idx b2 LF < 0 then line.length
      else if chr_idx b2 LF > (LINE_MAX : Int) then LINE_MAX
      else (chr_idx b2 LF).toNat) = len := by
    rw [if_neg (by omega)]; exact h2.2
  rw [parse_buf_loop, parse_buf_loop]
  simp only [hne1, hne2, if_false, e1, e2, is_empty_substr, ht, hd, hl1, hl2, if_true]

/-- A raw line of more than 511 characters is cut by the scanner of `parse_buf` as two
lines: its first 511 characters, and what follows its 512th character. -/
theorem parse_buf_loop_long (junk : Nat → List Char × List Char) (fuel : Nat)
    (l tail line : List Char) (nl : Nat) (ctx : parser_ctx_t) (list : gamelist_t)
    (hl : LF ∉ l) (hlen : LINE_MAX < l.length) :
    parse_buf_loop junk fuel (l ++ LF :: tail) line nl ctx list =
      parse_buf_loop junk fuel
        (l.take LINE_MAX ++ LF :: (l.drop (LINE_MAX + 1) ++ LF :: tail)) line nl ctx list := by
  cases fuel with
  | zero => simp [parse_buf_loop]
  | succ f =>
    have hlt : LF ∉ l.take LINE_MAX := fun h => hl (List.mem_of_mem_take h)
    have hlk : (l.take LINE_MAX).length = LINE_MAX := by
      rw [List.length_take]; omega
    apply parse_buf_loop_turn junk f _ _ line nl ctx list LINE_MAX
    · rw [chr_idx_line l _ hl]
      refine ⟨by omega, ?_⟩
      rw [if_pos (by omega)]
    · rw [chr_idx_line _ _ hlt, hlk]
      refine ⟨by omega, ?_⟩
      rw [if_neg (by omega)]
      simp
    · rw [List.take_append_of_le_length (by omega), List.take_left' hlk]
    · rw [List.drop_append_of_le_length (by omega)]
      have h1 : (l.take LINE_MAX ++ [LF]).length = LINE_MAX + 1 := by
        rw [List.length_append, hlk]; rfl
      have h2 : l.take LINE_MAX ++ LF :: (l.drop (LINE_MAX + 1) ++ LF :: tail) =
          (l.take LINE_MAX ++ [LF]) ++ (l.drop (LINE_MAX + 1) ++ LF :: tail) := by simp
      rw [h2, List.drop_left' h1]
    · rw [List.length_append]; omega
    · rw [List.length_append, hlk]; simp

/-- The loop of `parse_buf` on raw lines followed by either of two texts on which the loop
agrees. -/
theorem parse_buf_loop_congr (junk : Nat → List Char × List Char) (b1 b2 : List Char)
    (hb : ∀ (fuel : Nat) (line : List Char) (nl : Nat) (ctx : parser_ctx_t) (list : gamelist_t),
      parse_buf_loop junk fuel b1 line nl ctx list = parse_buf_loop junk fuel b2 line nl ctx list)
    (pre : List (List Char)) (hpre : raw_lines pre) :
    ∀ (fuel : Nat) (line : List Char) (nl : Nat) (ctx : parser_ctx_t) (list : gamelist_t),
      parse_buf_loop junk fuel (unlines pre ++ b1) line nl ctx list =
        parse_buf_loop junk fuel (unlines pre ++ b2) line nl ctx list := by
  induction pre with
  | nil =>
    intro fuel line nl ctx list
    simpa [unlines] using hb fuel line nl ctx list
  | cons x pre ih =>
    intro fuel line nl ctx list
    have hx := hpre x (List.mem_cons_self _ _)
    have hp : raw_lines pre := fun y hy => hpre y (List.mem_cons_of_mem _ hy)
    cases fuel with
    | zero => simp [parse_buf_loop]
    | succ f =>
      rw [unlines_cons, List.append_assoc, List.append_assoc, List.cons_append, List.cons_append]
      have hlen : ∀ tail : List Char,
          (if chr_idx (x ++ LF :: tail) LF < 0 then line.length
          else if chr_idx (x ++ LF :: tail) LF > (LINE_MAX : Int) then LINE_MAX
          else (chr_idx (x ++ LF :: tail) LF).toNat) = x.length := by
        intro tail
        rw [chr_idx_line x _ hx.1]
        have := hx.2
        rw [if_neg (by omega), if_neg (by omega)]
        simp
      have htake : ∀ tail : List Char, (x ++ LF :: tail).take x.length = x := by simp
      have hdrop : ∀ tail : List Char, (x ++ LF :: tail).drop (x.length + 1) = tail := by
        intro tail; rw [← List.drop_drop]; simp
      have hlt : ∀ tail : List Char, x.length < (x ++ LF :: tail).length := by simp
      have hne : ∀ tail : List Char, x ++ LF :: tail ≠ [] := by simp
      rw [parse_buf_loop, parse_buf_loop]
      simp only [hne, if_false, hlen, is_empty_substr, htake, hdrop, hlt, if_true]
      split
      · split
        · cases parse_line (junk nl).1 (junk nl).2 (screen x) nl ctx list with
          | ok ctx1 list1 => exact ih hp f _ _ _ _
          | fail e => rfl
          | fault => rfl
          | overrun => rfl
        · exact ih hp f _ _ _ _
      · exact ih hp f _ _ _ _

/-- The function `parse_buf` on a text with a raw line of more than 511 characters: the
parse of the text with that line cut in two after 511 characters, its 512th character
dropped. -/
theorem parse_buf_long (junk : Nat → List Char × List Char) (line0 : List Char)
    (list : gamelist_t) (pre : List (List Char)) (l rest : List Char)
    (hpre : raw_lines pre) (hl : LF ∉ l) (hlen : LINE_MAX < l.length) :
    parse_buf junk line0 list (unlines pre ++ (l ++ LF :: rest)) =
      parse_buf junk line0 list
        (unlines pre ++ (l.take LINE_MAX ++ LF :: (l.drop (LINE_MAX + 1) ++ LF :: rest))) := by
  have hsame : (unlines pre ++ (l ++ LF :: rest)).length =
      (unlines pre ++ (l.take LINE_MAX ++ LF :: (l.drop (LINE_MAX + 1) ++ LF :: rest))).length := by
    simp only [List.length_append, List.length_cons, List.length_take, List.length_drop]
    omega
  unfold parse_buf
  rw [← hsame]
  exact parse_buf_loop_congr junk _ _
    (fun fuel line nl ctx list1 => parse_buf_loop_long junk fuel l rest line nl ctx list1 hl hlen)
    pre hpre _ _ _ _ _

theorem long_head_length : long_head.length = LINE_MAX := by
  simp only [long_head, List.length_cons, List.length_replicate, LINE_MAX]

theorem long_head_raw : LF ∉ long_head := by
  simp only [long_head, List.mem_cons, List.mem_replicate, not_or, not_and]
  exact ⟨by decide, by decide, fun _ => by decide⟩

theorem long_line_raw : LF ∉ long_line := by
  simp only [long_line, List.mem_append, List.mem_cons, List.not_mem_nil, or_false, not_or]
  exact ⟨long_head_raw, by decide, by decide, by decide, by decide⟩

theorem long_line_length : LINE_MAX < long_line.length := by
  simp only [long_line, List.length_append, long_head_length, List.length_cons, List.length_nil]
  omega

theorem long_line_take : long_line.take LINE_MAX = long_head :=
  List.take_left' long_head_length

theorem long_line_drop : long_line.drop (LINE_MAX + 1) = [DQUOTE, 'H', DQUOTE] := by
  have h : long_line = (long_head ++ [' ']) ++ [DQUOTE, 'H', DQUOTE] := by
    simp only [long_line, List.append_assoc, List.singleton_append]
  rw [h]
  exact List.drop_left' (by rw [List.length_append, long_head_length]; rfl)

/-- A successful `parse_line` had its token in the expected set. -/
theorem parse_line_ok_expected {a1 a2 line : List Char} {nl : Nat} {ctx ctx1 : parser_ctx_t}
    {list list1 : gamelist_t} (h : parse_line a1 a2 line nl ctx list = .ok ctx1 list1) :
    ctx.next &&& get_token line ctx.top ≠ 0 := by
  intro hx
  rw [parse_line_fail hx] at h
  cases h

/-- The invariant `ctx_wf` holds in every state reachable from `init_parser` by successful
calls of `parse_line`. -/
theorem reachable_wf {ctx : parser_ctx_t} {list : gamelist_t} (h : reachable ctx list) :
    ctx_wf ctx list := by
  induction h with
  | init ctx0 list0 => exact Or.inl rfl
  | step a1 a2 line nl _ hstep ih =>
    obtain ⟨ctx2, hp, hwf, _, _⟩ :=
      parse_line_wf a1 a2 line nl ih (parse_line_ok_expected hstep) (parse_line_ok_fits hstep)
    rw [hp] at hstep
    simp only [line_result.ok.injEq] at hstep
    rw [← hstep.1, ← hstep.2]
    exact hwf

/-- The expected set of a state that satisfies the invariant when a description, or a code,
is expected. -/
theorem ctx_wf_expected {ctx : parser_ctx_t} {list : gamelist_t} (h : ctx_wf ctx list) :
    (ctx.next &&& TOK_CHEAT_DESC ≠ 0 →
      ∃ init g, list = init ++ [g] ∧ ctx.game = some init.length) ∧
    (ctx.next &&& TOK_CHEAT_CODE ≠ 0 →
      ∃ init g cinit c, list = init ++ [g] ∧ g.cheats = cinit ++ [c] ∧
        ctx.game = some init.length ∧ ctx.cheat = some (init.length, cinit.length)) := by
  rcases h with h1 | ⟨h1, init, g, h2, h3⟩ | ⟨h1, h2⟩
  · rw [h1]
    exact ⟨fun h => absurd (by decide) h, fun h => absurd (by decide) h⟩
  · rw [h1]
    exact ⟨fun _ => ⟨init, g, h2, h3⟩, fun h => absurd (by decide) h⟩
  · obtain ⟨init, g, cinit, c, ha, hb, hc, hd⟩ := h2
    exact ⟨fun _ => ⟨init, g, ha, hc⟩, fun _ => ⟨init, g, cinit, c, ha, hb, hc, hd⟩⟩

/-- Claim C21: in every state reachable from `init_parser`, when a description is expected
the current game is the last game of the list, and when a code is expected the current
cheat is the last cheat of that game; so `parse_line` never goes through a NULL current
game or cheat, a description line adds its cheat to the last game and a code line adds its
code to the last cheat of the last game. -/
theorem missing_parent_unreachable (ctx : parser_ctx_t) (list : gamelist_t)
    (h : reachable ctx list) :
    (ctx.next &&& TOK_CHEAT_DESC ≠ 0 →
      ∃ init g, list = init ++ [g] ∧ ctx.game = some init.length) ∧
    (ctx.next &&& TOK_CHEAT_CODE ≠ 0 →
      ∃ init g cinit c, list = init ++ [g] ∧ g.cheats = cinit ++ [c] ∧
        ctx.game = some init.length ∧ ctx.cheat = some (init.length, cinit.length)) ∧
    (∀ (a1 a2 line : List Char) (nl : Nat), parse_line a1 a2 line nl ctx list ≠ .fault) ∧
    (∀ (a1 a2 line : List Char) (nl : Nat) (ctx1 : parser_ctx_t) (list1 : gamelist_t),
      parse_line a1 a2 line nl ctx list = .ok ctx1 list1 →
      (get_token line ctx.top = TOK_GAME_TITLE →
        ∃ g, __make_game line = some g ∧ list1 = list ++ [g]) ∧
      (get_token line ctx.top = TOK_CHEAT_DESC →
        ∃ init g, list = init ++ [g] ∧
          list1 = init ++ [{ g with cheats := g.cheats ++ [__make_cheat line] }]) ∧
      (get_token line ctx.top = TOK_CHEAT_CODE →
        ∃ init g cinit c, list = init ++ [g] ∧ g.cheats = cinit ++ [c] ∧
          list1 = init ++ [{ g with cheats :=
            cinit ++ [{ c with codes := c.codes ++ [__make_code a1 a2 line] }] }])) := by
  have hwf := reachable_wf h
  obtain ⟨hd, hc⟩ := ctx_wf_expected hwf
  refine ⟨hd, hc, ?_, ?_⟩
  · intro a1 a2 line nl hf
    by_cases hx : ctx.next &&& get_token line ctx.top = 0
    · rw [parse_line_fail hx] at hf
      cases hf
    · by_cases hfit : title_fits line
      · obtain ⟨ctx2, hp, _⟩ := parse_line_wf a1 a2 line nl hwf hx hfit
        rw [hp] at hf
        cases hf
      · unfold title_fits at hfit
        rw [Classical.not_imp] at hfit
        have ht : get_token line ctx.top = TOK_GAME_TITLE := hfit.1
        rw [ht] at hx
        rw [parse_line_overrun a1 a2 nl list hfit.1 hx (by omega)] at hf
        cases hf
  · intro a1 a2 line nl ctx1 list1 hp
    have hx := parse_line_ok_expected hp
    obtain ⟨ctx2, hp2, _⟩ := parse_line_wf a1 a2 line nl hwf hx (parse_line_ok_fits hp)
    have hfit := parse_line_ok_fits hp
    rw [hp2] at hp
    simp only [line_result.ok.injEq] at hp
    have hl := hp.2
    have htop : get_token line 0 = get_token line ctx.top := rfl
    refine ⟨?_, ?_, ?_⟩
    · intro ht
      refine ⟨title_game line, make_game_fits ht (hfit ht), ?_⟩
      rw [← hl]
      simp [node, htop, ht, absorb]
    · intro ht
      rw [ht] at hx
      obtain ⟨init, g, hi, _⟩ := hd hx
      refine ⟨init, g, hi, ?_⟩
      have hnode : node a1 a2 line = .desc (__make_cheat line) := by
        simp [node, htop, ht, TOK_CHEAT_DESC, TOK_GAME_TITLE, TOK_CHEAT_CODE]
      rw [← hl, hnode, hi, absorb_desc]
    · intro ht
      rw [ht] at hx
      obtain ⟨init, g, cinit, c, hi, hg, _, _⟩ := hc hx
      refine ⟨init, g, cinit, c, hi, hg, ?_⟩
      have hnode : node a1 a2 line = .code (__make_code a1 a2 line) := by
        simp [node, htop, ht, TOK_CHEAT_DESC, TOK_GAME_TITLE, TOK_CHEAT_CODE]
      rw [← hl, hnode, hi, absorb_code init g cinit c _ hg]

theorem missing_parent_unreachable_witness :
    ∃ init g, ([{ title := ['G'], cheats := [], tag := 0 }] : gamelist_t) = init ++ [g] ∧
      (some 0 : Option Nat) = some init.length :=
  (missing_parent_unreachable
    { top := 0, next := 3, game := some 0, cheat := none, code := none }
    [{ title := ['G'], cheats := [], tag := 0 }]
    (reachable.step [] [] [DQUOTE, 'G', DQUOTE] 1 (reachable.init uninit_ctx [])
      (by decide))).1 (by decide)

/-- A node absorbed by a list that ends in games of its own goes to those games. -/
theorem absorb_append (base new : gamelist_t) (it : item) (h : new ≠ []) :
    absorb (base ++ new) it = base ++ absorb new it := by
  rcases nil_or_snoc new with hn | ⟨init, g, hn⟩
  · exact absurd hn h
  · subst hn
    cases it with
    | title g1 => simp [absorb]
    | desc c =>
      rw [← List.append_assoc, absorb_desc, absorb_desc, List.append_assoc]
    | code k =>
      rcases nil_or_snoc g.cheats with hc | ⟨cinit, c, hc⟩
      · simp [absorb, hc]
      · rw [← List.append_assoc, absorb_code _ g cinit c k hc, absorb_code _ g cinit c k hc,
          List.append_assoc]

/-- One successful `parse_line` on two states that run side by side: the same node is
absorbed on both sides, and the new states run side by side. -/
theorem parse_line_framed (a1 a2 line : List Char) (nl : Nat) {base new : gamelist_t}
    {ctx ctx2 : parser_ctx_t} (hf : framed base ctx ctx2 new)
    (hx : ctx2.next &&& get_token line ctx2.top ≠ 0) (hfit : title_fits line) :
    ∃ c1 c2 new1, parse_line a1 a2 line nl ctx (base ++ new) = .ok c1 (base ++ new1) ∧
      parse_line a1 a2 line nl ctx2 new = .ok c2 new1 ∧ framed base c1 c2 new1 := by
  obtain ⟨hn, hw, hw2⟩ := hf
  have htok : get_token line ctx.top = get_token line ctx2.top := rfl
  have hx1 : ctx.next &&& get_token line ctx.top ≠ 0 := by rw [hn, htok]; exact hx
  obtain ⟨c1, hp1, hwf1, hn1, _⟩ := parse_line_wf a1 a2 line nl hw hx1 hfit
  obtain ⟨c2, hp2, hwf2, hn2, _⟩ := parse_line_wf a1 a2 line nl hw2 hx hfit
  have habs : absorb (base ++ new) (node a1 a2 line) = base ++ absorb new (node a1 a2 line) := by
    by_cases hne : new = []
    · subst hne
      rcases hw2 with h1 | ⟨_, init, g, h2, _⟩ | ⟨_, init, g, _, _, h2, _⟩
      · have ht : get_token line 0 = TOK_GAME_TITLE := by
          rcases get_token_cases line 0 with ht | ht | ht
          · exact ht
          · rw [h1] at hx
            have : get_token line ctx2.top = TOK_CHEAT_DESC := ht
            rw [this] at hx
            exact absurd (by decide) hx
          · rw [h1] at hx
            have : get_token line ctx2.top = TOK_CHEAT_CODE := ht
            rw [this] at hx
            exact absurd (by decide) hx
        simp [node, ht, absorb]
      · simp at h2
      · simp at h2
    · exact absorb_append base new _ hne
  rw [habs] at hp1 hwf1
  exact ⟨c1, c2, _, hp1, hp2, by rw [hn1, hn2, htok], hwf1, hwf2⟩

/-- On a title line that does not fit, two states that run side by side both write past the
end of `buf`. -/
theorem parse_line_framed_overrun (a1 a2 line : List Char) (nl : Nat) {base new : gamelist_t}
    {ctx ctx2 : parser_ctx_t} (hf : framed base ctx ctx2 new)
    (hx : ctx2.next &&& get_token line ctx2.top ≠ 0) (hfit : ¬ title_fits line) :
    parse_line a1 a2 line nl ctx (base ++ new) = .overrun ∧
      parse_line a1 a2 line nl ctx2 new = .overrun := by
  unfold title_fits at hfit
  rw [Classical.not_imp] at hfit
  have ht : get_token line ctx2.top = TOK_GAME_TITLE := hfit.1
  rw [ht] at hx
  have hx1 : ctx.next &&& TOK_GAME_TITLE ≠ 0 := by rw [hf.1]; exact hx
  exact ⟨parse_line_overrun a1 a2 nl _ hfit.1 hx1 (by omega),
    parse_line_overrun a1 a2 nl _ hfit.1 hx (by omega)⟩

/-- The loop of `parse_stream` on two states that run side by side leaves the same result,
with the games of `base` before the list on the one side. -/
theorem parse_stream_loop_framed (junk : Nat → List Char × List Char) (base : gamelist_t)
    (stream : List (List Char)) :
    ∀ (nl : Nat) (ctx ctx2 : parser_ctx_t) (new : gamelist_t), framed base ctx ctx2 new →
      driver_result (parse_stream_loop junk stream nl ctx (base ++ new)) =
        after_base base (driver_result (parse_stream_loop junk stream nl ctx2 new)) := by
  induction stream with
  | nil => intro nl ctx ctx2 new _; rfl
  | cons x stream ih =>
    intro nl ctx ctx2 new hf
    cases hs : significant x with
    | false =>
      rw [parse_stream_loop_skip junk stream nl ctx _ hs,
        parse_stream_loop_skip junk stream nl ctx2 _ hs]
      exact ih _ _ _ _ hf
    | true =>
      rw [parse_stream_loop_sig junk stream nl ctx _ hs,
        parse_stream_loop_sig junk stream nl ctx2 _ hs]
      by_cases hx : ctx2.next &&& get_token (screen x) ctx2.top = 0
      · have hx1 : ctx.next &&& get_token (screen x) ctx.top = 0 := by rw [hf.1]; exact hx
        rw [parse_line_fail hx, parse_line_fail hx1]
        rfl
      · by_cases hfit : title_fits (screen x)
        · obtain ⟨c1, c2, new1, hp1, hp2, hf1⟩ :=
            parse_line_framed (junk nl).1 (junk nl).2 (screen x) nl hf hx hfit
          rw [hp1, hp2]
          exact ih _ _ _ _ hf1
        · obtain ⟨hp1, hp2⟩ :=
            parse_line_framed_overrun (junk nl).1 (junk nl).2 (screen x) nl hf hx hfit
          rw [hp1, hp2]
          rfl

/-- The loop of `parse_buf` on two states that run side by side leaves the same result,
with the games of `base` before the list on the one side. -/
theorem parse_buf_loop_framed (junk : Nat → List Char × List Char) (base : gamelist_t) :
    ∀ (fuel : Nat) (buf line : List Char) (nl : Nat) (ctx ctx2 : parser_ctx_t)
      (new : gamelist_t), framed base ctx ctx2 new →
      driver_result (parse_buf_loop junk fuel buf line nl ctx (base ++ new)) =
        after_base base (driver_result (parse_buf_loop junk fuel buf line nl ctx2 new)) := by
  intro fuel
  induction fuel with
  | zero => intro buf line nl ctx ctx2 new _; rfl
  | succ f ih =>
    intro buf line nl ctx ctx2 new hf
    rw [parse_buf_loop, parse_buf_loop]
    by_cases hb : buf = []
    · simp only [hb, if_true]
      rfl
    · simp only [hb, if_false]
      generalize (if chr_idx buf LF < 0 then line.length
        else if chr_idx buf LF > (LINE_MAX : Int) then LINE_MAX
        else (chr_idx buf LF).toNat) = len
      by_cases he : (!is_empty_substr buf len) = true
      · simp only [he, if_true]
        by_cases hs : (screen (buf.take len)).length > 0
        · simp only [hs, if_true]
          by_cases hx : ctx2.next &&& get_token (screen (buf.take len)) ctx2.top = 0
          · have hx1 : ctx.next &&& get_token (screen (buf.take len)) ctx.top = 0 := by
              rw [hf.1]; exact hx
            rw [parse_line_fail hx, parse_line_fail hx1]
            rfl
          · by_cases hfit : title_fits (screen (buf.take len))
            · obtain ⟨c1, c2, new1, hp1, hp2, hf1⟩ :=
                parse_line_framed (junk nl).1 (junk nl).2 (screen (buf.take len)) nl hf hx hfit
              rw [hp1, hp2]
              by_cases hlen : len < buf.length
              · simp only [hlen, if_true]
                exact ih _ _ _ _ _ _ hf1
              · simp only [hlen, if_false]
                rfl
            · obtain ⟨hp1, hp2⟩ :=
                parse_line_framed_overrun (junk nl).1 (junk nl).2 (screen (buf.take len)) nl hf
                  hx hfit
              rw [hp1, hp2]
              rfl
        · simp only [hs, if_false]
          by_cases hlen : len < buf.length
          · simp only [hlen, if_true]
            exact ih _ _ _ _ _ _ hf
          · simp only [hlen, if_false]
            rfl
      · simp only [he, Bool.false_eq_true, if_false]
        by_cases hlen : len < buf.length
        · simp only [hlen, if_true]
          exact ih _ _ _ _ _ _ hf
        · simp only [hlen, if_false]
          rfl

/-- The initial states of two runs, on the list `base` and on the empty list, run side by
side. -/
theorem framed_init (base : gamelist_t) :
    framed base (init_parser_ctx uninit_ctx) (init_parser_ctx uninit_ctx) [] :=
  ⟨rfl, Or.inl rfl, Or.inl rfl⟩

/-- A result with `base` put before its list has `base` as a prefix of the list. -/
theorem after_base_initial (base : gamelist_t) (r : Option (Int × gamelist_t × Option parse_error))
    (ret : Int) (list1 : gamelist_t) (e : Option parse_error)
    (h : after_base base r = some (ret, list1, e)) :
    ∃ new, list1 = base ++ new ∧ r = some (ret, new, e) := by
  cases r with
  | none => simp [after_base] at h
  | some p =>
    obtain ⟨r1, l1, e1⟩ := p
    simp only [after_base, Option.map_some', Option.some.injEq, Prod.mk.injEq] at h
    obtain ⟨h1, h2, h3⟩ := h
    exact ⟨l1, h2.symm, by rw [h1, h3]⟩

/-- Claim C23: after `parse_stream` or `parse_buf`, on success and on failure, the list is
the list of before the call, unchanged, followed by the games the same call leaves in an
empty list, with the same value returned and the same stored error: the games of before
the call are a prefix of the result and no cheat or code of the input goes to one of
them. -/
theorem parse_only_appends (junk : Nat → List Char × List Char) (line0 : List Char)
    (list : gamelist_t) :
    (∀ stream : List (List Char),
      driver_result (parse_stream junk list stream) =
        after_base list (driver_result (parse_stream junk [] stream))) ∧
    (∀ buf : List Char,
      driver_result (parse_buf junk line0 list buf) =
        after_base list (driver_result (parse_buf junk line0 [] buf))) ∧
    (∀ (stream : List (List Char)) (ret : Int) (ctx1 : parser_ctx_t) (list1 : gamelist_t)
      (e : Option parse_error), parse_stream junk list stream = .done ret ctx1 list1 e →
      ∃ new ctx2, list1 = list ++ new ∧
        parse_stream junk [] stream = .done ret ctx2 new e) ∧
    (∀ (buf : List Char) (ret : Int) (ctx1 : parser_ctx_t) (list1 : gamelist_t)
      (e : Option parse_error), parse_buf junk line0 list buf = .done ret ctx1 list1 e →
      ∃ new ctx2, list1 = list ++ new ∧
        parse_buf junk line0 [] buf = .done ret ctx2 new e) := by
  have hs : ∀ stream : List (List Char),
      driver_result (parse_stream junk list stream) =
        after_base list (driver_result (parse_stream junk [] stream)) := by
    intro stream
    have h := parse_stream_loop_framed junk list stream 1 _ _ [] (framed_init list)
    rw [List.append_nil] at h
    exact h
  have hb : ∀ buf : List Char,
      driver_result (parse_buf junk line0 list buf) =
        after_base list (driver_result (parse_buf junk line0 [] buf)) := by
    intro buf
    have h := parse_buf_loop_framed junk list (buf.length + 1) buf line0 1 _ _ []
      (framed_init list)
    rw [List.append_nil] at h
    exact h
  have hres : ∀ (o : parse_outcome) (ret : Int) (new : gamelist_t) (e : Option parse_error),
      driver_result o = some (ret, new, e) → ∃ ctx2, o = .done ret ctx2 new e := by
    intro o ret new e h
    cases o with
    | done r c l e1 =>
      simp only [driver_result, Option.some.injEq, Prod.mk.injEq] at h
      obtain ⟨h1, h2, h3⟩ := h
      exact ⟨c, by rw [h1, h2, h3]⟩
    | fault => simp [driver_result] at h
    | overrun => simp [driver_result] at h
    | nofuel => simp [driver_result] at h
  refine ⟨hs, hb, ?_, ?_⟩
  · intro stream ret ctx1 list1 e h
    have h1 := hs stream
    rw [h] at h1
    obtain ⟨new, hl, hr⟩ := after_base_initial list _ ret list1 e h1.symm
    obtain ⟨ctx2, h2⟩ := hres _ ret new e hr
    exact ⟨new, ctx2, hl, h2⟩
  · intro buf ret ctx1 list1 e h
    have h1 := hb buf
    rw [h] at h1
    obtain ⟨new, hl, hr⟩ := after_base_initial list _ ret list1 e h1.symm
    obtain ⟨ctx2, h2⟩ := hres _ ret new e hr
    exact ⟨new, ctx2, hl, h2⟩

theorem parse_only_appends_witness :
    ∃ new ctx2, ([{ title := ['A'], cheats := [], tag := 0 },
        { title := ['G'], cheats := [{ desc := ['D'], codes := [], tag := 0 }], tag := 0 }] :
          gamelist_t) = [{ title := ['A'], cheats := [], tag := 0 }] ++ new ∧
      parse_stream (fun _ => ([], [])) [] [[DQUOTE, 'G', DQUOTE], ['D']] =
        .done 0 ctx2 new none :=
  (parse_only_appends (fun _ => ([], [])) [] [{ title := ['A'], cheats := [], tag := 0 }]).2.2.1
    [[DQUOTE, 'G', DQUOTE], ['D']] 0
    { top := 0, next := 7, game := some 1, cheat := some (1, 0), code := none }
    _ none (by decide)

/-- One turn of the loop of `parse_buf` when the scanner finds the length `len`. -/
theorem parse_buf_loop_step (junk : Nat → List Char × List Char) (fuel : Nat)
    (buf line : List Char) (nl : Nat) (ctx : parser_ctx_t) (list : gamelist_t) (len : Nat)
    (hb : buf ≠ [])
    (hlen : (if chr_idx buf LF < 0 then line.length
      else if chr_idx buf LF > (LINE_MAX : Int) then LINE_MAX
      else (chr_idx buf LF).toNat) = len) :
    parse_buf_loop junk (fuel + 1) buf line nl ctx list =
      if !is_empty_substr buf len then
        if (screen (buf.take len)).length > 0 then
          match parse_line (junk nl).1 (junk nl).2 (screen (buf.take len)) nl ctx list with
          | .fail e => .done (-1) ctx list (some e)
          | .fault => .fault
          | .overrun => .overrun
          | .ok ctx1 list1 =>
            if len < buf.length then
              parse_buf_loop junk fuel (buf.drop (len + 1)) (screen (buf.take len)) (nl + 1) ctx1
                list1
            else .fault
        else
          if len < buf.length then
            parse_buf_loop junk fuel (buf.drop (len + 1)) (screen (buf.take len)) (nl + 1) ctx list
          else .fault
      else
        if len < buf.length then
          parse_buf_loop junk fuel (buf.drop (len + 1)) line (nl + 1) ctx list
        else .fault := by
  rw [parse_buf_loop]
  simp only [hb, if_false, hlen]

/-- A call of `fgets` on a line shorter than the buffer reads the line with its line
feed. -/
theorem fgets_line (l rest : List Char) (hl : LF ∉ l) :
    ∀ n, l.length < n → fgets n (l ++ LF :: rest) = (l ++ [LF], rest) := by
  induction l with
  | nil =>
    intro n hn
    cases n with
    | zero => simp at hn
    | succ n => simp [fgets]
  | cons c l ih =>
    intro n hn
    cases n with
    | zero => simp at hn
    | succ n =>
      have hc : c ≠ LF := fun h => hl (by rw [h]; exact List.mem_cons_self _ _)
      have hl2 : LF ∉ l := fun h => hl (List.mem_cons_of_mem _ h)
      have hn2 : l.length < n := by simp only [List.length_cons] at hn; omega
      simp only [List.cons_append, fgets, hc, if_false, List.append_eq, ih hl2 n hn2]

/-- A call of `fgets` on a last line without line feed that fits the buffer reads it
whole. -/
theorem fgets_last (l : List Char) (hl : LF ∉ l) :
    ∀ n, l.length ≤ n → fgets n l = (l, []) := by
  induction l with
  | nil => intro n _; cases n <;> rfl
  | cons c l ih =>
    intro n hn
    cases n with
    | zero => simp at hn
    | succ n =>
      have hc : c ≠ LF := fun h => hl (by rw [h]; exact List.mem_cons_self _ _)
      have hl2 : LF ∉ l := fun h => hl (List.mem_cons_of_mem _ h)
      have hn2 : l.length ≤ n := by simp only [List.length_cons] at hn; omega
      simp only [fgets, hc, if_false, ih hl2 n hn2]

/-- The strings `fgets` delivers for a text of lines shorter than 511 characters, each ended
by a line feed, followed by a last line without line feed (or nothing). -/
theorem fgets_all_unlines (last : List Char) (hlast : LF ∉ last ∧ last.length ≤ LINE_MAX)
    (ls : List (List Char)) (h : ∀ l ∈ ls, LF ∉ l ∧ l.length < LINE_MAX) :
    ∀ fuel, (unlines ls ++ last).length ≤ fuel →
      fgets_all fuel (unlines ls ++ last) =
        ls.map (fun l => l ++ [LF]) ++ (if last = [] then [] else [last]) := by
  induction ls with
  | nil =>
    intro fuel hf
    have hu : unlines [] ++ last = last := rfl
    rw [hu] at hf ⊢
    cases last with
    | nil => cases fuel <;> rfl
    | cons c s =>
      cases fuel with
      | zero => simp at hf
      | succ f =>
        simp only [fgets_all, fgets_last (c :: s) hlast.1 LINE_MAX hlast.2, List.map_nil,
          List.nil_append]
        cases f <;> simp [fgets_all]
  | cons l ls ih =>
    intro fuel hf
    have hl := h l (List.mem_cons_self _ _)
    have hls : ∀ x ∈ ls, LF ∉ x ∧ x.length < LINE_MAX :=
      fun x hx => h x (List.mem_cons_of_mem _ hx)
    rw [unlines_cons, List.append_assoc, List.cons_append] at hf ⊢
    cases fuel with
    | zero => simp at hf
    | succ f =>
      have hf2 : (unlines ls ++ last).length ≤ f := by
        simp only [List.length_append, List.length_cons] at hf ⊢; omega
      cases hb : l ++ LF :: (unlines ls ++ last) with
      | nil => simp at hb
      | cons c s =>
        simp only [fgets_all]
        rw [← hb, fgets_line l _ hl.1 LINE_MAX hl.2]
        simp only [List.map_cons, List.cons_append]
        rw [ih hls f hf2]

theorem is_cmt_str_LF (s : List Char) : is_cmt_str (s ++ [LF]) = is_cmt_str s := by
  cases s with
  | nil => rfl
  | cons c s =>
    cases s with
    | nil =>
      have : (LF == SLASH) = false := by decide
      simp [is_cmt_str, this]
    | cons d r => rfl

theorem term_str_LF (l : List Char) :
    term_str (l ++ [LF]) is_cmt_str = term_str l is_cmt_str ∨
    term_str (l ++ [LF]) is_cmt_str = term_str l is_cmt_str ++ [LF] := by
  induction l with
  | nil => right; rfl
  | cons c s ih =>
    have hc := is_cmt_str_LF (c :: s)
    rw [List.cons_append] at hc ⊢
    rw [term_str, term_str, hc]
    cases is_cmt_str (c :: s) with
    | true => left; rfl
    | false =>
      rcases ih with h | h
      · left; simp [h]
      · right; simp [h]

theorem dropWhile_snoc {α : Type} (p : α → Bool) (w : α) (hw : p w = true) (t : List α) :
    (t ++ [w]).dropWhile p =
      if (t.dropWhile p).isEmpty then [] else t.dropWhile p ++ [w] := by
  induction t with
  | nil => simp [List.dropWhile, hw]
  | cons c t ih =>
    cases hc : p c with
    | true =>
      rw [List.cons_append, List.dropWhile_cons_of_pos hc, List.dropWhile_cons_of_pos hc]
      exact ih
    | false =>
      rw [List.cons_append, List.dropWhile_cons_of_neg (by simp [hc]),
        List.dropWhile_cons_of_neg (by simp [hc])]
      simp

theorem trim_str_snoc (t : List Char) (w : Char) (hw : isspace w = true) :
    trim_str (t ++ [w]) = trim_str t := by
  rw [trim_str_eq, trim_str_eq, dropWhile_snoc isspace w hw]
  cases h : t.dropWhile isspace with
  | nil => rfl
  | cons x u =>
    simp only [List.isEmpty_cons, Bool.false_eq_true, if_false]
    exact List.rdropWhile_concat_pos _ _ _ hw

/-- The screener gives the same line with and without the line feed `fgets` keeps. -/
theorem screen_LF (l : List Char) : screen (l ++ [LF]) = screen l := by
  unfold screen
  rcases term_str_LF l with h | h
  · rw [h]
  · rw [h, trim_str_snoc _ _ (by decide)]

theorem is_empty_str_LF (l : List Char) : is_empty_str (l ++ [LF]) = is_empty_str l := by
  have : isspace LF = true := by decide
  simp [is_empty_str, List.all_append, this]

/-- The loop of `parse_stream` gives the same outcome on lines with and without their line
feed. -/
theorem parse_stream_loop_LF (junk : Nat → List Char × List Char) (tail : List (List Char))
    (ls : List (List Char)) :
    ∀ (nl : Nat) (ctx : parser_ctx_t) (list : gamelist_t),
      parse_stream_loop junk (ls.map (fun l => l ++ [LF]) ++ tail) nl ctx list =
        parse_stream_loop junk (ls ++ tail) nl ctx list := by
  induction ls with
  | nil => intro nl ctx list; rfl
  | cons l ls ih =>
    intro nl ctx list
    simp only [List.map_cons, List.cons_append]
    rw [parse_stream_loop, parse_stream_loop]
    simp only [is_empty_str_LF, screen_LF, ih]

/-- Claim C22, the code as it is: on a text of lines shorter than 511 characters, each ended
by a line feed, `parse_buf` gives the outcome of `parse_stream` on the stream that holds
the text, and `parse_stream` parses a last line without line feed in full; `parse_buf` cuts
such a last line at the length of the line it screened before: after a title line of three
characters the last line Desc gives the cheat Des, where `parse_stream` gives Desc. -/
theorem parse_buf_unterminated_line (junk : Nat → List Char × List Char) (line0 : List Char) :
    (∀ (list : gamelist_t) (ls : List (List Char)),
      (∀ l ∈ ls, LF ∉ l ∧ l.length < LINE_MAX) →
      parse_buf junk line0 list (unlines ls) =
        parse_stream junk list (stream_of (unlines ls))) ∧
    (∀ (list : gamelist_t) (ls : List (List Char)) (last : List Char),
      (∀ l ∈ ls, LF ∉ l ∧ l.length < LINE_MAX) → LF ∉ last → last.length ≤ LINE_MAX →
      last ≠ [] →
      parse_stream junk list (stream_of (unlines ls ++ last)) =
        parse_stream junk list (ls ++ [last])) ∧
    stream_of open_text = [[DQUOTE, 'G', DQUOTE, LF], "Desc".toList] ∧
    parse_stream junk [] (stream_of open_text) =
      .done 0 { top := 0, next := 7, game := some 0, cheat := some (0, 0), code := none }
        [{ title := ['G'], cheats := [{ desc := "Desc".toList, codes := [], tag := 0 }],
           tag := 0 }] none ∧
    parse_buf junk line0 [] open_text =
      .done 0 { top := 0, next := 7, game := some 0, cheat := some (0, 0), code := none }
        [{ title := ['G'], cheats := [{ desc := "Des".toList, codes := [], tag := 0 }],
           tag := 0 }] none := by
  refine ⟨?_, ?_, by decide, rfl, ?_⟩
  · intro list ls h
    have hr : raw_lines ls := fun l hl => ⟨(h l hl).1, Nat.le_of_lt (h l hl).2⟩
    have hs : stream_of (unlines ls) = ls.map (fun l => l ++ [LF]) := by
      have := fgets_all_unlines [] ⟨List.not_mem_nil _, Nat.zero_le _⟩ ls h
        (unlines ls).length (by rw [List.append_nil])
      rw [List.append_nil] at this
      unfold stream_of
      rw [this]
      simp
    rw [parse_buf_unlines junk line0 list ls hr, hs]
    unfold parse_stream
    have := parse_stream_loop_LF junk [] ls 1 (init_parser_ctx uninit_ctx) list
    rw [List.append_nil, List.append_nil] at this
    exact this.symm
  · intro list ls last h hl hlen hne
    have hs : stream_of (unlines ls ++ last) = ls.map (fun l => l ++ [LF]) ++ [last] := by
      unfold stream_of
      rw [fgets_all_unlines last ⟨hl, hlen⟩ ls h _ (Nat.le_refl _), if_neg hne]
    rw [hs]
    unfold parse_stream
    exact parse_stream_loop_LF junk [last] ls 1 (init_parser_ctx uninit_ctx) list
  · have hl : open_text.length + 1 = 7 + 1 + 1 := by decide
    unfold parse_buf
    rw [hl, parse_buf_loop_step junk _ open_text line0 1 _ _ 3 (by decide)
      (by rw [if_neg (by decide)]; decide)]
    rw [if_pos (by decide), if_pos (by decide)]
    have hp : parse_line (junk 1).1 (junk 1).2 (screen (open_text.take 3)) 1
        (init_parser_ctx uninit_ctx) [] =
        .ok { top := 0, next := 3, game := some 0, cheat := none, code := none }
          [{ title := ['G'], cheats := [], tag := 0 }] := rfl
    rw [hp]
    simp only
    rw [if_pos (by decide)]
    rw [parse_buf_loop_step junk _ _ _ 2 _ _ 3 (by decide) (by decide)]
    rw [if_pos (by decide), if_pos (by decide)]
    have hp2 : parse_line (junk 2).1 (junk 2).2 (screen ((open_text.drop (3 + 1)).take 3)) 2
        { top := 0, next := 3, game := some 0, cheat := none, code := none }
          [{ title := ['G'], cheats := [], tag := 0 }] =
        .ok { top := 0, next := 7, game := some 0, cheat := some (0, 0), code := none }
          [{ title := ['G'], cheats := [{ desc := "Des".toList, codes := [], tag := 0 }],
             tag := 0 }] := rfl
    rw [hp2]
    simp only
    rw [if_pos (by decide)]
    rfl

theorem parse_buf_unterminated_line_witness :
    parse_buf (fun _ => ([], [])) [] [] (unlines [[DQUOTE, 'G', DQUOTE], "Desc".toList]) =
      parse_stream (fun _ => ([], [])) []
        (stream_of (unlines [[DQUOTE, 'G', DQUOTE], "Desc".toList])) :=
  (parse_buf_unterminated_line (fun _ => ([], [])) []).1 []
    [[DQUOTE, 'G', DQUOTE], "Desc".toList] (by decide)

/-- The string `fgets` reads and the text it leaves make up the text it was given. -/
theorem fgets_split : ∀ (n : Nat) (s : List Char), (fgets n s).1 ++ (fgets n s).2 = s := by
  intro n
  induction n with
  | zero => intro s; rfl
  | succ n ih =>
    intro s
    cases s with
    | nil => rfl
    | cons c s =>
      by_cases hc : c = LF
      · simp [fgets, hc]
      · simp only [fgets, hc, if_false, List.cons_append, ih s]

/-- A call of `fgets` on text that is left reads a character at least. -/
theorem fgets_rest_length (n : Nat) (c : Char) (s : List Char) :
    (fgets (n + 1) (c :: s)).2.length ≤ s.length := by
  have h := congrArg List.length (fgets_split (n + 1) (c :: s))
  have h1 : 1 ≤ (fgets (n + 1) (c :: s)).1.length := by
    by_cases hc : c = LF
    · simp [fgets, hc]
    · simp [fgets, hc]
  rw [List.length_append, List.length_cons] at h
  omega

/-- The strings `fgets` delivers do not depend on the fuel, once it covers the text. -/
theorem fgets_all_fuel : ∀ (f1 f2 : Nat) (text : List Char), text.length ≤ f1 →
    text.length ≤ f2 → fgets_all f1 text = fgets_all f2 text := by
  intro f1
  induction f1 with
  | zero =>
    intro f2 text h1 _
    have : text = [] := List.length_eq_zero.1 (Nat.le_zero.1 h1)
    subst this
    cases f2 <;> rfl
  | succ f1 ih =>
    intro f2 text h1 h2
    cases text with
    | nil => cases f2 <;> rfl
    | cons c s =>
      cases f2 with
      | zero => simp at h2
      | succ f2 =>
        simp only [fgets_all]
        have hr := fgets_rest_length 510 c s
        have e : LINE_MAX = 510 + 1 := rfl
        rw [e]
        simp only [List.length_cons] at h1 h2
        rw [ih f2 _ (by omega) (by omega)]

/-- The stream of a text that is not empty: the string of one call of `fgets`, then the
stream of the text left. -/
theorem stream_of_step (text : List Char) (h : text ≠ []) :
    stream_of text = (fgets LINE_MAX text).1 :: stream_of (fgets LINE_MAX text).2 := by
  cases text with
  | nil => exact absurd rfl h
  | cons c s =>
    unfold stream_of
    have hr : (fgets LINE_MAX (c :: s)).2.length ≤ s.length := fgets_rest_length 510 c s
    simp only [List.length_cons, fgets_all]
    rw [fgets_all_fuel s.length _ _ hr (Nat.le_refl _)]

theorem stream_of_nil : stream_of [] = [] := rfl

/-- The stream of a text that starts with a line shorter than 511 characters: the line with
its line feed, then the stream of the rest. -/
theorem stream_of_line (l rest : List Char) (hl : LF ∉ l) (hlen : l.length < LINE_MAX) :
    stream_of (l ++ LF :: rest) = (l ++ [LF]) :: stream_of rest := by
  rw [stream_of_step _ (by simp), fgets_line l rest hl LINE_MAX hlen]

/-- A call of `fgets` on a line of 511 characters or more reads its first 511 characters and
leaves the rest of the line. -/
theorem fgets_long (rest : List Char) :
    ∀ (n : Nat) (l : List Char), LF ∉ l → n ≤ l.length →
      fgets n (l ++ rest) = (l.take n, l.drop n ++ rest) := by
  intro n
  induction n with
  | zero => intro l _ _; rfl
  | succ n ih =>
    intro l hl hn
    cases l with
    | nil => simp at hn
    | cons c l =>
      have hc : c ≠ LF := fun h => hl (by rw [h]; exact List.mem_cons_self _ _)
      have hl2 : LF ∉ l := fun h => hl (List.mem_cons_of_mem _ h)
      have hn2 : n ≤ l.length := by simp only [List.length_cons] at hn; omega
      simp only [List.cons_append, fgets, hc, if_false, List.append_eq, ih l hl2 hn2,
        List.take_succ_cons, List.drop_succ_cons]

/-- The stream of a text that starts with a line of 511 characters or more: the first 511
characters of the line, then the stream of the rest of the line and of the text. -/
theorem stream_of_long (l rest : List Char) (hl : LF ∉ l) (hlen : LINE_MAX ≤ l.length) :
    stream_of (l ++ rest) = l.take LINE_MAX :: stream_of (l.drop LINE_MAX ++ rest) := by
  have hne : l ++ rest ≠ [] := by
    intro h
    have := congrArg List.length h
    simp only [List.length_append, List.length_nil] at this
    unfold LINE_MAX at hlen
    omega
  rw [stream_of_step _ hne, fgets_long rest LINE_MAX l hl hlen]

/-- The stream of the text of lines shorter than 511 characters, followed by any text: the
lines with their line feeds, then the stream of that text. -/
theorem stream_of_unlines (rest : List Char) (ls : List (List Char)) (h : short_lines ls) :
    stream_of (unlines ls ++ rest) = ls.map (fun l => l ++ [LF]) ++ stream_of rest := by
  induction ls with
  | nil => rfl
  | cons l ls ih =>
    have hl := h l (List.mem_cons_self _ _)
    rw [unlines_cons, List.append_assoc, List.cons_append, stream_of_line l _ hl.1 hl.2,
      ih (fun x hx => h x (List.mem_cons_of_mem _ hx))]
    rfl

theorem short_lines_raw {ls : List (List Char)} (h : short_lines ls) : raw_lines ls :=
  fun l hl => ⟨(h l hl).1, Nat.le_of_lt (h l hl).2⟩

/-- On the text of lines shorter than 511 characters, each ended by a line feed, both
drivers run the loop of `parse_stream` on the lines. -/
theorem drivers_short (junk : Nat → List Char × List Char) (line0 : List Char)
    (list : gamelist_t) (ls : List (List Char)) (h : short_lines ls) :
    parse_stream junk list (stream_of (unlines ls)) = parse_stream junk list ls ∧
    parse_buf junk line0 list (unlines ls) = parse_stream junk list ls := by
  refine ⟨?_, parse_buf_unlines junk line0 list ls (short_lines_raw h)⟩
  have hs := stream_of_unlines [] ls h
  rw [List.append_nil, stream_of_nil, List.append_nil] at hs
  rw [hs]
  unfold parse_stream
  have := parse_stream_loop_LF junk [] ls 1 (init_parser_ctx uninit_ctx) list
  rw [List.append_nil, List.append_nil] at this
  exact this

theorem screen_cons_space (w : Char) (l : List Char) (hw : isspace w = true) :
    screen (w :: l) = screen l := by
  have hns : is_cmt_str (w :: l) = false := by
    cases l with
    | nil => rfl
    | cons d r =>
      have : (w == SLASH) = false := by
        cases hws : w == SLASH with
        | false => rfl
        | true =>
          rw [beq_iff_eq] at hws
          rw [hws] at hw
          exact absurd hw (by decide)
      simp [is_cmt_str, this]
  unfold screen
  rw [term_str, hns]
  simp only [Bool.false_eq_true, if_false]
  rw [trim_str_eq, trim_str_eq, List.dropWhile_cons_of_pos hw]

/-- A white-space character before a line changes nothing for the loop of `parse_stream`. -/
theorem parse_stream_loop_cons_space (junk : Nat → List Char × List Char) (w : Char)
    (l : List Char) (s : List (List Char)) (nl : Nat) (ctx : parser_ctx_t) (list : gamelist_t)
    (hw : isspace w = true) :
    parse_stream_loop junk ((w :: l) :: s) nl ctx list =
      parse_stream_loop junk (l :: s) nl ctx list := by
  have he : is_empty_str (w :: l) = is_empty_str l := by
    simp [is_empty_str, hw]
  rw [parse_stream_loop, parse_stream_loop]
  simp only [he, screen_cons_space w l hw]

theorem long_line_rest : long_line.drop LINE_MAX = [' ', DQUOTE, 'H', DQUOTE] :=
  List.drop_left' long_head_length

theorem long_line_skippable : significant long_line = false :=
  skippable_not_significant long_line (by decide)

theorem long_head_skippable : significant long_head = false :=
  skippable_not_significant long_head (by decide)

/-- The strings `fgets` delivers for the long comment line followed by a short line: the
first 511 characters of the comment, the rest of the comment line, and the short line. -/
theorem stream_of_long_text (x : List Char) (hx : LF ∉ x) (hlen : x.length < LINE_MAX) :
    stream_of (unlines [long_line, x]) =
      [long_head, [' ', DQUOTE, 'H', DQUOTE] ++ [LF], x ++ [LF]] := by
  have hu : unlines [long_line, x] = long_line ++ (LF :: (x ++ LF :: [])) := by
    simp only [unlines_cons]; rfl
  rw [hu, stream_of_long long_line _ long_line_raw (Nat.le_of_lt long_line_length),
    long_line_take, long_line_rest,
    stream_of_line [' ', DQUOTE, 'H', DQUOTE] _ (by decide) (by decide),
    stream_of_line x [] hx hlen, stream_of_nil]

/-- The function `parse_stream` on the long comment line followed by a short line: the end
of the comment line is parsed as line 2, the short line as line 3. -/
theorem parse_stream_long_text (junk : Nat → List Char × List Char) (list : gamelist_t)
    (x : List Char) (hx : LF ∉ x) (hlen : x.length < LINE_MAX) :
    parse_stream junk list (stream_of (unlines [long_line, x])) =
      parse_stream_loop junk [[DQUOTE, 'H', DQUOTE], x] 2 (init_parser_ctx uninit_ctx) list := by
  rw [stream_of_long_text x hx hlen]
  unfold parse_stream
  rw [parse_stream_loop_skip junk _ 1 _ list long_head_skippable]
  have h := parse_stream_loop_LF junk [] [[' ', DQUOTE, 'H', DQUOTE], x] 2
    (init_parser_ctx uninit_ctx) list
  simp only [List.map_cons, List.map_nil, List.append_nil] at h
  rw [h]
  exact parse_stream_loop_cons_space junk ' ' _ _ _ _ _ (by decide)

/-- The function `parse_buf` on the long comment line followed by a line: the end of the
comment line is parsed as line 2, the line that follows as line 3. -/
theorem parse_buf_long_text (junk : Nat → List Char × List Char) (line0 : List Char)
    (list : gamelist_t) (x : List Char) (hx : LF ∉ x) (hlen : x.length ≤ LINE_MAX) :
    parse_buf junk line0 list (unlines [long_line, x]) =
      parse_stream_loop junk [[DQUOTE, 'H', DQUOTE], x] 2 (init_parser_ctx uninit_ctx) list := by
  have hu : unlines [long_line, x] = unlines [] ++ (long_line ++ LF :: (x ++ [LF])) := by
    simp only [unlines_cons]; rfl
  have h := parse_buf_long junk line0 list [] long_line (x ++ [LF])
    (fun _ hm => absurd hm (List.not_mem_nil _)) long_line_raw long_line_length
  rw [long_line_take, long_line_drop] at h
  have hu2 : unlines [long_head, [DQUOTE, 'H', DQUOTE], x] =
      unlines [] ++ (long_head ++ LF :: ([DQUOTE, 'H', DQUOTE] ++ LF :: (x ++ [LF]))) := by
    simp only [unlines_cons]; rfl
  have hr : raw_lines [long_head, [DQUOTE, 'H', DQUOTE], x] := by
    intro y hy
    simp only [List.mem_cons, List.mem_singleton, List.not_mem_nil, or_false] at hy
    rcases hy with hy | hy | hy
    · subst hy; exact ⟨long_head_raw, Nat.le_of_eq long_head_length⟩
    · subst hy; decide
    · subst hy; exact ⟨hx, hlen⟩
  rw [hu, h, ← hu2, parse_buf_unlines junk line0 list _ hr]
  unfold parse_stream
  rw [parse_stream_loop_skip junk _ 1 _ list long_head_skippable]

/-- Both drivers on the long comment line followed by a description: return 0 with the game
H, read from the end of the comment line, and its cheat. -/
theorem long_input_desc_parse :
    parse_stream (fun _ => ([], [])) [] (stream_of (unlines long_input_desc)) =
      .done 0 { top := 0, next := 7, game := some 0, cheat := some (0, 0), code := none }
        [{ title := ['H'], cheats := [{ desc := "Desc".toList, codes := [], tag := 0 }],
           tag := 0 }] none ∧
    parse_buf (fun _ => ([], [])) [] [] (unlines long_input_desc) =
      .done 0 { top := 0, next := 7, game := some 0, cheat := some (0, 0), code := none }
        [{ title := ['H'], cheats := [{ desc := "Desc".toList, codes := [], tag := 0 }],
           tag := 0 }] none := by
  unfold long_input_desc
  rw [parse_stream_long_text _ _ _ (by decide) (by decide),
    parse_buf_long_text _ _ _ _ (by decide) (by decide)]
  exact ⟨by decide, by decide⟩

/-- Both drivers on the long comment line followed by a code: return -1 at line 3, the
game H, read from the end of the comment line, in the list. -/
theorem long_input_code_parse :
    parse_stream (fun _ => ([], [])) [] (stream_of (unlines long_input_code)) =
      .done (-1) { top := 0, next := 3, game := some 0, cheat := none, code := none }
        [{ title := ['H'], cheats := [], tag := 0 }]
        (some { line := 3, text := "parse error: cheat code invalid here" }) ∧
    parse_buf (fun _ => ([], [])) [] [] (unlines long_input_code) =
      .done (-1) { top := 0, next := 3, game := some 0, cheat := none, code := none }
        [{ title := ['H'], cheats := [], tag := 0 }]
        (some { line := 3, text := "parse error: cheat code invalid here" }) := by
  unfold long_input_code
  rw [parse_stream_long_text _ _ _ (by decide) (by decide),
    parse_buf_long_text _ _ _ _ (by decide) (by decide)]
  exact ⟨by decide, by decide⟩

theorem long_input_desc_tokens : tokens long_input_desc = [TOK_CHEAT_DESC] := by
  unfold long_input_desc
  rw [tokens_cons_skip _ long_line_skippable]
  decide

theorem long_input_code_tokens : tokens long_input_code = [TOK_CHEAT_CODE] := by
  unfold long_input_code
  rw [tokens_cons_skip _ long_line_skippable]
  decide

theorem long_input_raw : (∀ l ∈ long_input_desc, LF ∉ l) ∧ (∀ l ∈ long_input_code, LF ∉ l) := by
  constructor
  · intro l hl
    simp only [long_input_desc, List.mem_cons, List.mem_singleton, List.not_mem_nil,
      or_false] at hl
    rcases hl with hl | hl
    · rw [hl]; exact long_line_raw
    · rw [hl]; decide
  · intro l hl
    simp only [long_input_code, List.mem_cons, List.mem_singleton, List.not_mem_nil,
      or_false] at hl
    rcases hl with hl | hl
    · rw [hl]; exact long_line_raw
    · rw [hl]; decide

/-- An empty line at the end of the stream leaves the outcome of the loop of `parse_stream`
as it is. -/
theorem parse_stream_loop_end (junk : Nat → List Char × List Char) (pre : List (List Char)) :
    ∀ (nl : Nat) (ctx : parser_ctx_t) (list : gamelist_t),
      parse_stream_loop junk (pre ++ [[]]) nl ctx list =
        parse_stream_loop junk pre nl ctx list := by
  induction pre with
  | nil =>
    intro nl ctx list
    rw [List.nil_append, parse_stream_loop_skip junk [] nl ctx list (by decide)]
    rfl
  | cons x pre ih =>
    intro nl ctx list
    rw [List.cons_append]
    cases hs : significant x with
    | false =>
      rw [parse_stream_loop_skip junk _ nl ctx list hs,
        parse_stream_loop_skip junk _ nl ctx list hs]
      exact ih (nl + 1) ctx list
    | true =>
      rw [parse_stream_loop_sig junk _ nl ctx list hs,
        parse_stream_loop_sig junk _ nl ctx list hs]
      cases parse_line (junk nl).1 (junk nl).2 (screen x) nl ctx list with
      | ok c g => exact ih (nl + 1) c g
      | fail e => rfl
      | fault => rfl
      | overrun => rfl

/-- On a text of raw lines shorter than 511 characters, the last of which may lack its line
feed, `parse_stream` runs its loop on the lines. -/
theorem parse_stream_text (junk : Nat → List Char × List Char) (list : gamelist_t)
    (ls : List (List Char)) (text : List Char) (h : short_lines ls)
    (ht : is_text_of text ls) :
    parse_stream junk list (stream_of text) = parse_stream junk list ls := by
  rcases ht with ht | ht
  · rw [ht]
    exact (drivers_short junk [] list ls h).1
  · rcases List.eq_nil_or_concat ls with hn | ⟨pre, last, hc⟩
    · rw [hn] at ht
      have := congrArg List.length ht
      simp [unlines] at this
    · rw [List.concat_eq_append] at hc
      subst hc
      have hpre : ∀ l ∈ pre, LF ∉ l ∧ l.length < LINE_MAX :=
        fun l hl => h l (List.mem_append_left _ hl)
      have hlast := h last (List.mem_append_right _ (List.mem_singleton_self _))
      have hu : unlines (pre ++ [last]) = (unlines pre ++ last) ++ [LF] := by
        simp [unlines]
      rw [hu] at ht
      have htext : text = unlines pre ++ last := List.append_cancel_right ht
      have hs : stream_of text =
          pre.map (fun l => l ++ [LF]) ++ (if last = [] then [] else [last]) := by
        rw [htext]
        unfold stream_of
        exact fgets_all_unlines last ⟨hlast.1, Nat.le_of_lt hlast.2⟩ pre hpre _ (Nat.le_refl _)
      rw [hs]
      unfold parse_stream
      by_cases hl : last = []
      · rw [if_pos hl, hl, parse_stream_loop_end,
          parse_stream_loop_LF junk [] pre, List.append_nil]
      · rw [if_neg hl]
        exact parse_stream_loop_LF junk [last] pre 1 (init_parser_ctx uninit_ctx) list

/-- Once the loop of `parse_stream` has stored an error on the lines `ls`, it gives the same
outcome whatever lines follow them. -/
theorem parse_stream_loop_stop (junk : Nat → List Char × List Char) (tail : List (List Char))
    (ls : List (List Char)) :
    ∀ (nl : Nat) (ctx : parser_ctx_t) (list : gamelist_t) (ret : Int) (c : parser_ctx_t)
      (l : gamelist_t) (e : parse_error),
      parse_stream_loop junk ls nl ctx list = .done ret c l (some e) →
      parse_stream_loop junk (ls ++ tail) nl ctx list = .done ret c l (some e) := by
  induction ls with
  | nil =>
    intro nl ctx list ret c l e h
    rw [parse_stream_loop] at h
    cases h
  | cons x ls ih =>
    intro nl ctx list ret c l e h
    rw [List.cons_append]
    cases hs : significant x with
    | false =>
      rw [parse_stream_loop_skip junk _ nl ctx list hs] at h ⊢
      exact ih _ _ _ _ _ _ _ h
    | true =>
      rw [parse_stream_loop_sig junk _ nl ctx list hs] at h ⊢
      cases hp : parse_line (junk nl).1 (junk nl).2 (screen x) nl ctx list with
      | ok c1 g =>
        rw [hp] at h
        exact ih _ _ _ _ _ _ _ h
      | fail e1 => rw [hp] at h; exact h
      | fault => rw [hp] at h; cases h
      | overrun => rw [hp] at h; cases h

/-- Once the loop of `parse_stream` has stored an error on the raw lines `ls`, the loop of
`parse_buf` gives the same outcome on their text, whatever text follows it. -/
theorem parse_buf_loop_stop (junk : Nat → List Char × List Char) (rest : List Char)
    (ls : List (List Char)) (h : raw_lines ls) :
    ∀ (fuel : Nat) (line : List Char) (nl : Nat) (ctx : parser_ctx_t) (list : gamelist_t)
      (ret : Int) (c : parser_ctx_t) (l : gamelist_t) (e : parse_error),
      (unlines ls ++ rest).length < fuel →
      parse_stream_loop junk ls nl ctx list = .done ret c l (some e) →
      parse_buf_loop junk fuel (unlines ls ++ rest) line nl ctx list =
        .done ret c l (some e) := by
  induction ls with
  | nil =>
    intro fuel line nl ctx list ret c l e _ hp
    rw [parse_stream_loop] at hp
    cases hp
  | cons x ls ih =>
    intro fuel line nl ctx list ret c l e hf hp
    have hl := h x (List.mem_cons_self _ _)
    have hls : raw_lines ls := fun y hy => h y (List.mem_cons_of_mem _ hy)
    cases fuel with
    | zero => simp at hf
    | succ f =>
      rw [unlines_cons, List.append_assoc, List.cons_append] at hf ⊢
      have hf2 : (unlines ls ++ rest).length < f := by
        simp at hf ⊢; omega
      have hne : x ++ LF :: (unlines ls ++ rest) ≠ [] := by simp
      have hlen : (if chr_idx (x ++ LF :: (unlines ls ++ rest)) LF < 0 then line.length
          else if chr_idx (x ++ LF :: (unlines ls ++ rest)) LF > (LINE_MAX : Int) then LINE_MAX
          else (chr_idx (x ++ LF :: (unlines ls ++ rest)) LF).toNat) = x.length := by
        rw [chr_idx_line x _ hl.1]
        have := hl.2
        rw [if_neg (by omega), if_neg (by omega)]
        simp
      have htake : (x ++ LF :: (unlines ls ++ rest)).take x.length = x := by simp
      have hdrop : (x ++ LF :: (unlines ls ++ rest)).drop (x.length + 1) =
          unlines ls ++ rest := by
        rw [← List.drop_drop]; simp
      have hlt : x.length < (x ++ LF :: (unlines ls ++ rest)).length := by simp
      rw [parse_stream_loop] at hp
      rw [parse_buf_loop]
      simp only [hne, if_false, hlen, is_empty_substr, htake, hdrop, hlt, if_true,
        is_empty_str] at hp ⊢
      split
      · rename_i h1
        simp only [h1, if_true] at hp
        split
        · rename_i h2
          simp only [h2, if_true] at hp
          cases hq : parse_line (junk nl).1 (junk nl).2 (screen x) nl ctx list with
          | ok ctx1 list1 =>
            rw [hq] at hp
            exact ih hls f _ _ _ _ _ _ _ _ hf2 hp
          | fail e1 => rw [hq] at hp; exact hp
          | fault => rw [hq] at hp; cases hp
          | overrun => rw [hq] at hp; cases hp
        · rename_i h2
          simp only [h2, if_false] at hp
          exact ih hls f _ _ _ _ _ _ _ _ hf2 hp
      · rename_i h1
        simp only [h1, if_false] at hp
        exact ih hls f _ _ _ _ _ _ _ _ hf2 hp

/-- Once a parse of raw lines shorter than 511 characters has stored an error, both drivers
give the same outcome on the text of the lines followed by any text, and `parse_stream` on
the text whose last line lacks its line feed. -/
theorem drivers_stop (junk : Nat → List Char × List Char) (line0 : List Char)
    (list : gamelist_t) (ls : List (List Char)) (hs : short_lines ls) (ret : Int)
    (c : parser_ctx_t) (l : gamelist_t) (e : parse_error)
    (hp : parse_stream junk list ls = .done ret c l (some e)) :
    (∀ rest : List Char,
      parse_stream junk list (stream_of (unlines ls ++ rest)) = .done ret c l (some e) ∧
      parse_buf junk line0 list (unlines ls ++ rest) = .done ret c l (some e)) ∧
    (∀ text, is_text_of text ls →
      parse_stream junk list (stream_of text) = .done ret c l (some e)) := by
  refine ⟨?_, ?_⟩
  · intro rest
    refine ⟨?_, ?_⟩
    · rw [stream_of_unlines rest ls hs]
      unfold parse_stream
      rw [parse_stream_loop_LF junk (stream_of rest) ls]
      exact parse_stream_loop_stop junk _ ls _ _ _ _ _ _ _ hp
    · exact parse_buf_loop_stop junk rest ls (short_lines_raw hs) _ _ _ _ _ _ _ _ _
        (Nat.lt_succ_self _) hp
  · intro text ht
    rw [parse_stream_text junk list ls text hs ht]
    exact hp

theorem short_lines_append {a b : List (List Char)} (ha : short_lines a) (hb : short_lines b) :
    short_lines (a ++ b) := by
  intro l hl
  rcases List.mem_append.1 hl with h | h
  · exact ha l h
  · exact hb l h

theorem short_lines_left {a b : List (List Char)} (h : short_lines (a ++ b)) :
    short_lines a := fun l hl => h l (List.mem_append_left _ hl)

theorem short_lines_right {a b : List (List Char)} (h : short_lines (a ++ b)) :
    short_lines b := fun l hl => h l (List.mem_append_right _ hl)

/-- Claim C1, amended: for an input of raw lines shorter than 511 characters whose title
lines have at most 80 characters between the quotes, given to `parse_stream` as a text
whose last line may lack its line feed, or to `parse_buf` as a text with every line ended
by a line feed, parsing succeeds exactly when the token sequence of the significant lines
is empty, or starts with a GameTitle and has no CheatCode right after a GameTitle;
otherwise it fails at the first line whose token is not in the current expected set,
whatever text follows that line. -/
theorem parse_succeeds_iff_grammar (junk : Nat → List Char × List Char) (line0 : List Char)
    (list : gamelist_t) (ls : List (List Char)) (text : List Char)
    (hs : short_lines ls) (hf : titles_fit ls) (ht : is_text_of text ls) :
    parse_stream junk list (stream_of text) = parse_buf junk line0 list (unlines ls) ∧
    ((∃ ctx1 list1, parse_stream junk list (stream_of text) = .done 0 ctx1 list1 none) ↔
      grammar_ok (tokens ls)) ∧
    ((∃ ctx1 list1, parse_buf junk line0 list (unlines ls) = .done 0 ctx1 list1 none) ↔
      grammar_ok (tokens ls)) ∧
    (¬ grammar_ok (tokens ls) →
      ∃ pre line post ctx1 list1, ls = pre ++ line :: post ∧ significant line = true ∧
        (∀ text1, is_text_of text1 pre →
          parse_stream junk list (stream_of text1) = .done 0 ctx1 list1 none) ∧
        parse_buf junk line0 list (unlines pre) = .done 0 ctx1 list1 none ∧
        ctx1.next &&& line_token line = 0 ∧
        (∀ rest : List Char,
          parse_stream junk list (stream_of (unlines (pre ++ [line]) ++ rest)) =
            .done (-1) ctx1 list1 (some (parse_err (pre.length + 1) (line_token line))) ∧
          parse_buf junk line0 list (unlines (pre ++ [line]) ++ rest) =
            .done (-1) ctx1 list1 (some (parse_err (pre.length + 1) (line_token line)))) ∧
        (∀ text2, is_text_of text2 (pre ++ [line]) →
          parse_stream junk list (stream_of text2) =
            .done (-1) ctx1 list1 (some (parse_err (pre.length + 1) (line_token line))))) := by
  have hS := parse_stream_text junk list ls text hs ht
  have hB := (drivers_short junk line0 list ls hs).2
  obtain ⟨hiff, hfail⟩ := parse_stream_iff_grammar junk list ls hf
  refine ⟨by rw [hS, hB], by rw [hS]; exact hiff, by rw [hB]; exact hiff, ?_⟩
  intro hng
  obtain ⟨pre, line, post, ctx1, list1, hst, hsig, hrun, hbad, hres⟩ := hfail hng
  have hpre : short_lines pre := by rw [hst] at hs; exact short_lines_left hs
  have hline : short_lines [line] := by
    intro l hl
    rw [List.mem_singleton] at hl
    rw [hl]
    exact hs line (by rw [hst]; exact List.mem_append_right _ (List.mem_cons_self _ _))
  refine ⟨pre, line, post, ctx1, list1, hst, hsig, ?_, ?_, hbad, ?_⟩
  · intro text1 ht1
    rw [parse_stream_text junk list pre text1 hpre ht1]
    exact hrun
  · rw [(drivers_short junk line0 list pre hpre).2]
    exact hrun
  · exact drivers_stop junk line0 list (pre ++ [line]) (short_lines_append hpre hline) _ _ _ _
      (hres [])

theorem parse_succeeds_iff_grammar_witness :
    ¬ grammar_ok (tokens ["AB CD".toList]) ∧
    ∃ pre line post ctx1 list1, ["AB CD".toList] = pre ++ line :: post ∧
      significant line = true ∧
      (∀ text1, is_text_of text1 pre →
        parse_stream (fun _ => ([], [])) [] (stream_of text1) = .done 0 ctx1 list1 none) ∧
      parse_buf (fun _ => ([], [])) [] [] (unlines pre) = .done 0 ctx1 list1 none ∧
      ctx1.next &&& line_token line = 0 ∧
      (∀ rest : List Char,
        parse_stream (fun _ => ([], [])) [] (stream_of (unlines (pre ++ [line]) ++ rest)) =
          .done (-1) ctx1 list1 (some (parse_err (pre.length + 1) (line_token line))) ∧
        parse_buf (fun _ => ([], [])) [] [] (unlines (pre ++ [line]) ++ rest) =
          .done (-1) ctx1 list1 (some (parse_err (pre.length + 1) (line_token line)))) ∧
      (∀ text2, is_text_of text2 (pre ++ [line]) →
        parse_stream (fun _ => ([], [])) [] (stream_of text2) =
          .done (-1) ctx1 list1 (some (parse_err (pre.length + 1) (line_token line)))) :=
  ⟨by decide, (parse_succeeds_iff_grammar (fun _ => ([], [])) [] [] ["AB CD".toList]
    "AB CD".toList (by decide) (by decide) (by decide)).2.2.2 (by decide)⟩

/-- Claim C1 as stated fails: the input of a comment line of 515 characters that ends in a
blank and a quoted H, followed by the line Desc, has the tokens of a description alone,
which break the grammar; both drivers read the comment line in two pieces, take the second
piece as the title H, and return 0.  Two more inputs fail it: on the text of the title G and
the code line AB CDEF without a last line feed, `parse_buf` cuts the last line by the length
of the line before it and returns 0, though a code follows a title; on a title line with 81
characters between the quotes, which the grammar accepts, `__make_game` overruns its
array and neither driver returns. -/
theorem parse_succeeds_iff_grammar_counterexample :
    (¬ ∀ ls : List (List Char), (∀ l ∈ ls, LF ∉ l) →
      ((∃ ctx1 list1, parse_stream (fun _ => ([], [])) [] (stream_of (unlines ls)) =
          .done 0 ctx1 list1 none) ↔ grammar_ok (tokens ls))) ∧
    (¬ ∀ ls : List (List Char), (∀ l ∈ ls, LF ∉ l) →
      ((∃ ctx1 list1, parse_buf (fun _ => ([], [])) [] [] (unlines ls) =
          .done 0 ctx1 list1 none) ↔ grammar_ok (tokens ls))) ∧
    tokens long_input_desc = [TOK_CHEAT_DESC] ∧
    ¬ grammar_ok (tokens long_input_desc) ∧
    titles_fit long_input_desc ∧
    parse_stream (fun _ => ([], [])) [] (stream_of (unlines long_input_desc)) =
      .done 0 { top := 0, next := 7, game := some 0, cheat := some (0, 0), code := none }
        [{ title := ['H'], cheats := [{ desc := "Desc".toList, codes := [], tag := 0 }],
           tag := 0 }] none ∧
    parse_buf (fun _ => ([], [])) [] [] (unlines long_input_desc) =
      .done 0 { top := 0, next := 7, game := some 0, cheat := some (0, 0), code := none }
        [{ title := ['H'], cheats := [{ desc := "Desc".toList, codes := [], tag := 0 }],
           tag := 0 }] none ∧
    tokens open_code_lines = [TOK_GAME_TITLE, TOK_CHEAT_CODE] ∧
    ¬ grammar_ok (tokens open_code_lines) ∧
    open_code_text ++ [LF] = unlines open_code_lines ∧
    parse_buf (fun _ => ([], [])) [] [] open_code_text =
      .done 0 { top := 0, next := 7, game := some 0, cheat := some (0, 1), code := none }
        [{ title := ['G'],
           cheats := [{ desc := "AB".toList, codes := [], tag := 0 },
                      { desc := "DE".toList, codes := [], tag := 0 }],
           tag := 0 }] none ∧
    grammar_ok (tokens [long_title_line]) ∧
    parse_stream (fun _ => ([], [])) [] (stream_of (unlines [long_title_line])) = .overrun ∧
    parse_buf (fun _ => ([], [])) [] [] (unlines [long_title_line]) = .overrun := by
  have hng : ¬ grammar_ok (tokens long_input_desc) := by
    rw [long_input_desc_tokens]; decide
  have hfit : titles_fit long_input_desc := by
    intro l hl hsig
    simp only [long_input_desc, List.mem_cons, List.mem_singleton, List.not_mem_nil,
      or_false] at hl
    rcases hl with hl | hl
    · rw [hl, long_line_skippable] at hsig; cases hsig
    · rw [hl]; decide
  have hng2 : ¬ grammar_ok (tokens open_code_lines) := by
    have ht : tokens open_code_lines = [TOK_GAME_TITLE, TOK_CHEAT_CODE] := by decide
    rw [ht]
    unfold grammar_ok
    simp
  have hg3 : grammar_ok (tokens [long_title_line]) := by
    have ht : tokens [long_title_line] = [TOK_GAME_TITLE] := by decide
    rw [ht]
    exact Or.inr ⟨rfl, List.chain'_singleton _⟩
  refine ⟨?_, ?_, long_input_desc_tokens, hng, hfit, long_input_desc_parse.1,
    long_input_desc_parse.2, by decide, hng2, by decide, by decide, hg3, by decide,
    by decide⟩
  · intro h
    exact hng ((h long_input_desc long_input_raw.1).1 ⟨_, _, long_input_desc_parse.1⟩)
  · intro h
    exact hng ((h long_input_desc long_input_raw.1).1 ⟨_, _, long_input_desc_parse.2⟩)

/-- Claim C2, amended: for an input of raw lines shorter than 511 characters, after a
successful parse into an empty list the collection is the grouping of the nodes of the
significant lines in textual order, for `parse_stream` on a text whose last line may lack
its line feed and for `parse_buf` on the text with every line ended by a line feed; the
five-line input of the spec gives Game A with one cheat and one code, and Game B with one
cheat without codes. -/
theorem parse_result_is_grouping (junk : Nat → List Char × List Char) (line0 : List Char)
    (ls : List (List Char)) (hs : short_lines ls) :
    (∀ text, is_text_of text ls → ∀ ctx1 list1 e,
      parse_stream junk [] (stream_of text) = .done 0 ctx1 list1 e →
      list1 = group (items junk 1 ls)) ∧
    (∀ ctx1 list1 e, parse_buf junk line0 [] (unlines ls) = .done 0 ctx1 list1 e →
      list1 = group (items junk 1 ls)) ∧
    (∀ text, is_text_of text five_lines →
      ∃ ctx1, parse_stream junk [] (stream_of text) = .done 0 ctx1 five_lines_result none) ∧
    (∃ ctx1, parse_buf junk line0 [] (unlines five_lines) =
      .done 0 ctx1 five_lines_result none) := by
  have hB := (drivers_short junk line0 [] ls hs).2
  have hB5 := (drivers_short junk line0 [] five_lines (by decide)).2
  refine ⟨?_, ?_, ?_, ?_⟩
  · intro text ht ctx1 list1 e h
    rw [parse_stream_text junk [] ls text hs ht] at h
    exact parse_stream_group junk ls ctx1 list1 e h
  · intro ctx1 list1 e h
    rw [hB] at h
    exact parse_stream_group junk ls ctx1 list1 e h
  · intro text ht
    rw [parse_stream_text junk [] five_lines text (by decide) ht]
    exact five_lines_parse junk
  · rw [hB5]; exact five_lines_parse junk

theorem parse_result_is_grouping_witness :
    five_lines_result = group (items (fun _ => ([], [])) 1 five_lines) :=
  (parse_result_is_grouping (fun _ => ([], [])) [] five_lines (by decide)).2.1
    { top := 0, next := 7, game := some 1, cheat := some (1, 0), code := some (0, 0, 0) }
    five_lines_result none
    (by rw [(drivers_short (fun _ => ([], [])) [] [] five_lines (by decide)).2]; decide)

/-- Claim C2 as stated fails: the input of the comment line of 515 characters followed by
the line Desc parses successfully into the game H with the cheat Desc, though its only
significant line is the description, whose grouping is the empty collection.  On the text
of the title G and the code line AB CDEF without a last line feed, `parse_buf` returns 0
with the cheats AB and DE under G, though the grouping of the two lines is G alone. -/
theorem parse_result_is_grouping_counterexample :
    (¬ ∀ ls : List (List Char), (∀ l ∈ ls, LF ∉ l) → ∀ ctx1 list1 e,
      parse_stream (fun _ => ([], [])) [] (stream_of (unlines ls)) = .done 0 ctx1 list1 e →
      list1 = group (items (fun _ => ([], [])) 1 ls)) ∧
    (¬ ∀ ls : List (List Char), (∀ l ∈ ls, LF ∉ l) → ∀ ctx1 list1 e,
      parse_buf (fun _ => ([], [])) [] [] (unlines ls) = .done 0 ctx1 list1 e →
      list1 = group (items (fun _ => ([], [])) 1 ls)) ∧
    group (items (fun _ => ([], [])) 1 long_input_desc) = [] ∧
    parse_stream (fun _ => ([], [])) [] (stream_of (unlines long_input_desc)) =
      .done 0 { top := 0, next := 7, game := some 0, cheat := some (0, 0), code := none }
        [{ title := ['H'], cheats := [{ desc := "Desc".toList, codes := [], tag := 0 }],
           tag := 0 }] none ∧
    parse_buf (fun _ => ([], [])) [] [] (unlines long_input_desc) =
      .done 0 { top := 0, next := 7, game := some 0, cheat := some (0, 0), code := none }
        [{ title := ['H'], cheats := [{ desc := "Desc".toList, codes := [], tag := 0 }],
           tag := 0 }] none ∧
    group (items (fun _ => ([], [])) 1 open_code_lines) =
      [{ title := ['G'], cheats := [], tag := 0 }] ∧
    parse_buf (fun _ => ([], [])) [] [] open_code_text =
      .done 0 { top := 0, next := 7, game := some 0, cheat := some (0, 1), code := none }
        [{ title := ['G'],
           cheats := [{ desc := "AB".toList, codes := [], tag := 0 },
                      { desc := "DE".toList, codes := [], tag := 0 }],
           tag := 0 }] none := by
  have hg : group (items (fun _ => ([], [])) 1 long_input_desc) = [] := by
    unfold long_input_desc
    rw [items_cons_skip _ _ _ long_line_skippable]
    decide
  refine ⟨?_, ?_, hg, long_input_desc_parse.1, long_input_desc_parse.2, by decide, by decide⟩
  · intro h
    have := h long_input_desc long_input_raw.1 _ _ _ long_input_desc_parse.1
    rw [hg] at this
    cases this
  · intro h
    have := h long_input_desc long_input_raw.1 _ _ _ long_input_desc_parse.2
    rw [hg] at this
    cases this

/-- Claim C9, amended: for an input of raw lines shorter than 511 characters on which
parsing fails with a grammar violation, the stored error line is the 1-based index, among
all raw lines (blank and comment lines counted), of the line whose token was not expected,
for `parse_stream` on a text whose last line may lack its line feed and for `parse_buf` on
the text with every line ended by a line feed. -/
theorem error_line_is_raw_index (junk : Nat → List Char × List Char) (line0 : List Char)
    (list : gamelist_t) (ls : List (List Char)) (text : List Char) (hs : short_lines ls)
    (ht : is_text_of text ls) (ret : Int)
    (ctx1 : parser_ctx_t) (list1 : gamelist_t) (e : parse_error)
    (h : parse_stream junk list (stream_of text) = .done ret ctx1 list1 (some e) ∨
      parse_buf junk line0 list (unlines ls) = .done ret ctx1 list1 (some e)) :
    ∃ pre line post, ls = pre ++ line :: post ∧ e.line = pre.length + 1 ∧
      significant line = true ∧ ctx1.next &&& line_token line = 0 ∧
      parse_stream junk list (stream_of (unlines pre)) = .done 0 ctx1 list1 none ∧
      parse_buf junk line0 list (unlines pre) = .done 0 ctx1 list1 none ∧
      e = parse_err (pre.length + 1) (line_token line) := by
  have hS := parse_stream_text junk list ls text hs ht
  have hB := (drivers_short junk line0 list ls hs).2
  rw [hS, hB, or_self] at h
  obtain ⟨pre, line, post, hst, hline, hsig, hbad, hrun, _, he⟩ :=
    parse_stream_error_line junk list ls ret ctx1 list1 e h
  have hpre : short_lines pre := by rw [hst] at hs; exact short_lines_left hs
  obtain ⟨hS2, hB2⟩ := drivers_short junk line0 list pre hpre
  exact ⟨pre, line, post, hst, hline, hsig, hbad, by rw [hS2]; exact hrun,
    by rw [hB2]; exact hrun, he⟩

theorem error_line_is_raw_index_witness :
    ∃ pre line post, ["".toList, "// c".toList, "AB CD".toList] = pre ++ line :: post ∧
      (parse_err 3 TOK_CHEAT_CODE).line = pre.length + 1 ∧
      significant line = true ∧ (init_parser_ctx uninit_ctx).next &&& line_token line = 0 ∧
      parse_stream (fun _ => ([], [])) [] (stream_of (unlines pre)) =
        .done 0 (init_parser_ctx uninit_ctx) [] none ∧
      parse_buf (fun _ => ([], [])) [] [] (unlines pre) =
        .done 0 (init_parser_ctx uninit_ctx) [] none ∧
      parse_err 3 TOK_CHEAT_CODE = parse_err (pre.length + 1) (line_token line) :=
  error_line_is_raw_index (fun _ => ([], [])) [] []
    ["".toList, "// c".toList, "AB CD".toList] "\n// c\nAB CD".toList (by decide) (by decide)
    (-1) (init_parser_ctx uninit_ctx) [] (parse_err 3 TOK_CHEAT_CODE) (Or.inl (by decide))

/-- Claim C9 as stated fails: on the input of the comment line of 515 characters followed
by the line AB CD, two raw lines, the code line is rejected and both drivers store the
error line 3: the long line was read in two pieces and counted twice.  On the text of the
title G and the line "H" A B without a last line feed, two raw lines, `parse_buf` cuts the
last line in two and stores the error line 3. -/
theorem error_line_is_raw_index_counterexample :
    (¬ ∀ ls : List (List Char), (∀ l ∈ ls, LF ∉ l) → ∀ ret ctx1 list1 e,
      parse_stream (fun _ => ([], [])) [] (stream_of (unlines ls)) =
        .done ret ctx1 list1 (some e) → e.line ≤ ls.length) ∧
    (¬ ∀ ls : List (List Char), (∀ l ∈ ls, LF ∉ l) → ∀ ret ctx1 list1 e,
      parse_buf (fun _ => ([], [])) [] [] (unlines ls) =
        .done ret ctx1 list1 (some e) → e.line ≤ ls.length) ∧
    long_input_code.length = 2 ∧
    significant long_line = false ∧
    parse_stream (fun _ => ([], [])) [] (stream_of (unlines long_input_code)) =
      .done (-1) { top := 0, next := 3, game := some 0, cheat := none, code := none }
        [{ title := ['H'], cheats := [], tag := 0 }]
        (some { line := 3, text := "parse error: cheat code invalid here" }) ∧
    parse_buf (fun _ => ([], [])) [] [] (unlines long_input_code) =
      .done (-1) { top := 0, next := 3, game := some 0, cheat := none, code := none }
        [{ title := ['H'], cheats := [], tag := 0 }]
        (some { line := 3, text := "parse error: cheat code invalid here" }) ∧
    open_title_lines.length = 2 ∧
    open_title_text ++ [LF] = unlines open_title_lines ∧
    parse_buf (fun _ => ([], [])) [] [] open_title_text =
      .done (-1) { top := 0, next := 3, game := some 1, cheat := none, code := none }
        [{ title := ['G'], cheats := [], tag := 0 }, { title := ['H'], cheats := [], tag := 0 }]
        (some { line := 3, text := "parse error: cheat code invalid here" }) := by
  refine ⟨?_, ?_, rfl, long_line_skippable, long_input_code_parse.1, long_input_code_parse.2,
    by decide, by decide, by decide⟩
  · intro h
    have := h long_input_code long_input_raw.2 _ _ _ _ long_input_code_parse.1
    exact absurd this (by decide)
  · intro h
    have := h long_input_code long_input_raw.2 _ _ _ _ long_input_code_parse.2
    exact absurd this (by decide)

/-- Claim C10, amended: for an input whose raw lines up to its first significant line have
fewer than 511 characters, that line not being a quoted game title, parsing fails with a
grammar violation stored for that line, whatever text follows the line: for `parse_stream`,
also when the line is the last and lacks its line feed, and for `parse_buf` when a line
feed ends the line; the input Loose description, "Game A" fails at line 1. -/
theorem first_line_not_title_fails (junk : Nat → List Char × List Char) (line0 : List Char)
    (list : gamelist_t) (pre : List (List Char)) (line : List Char)
    (hshort : short_lines (pre ++ [line]))
    (hpre : ∀ l ∈ pre, significant l = false) (hs : significant line = true)
    (hnt : is_game_title (screen line) = false) :
    (∀ rest : List Char,
      parse_stream junk list (stream_of (unlines (pre ++ [line]) ++ rest)) =
        .done (-1) (init_parser_ctx uninit_ctx) list
          (some (parse_err (pre.length + 1) (line_token line))) ∧
      parse_buf junk line0 list (unlines (pre ++ [line]) ++ rest) =
        .done (-1) (init_parser_ctx uninit_ctx) list
          (some (parse_err (pre.length + 1) (line_token line)))) ∧
    (∀ text, is_text_of text (pre ++ [line]) →
      parse_stream junk list (stream_of text) =
        .done (-1) (init_parser_ctx uninit_ctx) list
          (some (parse_err (pre.length + 1) (line_token line)))) ∧
    (line_token line = TOK_CHEAT_DESC ∨ line_token line = TOK_CHEAT_CODE) ∧
    (∀ text, is_text_of text
        ["Loose description".toList, [DQUOTE] ++ "Game A".toList ++ [DQUOTE]] →
      parse_stream junk list (stream_of text) =
        .done (-1) (init_parser_ctx uninit_ctx) list
          (some { line := 1, text := "parse error: cheat description invalid here" })) ∧
    parse_buf junk line0 list (unlines
        ["Loose description".toList, [DQUOTE] ++ "Game A".toList ++ [DQUOTE]]) =
      .done (-1) (init_parser_ctx uninit_ctx) list
        (some { line := 1, text := "parse error: cheat description invalid here" }) := by
  obtain ⟨hmain, htok⟩ := parse_stream_first_not_title junk list pre line [] hpre hs hnt
  obtain ⟨hA, hB⟩ := drivers_stop junk line0 list (pre ++ [line]) hshort _ _ _ _ hmain
  have hex := (parse_stream_first_not_title junk list [] "Loose description".toList
    [[DQUOTE] ++ "Game A".toList ++ [DQUOTE]] (fun _ hl => absurd hl (List.not_mem_nil _))
    (by decide) (by decide)).1
  have hex2 : parse_stream junk list
      ["Loose description".toList, [DQUOTE] ++ "Game A".toList ++ [DQUOTE]] =
      .done (-1) (init_parser_ctx uninit_ctx) list
        (some { line := 1, text := "parse error: cheat description invalid here" }) := hex
  refine ⟨hA, hB, htok, ?_, ?_⟩
  · intro text ht
    rw [parse_stream_text junk list _ text (by decide) ht]
    exact hex2
  · rw [(drivers_short junk line0 list _ (by decide)).2]
    exact hex2

theorem first_line_not_title_fails_witness :
    parse_buf (fun _ => ([], [])) [] []
        (unlines ([[], "// note".toList] ++ ["AB CD".toList]) ++ "x".toList) =
      .done (-1) (init_parser_ctx uninit_ctx) []
        (some (parse_err ([[], "// note".toList].length + 1) (line_token "AB CD".toList))) :=
  ((first_line_not_title_fails (fun _ => ([], [])) [] [] [[], "// note".toList] "AB CD".toList
    (by decide) (by decide) (by decide) (by decide)).1 "x".toList).2

/-- Claim C10 as stated fails: in the input of the comment line of 515 characters followed
by the line Desc, the first significant line is the description, not a quoted title; both
drivers take the end of the comment line as the title H and return 0.  On the text of the
one line AB CD without a line feed, `parse_buf` with an empty array `line` on entry
parses nothing and returns 0. -/
theorem first_line_not_title_fails_counterexample :
    (¬ ∀ (pre : List (List Char)) (line : List Char) (post : List (List Char)),
      (∀ l ∈ pre ++ line :: post, LF ∉ l) → (∀ l ∈ pre, significant l = false) →
      significant line = true → is_game_title (screen line) = false →
      ∃ ctx1 list1 e, parse_stream (fun _ => ([], [])) []
        (stream_of (unlines (pre ++ line :: post))) = .done (-1) ctx1 list1 (some e)) ∧
    (¬ ∀ (pre : List (List Char)) (line : List Char) (post : List (List Char)),
      (∀ l ∈ pre ++ line :: post, LF ∉ l) → (∀ l ∈ pre, significant l = false) →
      significant line = true → is_game_title (screen line) = false →
      ∃ ctx1 list1 e, parse_buf (fun _ => ([], [])) [] []
        (unlines (pre ++ line :: post)) = .done (-1) ctx1 list1 (some e)) ∧
    long_input_desc = [long_line] ++ "Desc".toList :: [] ∧
    significant long_line = false ∧ significant "Desc".toList = true ∧
    is_game_title (screen "Desc".toList) = false ∧
    parse_stream (fun _ => ([], [])) [] (stream_of (unlines long_input_desc)) =
      .done 0 { top := 0, next := 7, game := some 0, cheat := some (0, 0), code := none }
        [{ title := ['H'], cheats := [{ desc := "Desc".toList, codes := [], tag := 0 }],
           tag := 0 }] none ∧
    parse_buf (fun _ => ([], [])) [] [] (unlines long_input_desc) =
      .done 0 { top := 0, next := 7, game := some 0, cheat := some (0, 0), code := none }
        [{ title := ['H'], cheats := [{ desc := "Desc".toList, codes := [], tag := 0 }],
           tag := 0 }] none ∧
    significant "AB CD".toList = true ∧ is_game_title (screen "AB CD".toList) = false ∧
    parse_buf (fun _ => ([], [])) [] [] "AB CD".toList =
      .done 0 (init_parser_ctx uninit_ctx) [] none := by
  have hpre : ∀ l ∈ [long_line], significant l = false := by
    intro l hl
    rw [List.mem_singleton] at hl
    rw [hl]; exact long_line_skippable
  refine ⟨?_, ?_, rfl, long_line_skippable, by decide, by decide, long_input_desc_parse.1,
    long_input_desc_parse.2, by decide, by decide, by decide⟩
  · intro h
    obtain ⟨ctx1, list1, e, he⟩ := h [long_line] "Desc".toList [] long_input_raw.1 hpre
      (by decide) (by decide)
    have h2 := long_input_desc_parse.1
    unfold long_input_desc at h2
    rw [List.singleton_append, h2] at he
    simp at he
  · intro h
    obtain ⟨ctx1, list1, e, he⟩ := h [long_line] "Desc".toList [] long_input_raw.1 hpre
      (by decide) (by decide)
    have h2 := long_input_desc_parse.2
    unfold long_input_desc at h2
    rw [List.singleton_append, h2] at he
    simp at he

/-- Claim C11, amended: for an input of raw lines shorter than 511 characters on which
parsing fails at line n, the list and the parser state left are those of the parse of the
first n-1 lines, which succeeds: nothing parsed before the failing line is rolled back, and
nothing of line n or of the text after it is added; for `parse_stream` on a text whose last
line may lack its line feed and for `parse_buf` on the text with every line ended by a
line feed. -/
theorem failed_parse_keeps_parsed_part (junk : Nat → List Char × List Char)
    (line0 : List Char) (list : gamelist_t) (ls : List (List Char)) (text : List Char)
    (hs : short_lines ls) (ht : is_text_of text ls)
    (ret : Int) (ctx1 : parser_ctx_t) (list1 : gamelist_t) (e : parse_error)
    (h : parse_stream junk list (stream_of text) = .done ret ctx1 list1 (some e) ∨
      parse_buf junk line0 list (unlines ls) = .done ret ctx1 list1 (some e)) :
    1 ≤ e.line ∧ e.line ≤ ls.length ∧
    parse_stream junk list (stream_of (unlines (ls.take (e.line - 1)))) =
      .done 0 ctx1 list1 none ∧
    parse_buf junk line0 list (unlines (ls.take (e.line - 1))) = .done 0 ctx1 list1 none ∧
    (∀ rest : List Char,
      parse_stream junk list (stream_of (unlines (ls.take e.line) ++ rest)) =
        .done ret ctx1 list1 (some e) ∧
      parse_buf junk line0 list (unlines (ls.take e.line) ++ rest) =
        .done ret ctx1 list1 (some e)) ∧
    (∀ text2, is_text_of text2 (ls.take e.line) →
      parse_stream junk list (stream_of text2) = .done ret ctx1 list1 (some e)) := by
  have hS := parse_stream_text junk list ls text hs ht
  have hB := (drivers_short junk line0 list ls hs).2
  rw [hS, hB, or_self] at h
  obtain ⟨h1, h2, h3, h4⟩ := parse_stream_keeps_parsed junk list ls ret ctx1 list1 e h
  have htake : ∀ k, short_lines (ls.take k) := fun k l hl => hs l (List.mem_of_mem_take hl)
  obtain ⟨hS2, hB2⟩ := drivers_short junk line0 list _ (htake (e.line - 1))
  have h5 := h4 []
  rw [List.append_nil] at h5
  exact ⟨h1, h2, by rw [hS2]; exact h3, by rw [hB2]; exact h3,
    drivers_stop junk line0 list _ (htake e.line) _ _ _ _ h5⟩

theorem failed_parse_keeps_parsed_part_witness :
    parse_buf (fun _ => ([], [])) [] []
        (unlines ([[DQUOTE, 'G', DQUOTE], "// c".toList, "AB CD".toList, "D".toList].take
          ((parse_err 3 TOK_CHEAT_CODE).line - 1))) =
      .done 0 { top := 0, next := 3, game := some 0, cheat := none, code := none }
        [{ title := ['G'], cheats := [], tag := 0 }] none :=
  (failed_parse_keeps_parsed_part (fun _ => ([], [])) [] []
    [[DQUOTE, 'G', DQUOTE], "// c".toList, "AB CD".toList, "D".toList]
    (unlines [[DQUOTE, 'G', DQUOTE], "// c".toList, "AB CD".toList, "D".toList])
    (by decide) (by decide) (-1)
    { top := 0, next := 3, game := some 0, cheat := none, code := none }
    [{ title := ['G'], cheats := [], tag := 0 }] (parse_err 3 TOK_CHEAT_CODE)
    (Or.inr (by decide))).2.2.2.1

/-- Claim C11 as stated fails: on the input of the comment line of 515 characters followed
by the line AB CD, both drivers fail at line 3 and leave the game H; the first 2 raw lines
are the whole input, whose parse does not succeed.  On the text of the title G and the line
"H" A B without a last line feed, two raw lines, `parse_buf` fails at line 3 and leaves the
games G and H. -/
theorem failed_parse_keeps_parsed_part_counterexample :
    (¬ ∀ ls : List (List Char), (∀ l ∈ ls, LF ∉ l) → ∀ ret ctx1 list1 e,
      parse_stream (fun _ => ([], [])) [] (stream_of (unlines ls)) =
        .done ret ctx1 list1 (some e) →
      ∃ ctx2, parse_stream (fun _ => ([], [])) []
        (stream_of (unlines (ls.take (e.line - 1)))) = .done 0 ctx2 list1 none) ∧
    (¬ ∀ ls : List (List Char), (∀ l ∈ ls, LF ∉ l) → ∀ ret ctx1 list1 e,
      parse_buf (fun _ => ([], [])) [] [] (unlines ls) = .done ret ctx1 list1 (some e) →
      ∃ ctx2, parse_buf (fun _ => ([], [])) [] []
        (unlines (ls.take (e.line - 1))) = .done 0 ctx2 list1 none) ∧
    long_input_code.take (3 - 1) = long_input_code ∧
    parse_stream (fun _ => ([], [])) [] (stream_of (unlines long_input_code)) =
      .done (-1) { top := 0, next := 3, game := some 0, cheat := none, code := none }
        [{ title := ['H'], cheats := [], tag := 0 }]
        (some { line := 3, text := "parse error: cheat code invalid here" }) ∧
    parse_buf (fun _ => ([], [])) [] [] (unlines long_input_code) =
      .done (-1) { top := 0, next := 3, game := some 0, cheat := none, code := none }
        [{ title := ['H'], cheats := [], tag := 0 }]
        (some { line := 3, text := "parse error: cheat code invalid here" }) ∧
    open_title_lines.length = 2 ∧
    open_title_text ++ [LF] = unlines open_title_lines ∧
    parse_buf (fun _ => ([], [])) [] [] open_title_text =
      .done (-1) { top := 0, next := 3, game := some 1, cheat := none, code := none }
        [{ title := ['G'], cheats := [], tag := 0 }, { title := ['H'], cheats := [], tag := 0 }]
        (some { line := 3, text := "parse error: cheat code invalid here" }) := by
  have htake : long_input_code.take (3 - 1) = long_input_code := rfl
  refine ⟨?_, ?_, htake, long_input_code_parse.1, long_input_code_parse.2, by decide, by decide,
    by decide⟩
  · intro h
    obtain ⟨ctx2, h2⟩ := h long_input_code long_input_raw.2 _ _ _ _ long_input_code_parse.1
    have h3 : long_input_code.take
        (({ line := 3, text := "parse error: cheat code invalid here" } : parse_error).line - 1) =
        long_input_code := rfl
    rw [h3, long_input_code_parse.1] at h2
    simp at h2
  · intro h
    obtain ⟨ctx2, h2⟩ := h long_input_code long_input_raw.2 _ _ _ _ long_input_code_parse.2
    have h3 : long_input_code.take
        (({ line := 3, text := "parse error: cheat code invalid here" } : parse_error).line - 1) =
        long_input_code := rfl
    rw [h3, long_input_code_parse.2] at h2
    simp at h2

/-- Claim C18, amended: when `parse_buf` returns, `cheats_read_buf` returns CHEATS_FALSE
exactly when it returned -1, and then the error line and text of the cheats object are
those `parse_err` stored, the line as `parse_buf` counted it; otherwise it returns
CHEATS_TRUE with error line 0 and an empty text.  For the text of raw lines of at most 511
characters whose titles fit, each ended by a line feed, the call returns and the error line
is the 1-based index of the rejected raw line. -/
theorem cheats_read_buf_result (junk : Nat → List Char × List Char) (line0 : List Char)
    (globals : parse_error) (cheats : cheats_t) (buf : List Char) :
    (∀ ret ctx list e, parse_buf junk line0 cheats.games buf = .done ret ctx list e →
      ∃ st c1, cheats_read_buf junk line0 globals (some cheats) (some buf) = some (st, some c1) ∧
        c1.games = list ∧
        (st = .CHEATS_FALSE ↔ ret < 0) ∧
        (ret < 0 → ∃ err, e = some err ∧ cheats_error_line (some c1) = (err.line : Int) ∧
          cheats_error_text (some c1) = some err.text) ∧
        (¬ ret < 0 → st = .CHEATS_TRUE ∧ cheats_error_line (some c1) = 0 ∧
          cheats_error_text (some c1) = some "")) ∧
    (∀ stream, raw_lines stream → titles_fit stream → buf = unlines stream →
      ∃ st c1, cheats_read_buf junk line0 globals (some cheats) (some buf) = some (st, some c1) ∧
        (st = .CHEATS_FALSE →
          ∃ pre line post, stream = pre ++ line :: post ∧ significant line = true ∧
            cheats_error_line (some c1) = ((pre.length + 1 : Nat) : Int) ∧
            cheats_error_text (some c1) =
              some (parse_err (pre.length + 1) (line_token line)).text ∧
            ∃ ctxp, parse_buf junk line0 cheats.games (unlines pre) =
              .done 0 ctxp c1.games none)) := by
  have hmain : ∀ ret ctx list e, parse_buf junk line0 cheats.games buf = .done ret ctx list e →
      ∃ st c1, cheats_read_buf junk line0 globals (some cheats) (some buf) = some (st, some c1) ∧
        c1.games = list ∧
        (st = .CHEATS_FALSE ↔ ret < 0) ∧
        (ret < 0 → ∃ err, e = some err ∧ cheats_error_line (some c1) = (err.line : Int) ∧
          cheats_error_text (some c1) = some err.text) ∧
        (¬ ret < 0 → st = .CHEATS_TRUE ∧ cheats_error_line (some c1) = 0 ∧
          cheats_error_text (some c1) = some "") := by
    intro ret ctx list e h
    have hc := parse_buf_loop_done junk _ _ _ _ _ _ _ _ _ _ h
    unfold cheats_read_buf
    simp only [h]
    rcases hc with ⟨hr, he⟩ | ⟨hr, n, tok, he⟩
    · subst hr; subst he
      refine ⟨.CHEATS_TRUE, { games := list, error_text := "", error_line := 0 }, by simp, rfl,
        by simp, by simp, ?_⟩
      intro _
      exact ⟨rfl, rfl, rfl⟩
    · subst hr; subst he
      refine ⟨.CHEATS_FALSE,
        { games := list, error_text := (parse_err n tok).text,
          error_line := ((parse_err n tok).line : Int) }, by simp, rfl, by simp, ?_, by simp⟩
      intro _
      exact ⟨_, rfl, rfl, rfl⟩
  refine ⟨hmain, ?_⟩
  intro stream hraw hfit hbuf
  subst hbuf
  rcases parse_stream_cases junk cheats.games stream hfit with ⟨_, ctx1, h1⟩ | ⟨_, hrest⟩
  · rw [← parse_buf_unlines junk line0 _ _ hraw] at h1
    obtain ⟨st, c1, hcall, _, hst, _, _⟩ := hmain _ _ _ _ h1
    refine ⟨st, c1, hcall, ?_⟩
    intro hf
    exact absurd (hst.1 hf) (by decide)
  · obtain ⟨pre, line, post, ctx1, list1, hstream, hs, hrun, _, _, hres⟩ := hrest
    have h1 := hres post
    rw [← hstream, ← parse_buf_unlines junk line0 _ _ hraw] at h1
    obtain ⟨st, c1, hcall, hgames, _, herr, _⟩ := hmain _ _ _ _ h1
    refine ⟨st, c1, hcall, ?_⟩
    intro _
    obtain ⟨err, he, hl, ht⟩ := herr (by decide)
    simp only [Option.some.injEq] at he
    subst he
    have hpre : raw_lines pre := fun l hl => hraw l (by rw [hstream]; exact List.mem_append_left _ hl)
    rw [← parse_buf_unlines junk line0 _ _ hpre] at hrun
    refine ⟨pre, line, post, hstream, hs, hl, ht, ctx1, ?_⟩
    rw [hrun, hgames]

theorem cheats_read_buf_result_witness :
    ∃ st c1, cheats_read_buf (fun _ => ([], [])) [] { line := 0, text := "" }
        (some { games := [], error_text := "", error_line := 0 })
        (some (unlines ["x".toList])) = some (st, some c1) ∧
      c1.games = [] ∧
      (st = .CHEATS_FALSE ↔ (-1 : Int) < 0) ∧
      ((-1 : Int) < 0 → ∃ err, some (parse_err 1 TOK_CHEAT_DESC) = some err ∧
        cheats_error_line (some c1) = (err.line : Int) ∧
        cheats_error_text (some c1) = some err.text) ∧
      (¬ (-1 : Int) < 0 → st = .CHEATS_TRUE ∧ cheats_error_line (some c1) = 0 ∧
        cheats_error_text (some c1) = some "") :=
  (cheats_read_buf_result (fun _ => ([], [])) [] { line := 0, text := "" }
    { games := [], error_text := "", error_line := 0 } (unlines ["x".toList])).1 (-1)
    (init_parser_ctx uninit_ctx) [] (some (parse_err 1 TOK_CHEAT_DESC)) (by decide)

/-- Claim C18 as stated fails: on the text of the comment line of 515 characters followed by
the line AB CD, two raw lines, `cheats_read_buf` returns CHEATS_FALSE and the error line
is 3, though the rejected line is raw line 2.  On the text of the title G and the line
"H" A B without a last line feed, two raw lines, the error line is 3 too; on a title line
with 81 characters between the quotes `__make_game` overruns its array and the call does
not return. -/
theorem cheats_read_buf_result_counterexample :
    (¬ ∀ (ls : List (List Char)) (c1 : cheats_t), (∀ l ∈ ls, LF ∉ l) →
      cheats_read_buf (fun _ => ([], [])) [] { line := 0, text := "" }
        (some { games := [], error_text := "", error_line := 0 }) (some (unlines ls)) =
        some (.CHEATS_FALSE, some c1) →
      cheats_error_line (some c1) ≤ (ls.length : Int)) ∧
    long_input_code.length = 2 ∧
    significant long_line = false ∧
    cheats_read_buf (fun _ => ([], [])) [] { line := 0, text := "" }
      (some { games := [], error_text := "", error_line := 0 })
      (some (unlines long_input_code)) =
      some (.CHEATS_FALSE, some
        { games := [{ title := ['H'], cheats := [], tag := 0 }],
          error_text := "parse error: cheat code invalid here", error_line := 3 }) ∧
    open_title_lines.length = 2 ∧
    open_title_text ++ [LF] = unlines open_title_lines ∧
    cheats_read_buf (fun _ => ([], [])) [] { line := 0, text := "" }
      (some { games := [], error_text := "", error_line := 0 }) (some open_title_text) =
      some (.CHEATS_FALSE, some
        { games := [{ title := ['G'], cheats := [], tag := 0 },
                    { title := ['H'], cheats := [], tag := 0 }],
          error_text := "parse error: cheat code invalid here", error_line := 3 }) ∧
    cheats_read_buf (fun _ => ([], [])) [] { line := 0, text := "" }
      (some { games := [], error_text := "", error_line := 0 })
      (some (unlines [long_title_line])) = none := by
  have hcall : cheats_read_buf (fun _ => ([], [])) [] { line := 0, text := "" }
      (some { games := [], error_text := "", error_line := 0 })
      (some (unlines long_input_code)) =
      some (.CHEATS_FALSE, some
        { games := [{ title := ['H'], cheats := [], tag := 0 }],
          error_text := "parse error: cheat code invalid here", error_line := 3 }) := by
    unfold cheats_read_buf
    simp only [long_input_code_parse.2]
    decide
  refine ⟨?_, rfl, long_line_skippable, hcall, by decide, by decide, by decide, by decide⟩
  intro h
  have := h long_input_code _ long_input_raw.2 hcall
  exact absurd this (by decide)

/-- The stream of a text that starts with a raw line of any length: the strings `fgets`
delivers for the line, then the stream of the rest. -/
theorem stream_of_any_line (rest : List Char) :
    ∀ (n : Nat) (l : List Char), l.length ≤ n → LF ∉ l →
      stream_of (l ++ LF :: rest) = stream_of (l ++ [LF]) ++ stream_of rest := by
  intro n
  induction n with
  | zero =>
    intro l hn hl
    have hs : l.length < LINE_MAX := by unfold LINE_MAX; omega
    rw [stream_of_line l rest hl hs, stream_of_line l [] hl hs, stream_of_nil]
    rfl
  | succ n ih =>
    intro l hn hl
    by_cases hs : l.length < LINE_MAX
    · rw [stream_of_line l rest hl hs, stream_of_line l [] hl hs, stream_of_nil]
      rfl
    · have hge : LINE_MAX ≤ l.length := by omega
      have hd : (l.drop LINE_MAX).length ≤ n := by
        rw [List.length_drop]; unfold LINE_MAX at hge ⊢; omega
      have hld : LF ∉ l.drop LINE_MAX := fun h => hl (List.mem_of_mem_drop h)
      rw [stream_of_long l (LF :: rest) hl hge, stream_of_long l [LF] hl hge,
        ih (l.drop LINE_MAX) hd hld]
      rfl

/-- The stream of the text of raw lines of any length, followed by any text: the stream of
the lines, then the stream of that text. -/
theorem stream_of_lines (rest : List Char) (ls : List (List Char)) (h : ∀ l ∈ ls, LF ∉ l) :
    stream_of (unlines ls ++ rest) = stream_of (unlines ls) ++ stream_of rest := by
  induction ls with
  | nil => rfl
  | cons l ls ih =>
    have hl := h l (List.mem_cons_self _ _)
    have ih := ih (fun x hx => h x (List.mem_cons_of_mem _ hx))
    rw [unlines_cons, List.append_assoc, List.cons_append,
      stream_of_any_line _ l.length l (Nat.le_refl _) hl,
      stream_of_any_line (unlines ls) l.length l (Nat.le_refl _) hl, ih, List.append_assoc]

theorem scan_line_short (f : Nat) (l : List Char) (h : l.length ≤ LINE_MAX) :
    scan_line f l = [l] := by
  cases f with
  | zero => rfl
  | succ f => simp [scan_line, h]

/-- The lines cut from a raw line are raw lines of at most 511 characters, and their text
is not longer than the line with its line feed. -/
theorem scan_line_raw :
    ∀ (f : Nat) (l : List Char), l.length ≤ f → LF ∉ l →
      raw_lines (scan_line f l) ∧ (unlines (scan_line f l)).length ≤ l.length + 1 := by
  intro f
  induction f with
  | zero =>
    intro l hf hl
    have : l = [] := List.length_eq_zero.1 (Nat.le_zero.1 hf)
    subst this
    exact ⟨by decide, by decide⟩
  | succ f ih =>
    intro l hf hl
    by_cases hs : l.length ≤ LINE_MAX
    · rw [scan_line_short _ l hs]
      refine ⟨?_, ?_⟩
      · intro x hx
        rw [List.mem_singleton] at hx
        rw [hx]; exact ⟨hl, hs⟩
      · simp [unlines]
    · have hd : (l.drop (LINE_MAX + 1)).length ≤ f := by
        rw [List.length_drop]; omega
      have hld : LF ∉ l.drop (LINE_MAX + 1) := fun h => hl (List.mem_of_mem_drop h)
      obtain ⟨h1, h2⟩ := ih _ hd hld
      simp only [scan_line, hs, if_false]
      refine ⟨?_, ?_⟩
      · intro x hx
        rcases List.mem_cons.1 hx with hx | hx
        · rw [hx]
          refine ⟨fun hc => hl (List.mem_of_mem_take hc), ?_⟩
          rw [List.length_take]; omega
        · exact h1 x hx
      · rw [unlines_cons, List.length_append, List.length_cons, List.length_take]
        rw [List.length_drop] at h2
        unfold LINE_MAX at hs h2 ⊢
        omega

/-- The loop of `parse_buf` on a text that starts with a raw line of any length takes the
turns it takes on the text of the lines cut from it. -/
theorem parse_buf_loop_scan_line (junk : Nat → List Char × List Char) :
    ∀ (f : Nat) (l : List Char), l.length ≤ f → LF ∉ l → ∀ (tail : List Char)
      (fuel : Nat) (line : List Char) (nl : Nat) (ctx : parser_ctx_t) (list : gamelist_t),
      parse_buf_loop junk fuel (l ++ LF :: tail) line nl ctx list =
        parse_buf_loop junk fuel (unlines (scan_line f l) ++ tail) line nl ctx list := by
  intro f
  induction f with
  | zero =>
    intro l hf hl tail fuel line nl ctx list
    have : l = [] := List.length_eq_zero.1 (Nat.le_zero.1 hf)
    subst this
    rfl
  | succ f ih =>
    intro l hf hl tail fuel line nl ctx list
    by_cases hs : l.length ≤ LINE_MAX
    · rw [scan_line_short _ l hs]
      simp [unlines]
    · have hd : (l.drop (LINE_MAX + 1)).length ≤ f := by
        rw [List.length_drop]; omega
      have hld : LF ∉ l.drop (LINE_MAX + 1) := fun h => hl (List.mem_of_mem_drop h)
      have hraw : raw_lines [l.take LINE_MAX] := by
        intro x hx
        rw [List.mem_singleton] at hx
        rw [hx]
        refine ⟨fun hc => hl (List.mem_of_mem_take hc), ?_⟩
        rw [List.length_take]; omega
      simp only [scan_line, hs, if_false]
      rw [parse_buf_loop_long junk fuel l tail line nl ctx list hl (by omega)]
      have h := parse_buf_loop_congr junk _ _
        (fun fuel line nl ctx list =>
          ih (l.drop (LINE_MAX + 1)) hd hld tail fuel line nl ctx list)
        [l.take LINE_MAX] hraw fuel line nl ctx list
      have e1 : unlines [l.take LINE_MAX] ++ (l.drop (LINE_MAX + 1) ++ LF :: tail) =
          l.take LINE_MAX ++ LF :: (l.drop (LINE_MAX + 1) ++ LF :: tail) := by
        simp [unlines]
      have e2 : unlines [l.take LINE_MAX] ++
          (unlines (scan_line f (l.drop (LINE_MAX + 1))) ++ tail) =
          unlines (l.take LINE_MAX :: scan_line f (l.drop (LINE_MAX + 1))) ++ tail := by
        simp [unlines]
      rw [e1, e2] at h
      exact h

theorem scan_lines_cons (l : List Char) (ls : List (List Char)) :
    scan_lines (l :: ls) = scan_line l.length l ++ scan_lines ls := by
  simp [scan_lines]

theorem scan_lines_append (a b : List (List Char)) :
    scan_lines (a ++ b) = scan_lines a ++ scan_lines b := by
  simp [scan_lines]

theorem scan_lines_short (ls : List (List Char)) (h : raw_lines ls) : scan_lines ls = ls := by
  induction ls with
  | nil => rfl
  | cons l ls ih =>
    rw [scan_lines_cons, scan_line_short _ l (h l (List.mem_cons_self _ _)).2,
      ih (fun x hx => h x (List.mem_cons_of_mem _ hx))]
    rfl

/-- The lines cut from raw lines are raw lines of at most 511 characters, and their text is
not longer than the text of the lines. -/
theorem scan_lines_raw (ls : List (List Char)) (h : ∀ l ∈ ls, LF ∉ l) :
    raw_lines (scan_lines ls) ∧ (unlines (scan_lines ls)).length ≤ (unlines ls).length := by
  induction ls with
  | nil => exact ⟨by decide, Nat.le_refl _⟩
  | cons l ls ih =>
    obtain ⟨h1, h2⟩ := ih (fun x hx => h x (List.mem_cons_of_mem _ hx))
    obtain ⟨h3, h4⟩ := scan_line_raw l.length l (Nat.le_refl _) (h l (List.mem_cons_self _ _))
    rw [scan_lines_cons]
    refine ⟨?_, ?_⟩
    · intro x hx
      rcases List.mem_append.1 hx with hx | hx
      · exact h3 x hx
      · exact h1 x hx
    · rw [unlines_append, unlines_cons, List.length_append, List.length_append,
        List.length_cons]
      omega

/-- The loop of `parse_buf` on the text of raw lines of any length, followed by any text,
takes the turns it takes on the text of the lines cut from them. -/
theorem parse_buf_loop_scan_lines (junk : Nat → List Char × List Char) (tail : List Char)
    (ls : List (List Char)) (h : ∀ l ∈ ls, LF ∉ l) :
    ∀ (fuel : Nat) (line : List Char) (nl : Nat) (ctx : parser_ctx_t) (list : gamelist_t),
      parse_buf_loop junk fuel (unlines ls ++ tail) line nl ctx list =
        parse_buf_loop junk fuel (unlines (scan_lines ls) ++ tail) line nl ctx list := by
  induction ls with
  | nil => intro fuel line nl ctx list; rfl
  | cons l ls ih =>
    intro fuel line nl ctx list
    have hl := h l (List.mem_cons_self _ _)
    have ih := ih (fun x hx => h x (List.mem_cons_of_mem _ hx))
    rw [unlines_cons, List.append_assoc, List.cons_append,
      parse_buf_loop_scan_line junk l.length l (Nat.le_refl _) hl, scan_lines_cons,
      unlines_append, List.append_assoc]
    exact parse_buf_loop_congr junk _ _ ih _
      (scan_line_raw l.length l (Nat.le_refl _) hl).1 fuel line nl ctx list

/-- The function `parse_buf` on the text of raw lines of any length, each ended by a line
feed, runs the loop of `parse_stream` on the lines its scanner cuts. -/
theorem parse_buf_scan (junk : Nat → List Char × List Char) (line0 : List Char)
    (list : gamelist_t) (ls : List (List Char)) (h : ∀ l ∈ ls, LF ∉ l) :
    parse_buf junk line0 list (unlines ls) = parse_stream junk list (scan_lines ls) := by
  have h1 := parse_buf_loop_scan_lines junk [] ls h ((unlines ls).length + 1) line0 1
    (init_parser_ctx uninit_ctx) list
  rw [List.append_nil, List.append_nil] at h1
  obtain ⟨hr, hlen⟩ := scan_lines_raw ls h
  unfold parse_buf
  rw [h1, parse_buf_loop_unlines junk _ hr _ _ _ _ _ (by omega)]
  rfl

theorem significant_LF (l : List Char) : significant (l ++ [LF]) = significant l := by
  unfold significant
  rw [screen_LF, is_empty_str_LF]

theorem verdict_bump (k : Nat) (o : parse_outcome) : verdict (bump k o) = verdict o := by
  cases o with
  | done ret ctx list1 e => cases e <;> rfl
  | fault => rfl
  | overrun => rfl
  | nofuel => rfl

theorem unshift_const (j : List Char × List Char) (k : Nat) :
    unshift (fun _ => j) k = fun _ => j := by
  funext n
  unfold unshift
  split <;> rfl

/-- The function `parse_stream` on a text with a skipped line of fewer than 511 characters
inserted after the raw lines `pre`, whatever text follows: what it gives on the text
without the line, but for the stored error line. -/
theorem parse_stream_insert_rest (junk : Nat → List Char × List Char) (list : gamelist_t)
    (pre : List (List Char)) (l : List Char) (rest : List Char)
    (h : skippable l = true) (hl : LF ∉ l) (hlen : l.length < LINE_MAX)
    (hpre : ∀ x ∈ pre, LF ∉ x) :
    parse_stream junk list (stream_of (unlines (pre ++ [l]) ++ rest)) =
      bump ((stream_of (unlines pre)).length + 1)
        (parse_stream (unshift junk ((stream_of (unlines pre)).length + 1)) list
          (stream_of (unlines pre ++ rest))) := by
  have hsig : significant (l ++ [LF]) = false := by
    rw [significant_LF]; exact skippable_not_significant l h
  have hu : unlines (pre ++ [l]) ++ rest = unlines pre ++ (l ++ LF :: rest) := by
    simp [unlines]
  rw [hu, stream_of_lines _ pre hpre, stream_of_lines _ pre hpre, stream_of_line l _ hl hlen]
  have := parse_stream_loop_insert junk (l ++ [LF]) (stream_of rest) hsig
    (stream_of (unlines pre)) 1 (init_parser_ctx uninit_ctx) list
  rw [Nat.add_comm 1 _] at this
  exact this

/-- The function `parse_stream` on a text with a skipped line of fewer than 511 characters
inserted after the raw lines `pre`: what it gives on the text without the line, but for the
stored error line. -/
theorem parse_stream_insert (junk : Nat → List Char × List Char) (list : gamelist_t)
    (pre : List (List Char)) (l : List Char) (post : List (List Char))
    (h : skippable l = true) (hl : LF ∉ l) (hlen : l.length < LINE_MAX)
    (hpre : ∀ x ∈ pre, LF ∉ x) :
    parse_stream junk list (stream_of (unlines (pre ++ l :: post))) =
      bump ((stream_of (unlines pre)).length + 1)
        (parse_stream (unshift junk ((stream_of (unlines pre)).length + 1)) list
          (stream_of (unlines (pre ++ post)))) := by
  have hsig : significant (l ++ [LF]) = false := by
    rw [significant_LF]; exact skippable_not_significant l h
  rw [unlines_append, unlines_append, unlines_cons, stream_of_lines _ pre hpre,
    stream_of_lines _ pre hpre, stream_of_line l _ hl hlen]
  have := parse_stream_loop_insert junk (l ++ [LF]) (stream_of (unlines post)) hsig
    (stream_of (unlines pre)) 1 (init_parser_ctx uninit_ctx) list
  rw [Nat.add_comm 1 _] at this
  exact this

/-- The function `parse_buf` on a text with a skipped line of fewer than 511 characters
inserted after the raw lines `pre`: what it gives on the text without the line, but for the
stored error line. -/
theorem parse_buf_insert (junk : Nat → List Char × List Char) (line0 : List Char)
    (list : gamelist_t) (pre : List (List Char)) (l : List Char) (post : List (List Char))
    (h : skippable l = true) (hl : LF ∉ l) (hlen : l.length < LINE_MAX)
    (hpre : ∀ x ∈ pre, LF ∉ x) (hpost : ∀ x ∈ post, LF ∉ x) :
    parse_buf junk line0 list (unlines (pre ++ l :: post)) =
      bump ((scan_lines pre).length + 1)
        (parse_buf (unshift junk ((scan_lines pre).length + 1)) line0 list
          (unlines (pre ++ post))) := by
  have h1 : ∀ x ∈ pre ++ l :: post, LF ∉ x := by
    intro x hx
    rcases List.mem_append.1 hx with hm | hm
    · exact hpre x hm
    · rcases List.mem_cons.1 hm with hm | hm
      · rw [hm]; exact hl
      · exact hpost x hm
  have h2 : ∀ x ∈ pre ++ post, LF ∉ x := by
    intro x hx
    rcases List.mem_append.1 hx with hm | hm
    · exact hpre x hm
    · exact hpost x hm
  rw [parse_buf_scan junk line0 list _ h1, parse_buf_scan _ line0 list _ h2,
    scan_lines_append, scan_lines_append, scan_lines_cons,
    scan_line_short _ l (Nat.le_of_lt hlen), List.singleton_append]
  have := parse_stream_loop_insert junk l (scan_lines post) (skippable_not_significant l h)
    (scan_lines pre) 1 (init_parser_ctx uninit_ctx) list
  rw [Nat.add_comm 1 _] at this
  exact this

/-- With the same contents of the arrays at every line, both drivers give the same verdict
on a text and on the text without its skippable lines, when these have fewer than 511
characters. -/
theorem drivers_filter (j : List Char × List Char) (line0 : List Char) (list : gamelist_t) :
    ∀ (ls pre : List (List Char)), (∀ x ∈ pre, LF ∉ x) →
      (∀ x ∈ ls, LF ∉ x ∧ (skippable x = true → x.length < LINE_MAX)) →
      verdict (parse_stream (fun _ => j) list (stream_of (unlines (pre ++ ls)))) =
        verdict (parse_stream (fun _ => j) list
          (stream_of (unlines (pre ++ ls.filter (fun x => !skippable x))))) ∧
      verdict (parse_buf (fun _ => j) line0 list (unlines (pre ++ ls))) =
        verdict (parse_buf (fun _ => j) line0 list
          (unlines (pre ++ ls.filter (fun x => !skippable x)))) := by
  intro ls
  induction ls with
  | nil => intro pre _ _; exact ⟨rfl, rfl⟩
  | cons x ls ih =>
    intro pre hpre hls
    have hx := hls x (List.mem_cons_self _ _)
    have hrest : ∀ y ∈ ls, LF ∉ y ∧ (skippable y = true → y.length < LINE_MAX) :=
      fun y hy => hls y (List.mem_cons_of_mem _ hy)
    cases hk : skippable x with
    | true =>
      have hf : (x :: ls).filter (fun x => !skippable x) =
          ls.filter (fun x => !skippable x) := by
        simp [List.filter_cons, hk]
      rw [hf, parse_stream_insert _ list pre x ls hk hx.1 (hx.2 hk) hpre,
        parse_buf_insert _ line0 list pre x ls hk hx.1 (hx.2 hk) hpre
          (fun y hy => (hrest y hy).1),
        verdict_bump, verdict_bump, unshift_const, unshift_const]
      exact ih pre hpre hrest
    | false =>
      have hf : (x :: ls).filter (fun x => !skippable x) =
          x :: ls.filter (fun x => !skippable x) := by
        simp [List.filter_cons, hk]
      have hp : ∀ y ∈ pre ++ [x], LF ∉ y := by
        intro y hy
        rcases List.mem_append.1 hy with hm | hm
        · exact hpre y hm
        · rw [List.mem_singleton] at hm
          rw [hm]; exact hx.1
      have := ih (pre ++ [x]) hp hrest
      rw [List.append_assoc, List.append_assoc, List.singleton_append,
        List.singleton_append] at this
      rw [hf]
      exact this

/-- Claim C17, amended, for inserted lines of fewer than 511 characters, each ended by a
line feed: a blank line, a white-space line or a comment line gives no token and leaves the
state of the loop as it is; inserted at any position of an input, it changes neither the
value returned nor the collection nor the error text, whatever the length of the other
lines: for `parse_stream` whatever text follows it, for `parse_buf` when a line feed ends
every line; a stored error line after it moves down by one.  With the same array contents
at every line, a text and the text without its skippable lines have the same verdict. -/
theorem skipped_lines_insert (junk : Nat → List Char × List Char) (line0 : List Char)
    (list : gamelist_t) (pre : List (List Char)) (l : List Char) (post : List (List Char))
    (h : skippable l = true) (hl : LF ∉ l) (hlen : l.length < LINE_MAX)
    (hpre : ∀ x ∈ pre, LF ∉ x) (hpost : ∀ x ∈ post, LF ∉ x) :
    tokens [l] = [] ∧
    tokens (pre ++ l :: post) = tokens (pre ++ post) ∧
    (∀ (stream : List (List Char)) (nl : Nat) (ctx : parser_ctx_t) (list1 : gamelist_t),
      parse_stream_loop junk (l :: stream) nl ctx list1 =
        parse_stream_loop junk stream (nl + 1) ctx list1) ∧
    (∀ rest : List Char,
      parse_stream junk list (stream_of (unlines (pre ++ [l]) ++ rest)) =
        bump ((stream_of (unlines pre)).length + 1)
          (parse_stream (unshift junk ((stream_of (unlines pre)).length + 1)) list
            (stream_of (unlines pre ++ rest))) ∧
      verdict (parse_stream junk list (stream_of (unlines (pre ++ [l]) ++ rest))) =
        verdict (parse_stream (unshift junk ((stream_of (unlines pre)).length + 1)) list
          (stream_of (unlines pre ++ rest)))) ∧
    parse_buf junk line0 list (unlines (pre ++ l :: post)) =
      bump ((scan_lines pre).length + 1)
        (parse_buf (unshift junk ((scan_lines pre).length + 1)) line0 list
          (unlines (pre ++ post))) ∧
    verdict (parse_buf junk line0 list (unlines (pre ++ l :: post))) =
      verdict (parse_buf (unshift junk ((scan_lines pre).length + 1)) line0 list
        (unlines (pre ++ post))) ∧
    (short_lines pre →
      (stream_of (unlines pre)).length = pre.length ∧ (scan_lines pre).length = pre.length) ∧
    (∀ (j : List Char × List Char) (ls : List (List Char)),
      (∀ x ∈ ls, LF ∉ x ∧ (skippable x = true → x.length < LINE_MAX)) →
      verdict (parse_stream (fun _ => j) list (stream_of (unlines ls))) =
        verdict (parse_stream (fun _ => j) list
          (stream_of (unlines (ls.filter (fun x => !skippable x))))) ∧
      verdict (parse_buf (fun _ => j) line0 list (unlines ls)) =
        verdict (parse_buf (fun _ => j) line0 list
          (unlines (ls.filter (fun x => !skippable x))))) := by
  have hsig := skippable_not_significant l h
  have hs := fun rest => parse_stream_insert_rest junk list pre l rest h hl hlen hpre
  have hb := parse_buf_insert junk line0 list pre l post h hl hlen hpre hpost
  refine ⟨?_, ?_, ?_, ?_, hb, ?_, ?_, ?_⟩
  · simp [tokens, hsig]
  · simp [tokens, List.filter_append, List.filter_cons, hsig]
  · intro stream nl ctx list1
    exact parse_stream_loop_skip junk stream nl ctx list1 hsig
  · intro rest
    exact ⟨hs rest, by rw [hs rest, verdict_bump]⟩
  · rw [hb, verdict_bump]
  · intro hp
    have h1 := stream_of_unlines [] pre hp
    rw [List.append_nil, stream_of_nil, List.append_nil] at h1
    rw [h1, scan_lines_short pre (short_lines_raw hp), List.length_map]
    exact ⟨rfl, rfl⟩
  · intro j ls hls
    exact drivers_filter j line0 list ls [] (fun _ hx => absurd hx (List.not_mem_nil _)) hls

theorem skipped_lines_insert_witness :
    parse_buf (fun _ => ([], [])) [] []
        (unlines ([[DQUOTE, 'G', DQUOTE]] ++ "  // note".toList :: [['D']])) =
      bump ((scan_lines [[DQUOTE, 'G', DQUOTE]]).length + 1)
        (parse_buf (unshift (fun _ => ([], [])) ((scan_lines [[DQUOTE, 'G', DQUOTE]]).length + 1))
          [] [] (unlines ([[DQUOTE, 'G', DQUOTE]] ++ [['D']]))) :=
  (skipped_lines_insert (fun _ => ([], [])) [] [] [[DQUOTE, 'G', DQUOTE]] "  // note".toList
    [['D']] (by decide) (by decide) (by decide) (by decide) (by decide)).2.2.2.2.1

/-- Claim C17 as stated fails: the comment line of 515 characters is skippable; the text of
the one line Desc is rejected at line 1 by both drivers with an empty list; with the comment
line inserted before it, both drivers return 0 with the game H, read from the end of the
comment line, and its cheat Desc.  In a text without a last line feed a short comment line
changes the result too: on the title G and the line AB CDEF `parse_buf` returns 0 with the
cheats AB and DE, and with the line // c inserted between them, with the game G alone. -/
theorem skipped_lines_insert_counterexample :
    (¬ ∀ (l : List Char) (pre post : List (List Char)), skippable l = true → LF ∉ l →
      verdict (parse_stream (fun _ => ([], [])) [] (stream_of (unlines (pre ++ l :: post)))) =
        verdict (parse_stream (fun _ => ([], [])) [] (stream_of (unlines (pre ++ post))))) ∧
    (¬ ∀ (l : List Char) (pre post : List (List Char)), skippable l = true → LF ∉ l →
      verdict (parse_buf (fun _ => ([], [])) [] [] (unlines (pre ++ l :: post))) =
        verdict (parse_buf (fun _ => ([], [])) [] [] (unlines (pre ++ post)))) ∧
    skippable long_line = true ∧ LF ∉ long_line ∧ LINE_MAX < long_line.length ∧
    long_input_desc = [] ++ long_line :: ["Desc".toList] ∧
    parse_stream (fun _ => ([], [])) [] (stream_of (unlines ([] ++ ["Desc".toList]))) =
      .done (-1) (init_parser_ctx uninit_ctx) []
        (some { line := 1, text := "parse error: cheat description invalid here" }) ∧
    parse_buf (fun _ => ([], [])) [] [] (unlines ([] ++ ["Desc".toList])) =
      .done (-1) (init_parser_ctx uninit_ctx) []
        (some { line := 1, text := "parse error: cheat description invalid here" }) ∧
    parse_stream (fun _ => ([], [])) [] (stream_of (unlines long_input_desc)) =
      .done 0 { top := 0, next := 7, game := some 0, cheat := some (0, 0), code := none }
        [{ title := ['H'], cheats := [{ desc := "Desc".toList, codes := [], tag := 0 }],
           tag := 0 }] none ∧
    parse_buf (fun _ => ([], [])) [] [] (unlines long_input_desc) =
      .done 0 { top := 0, next := 7, game := some 0, cheat := some (0, 0), code := none }
        [{ title := ['H'], cheats := [{ desc := "Desc".toList, codes := [], tag := 0 }],
           tag := 0 }] none ∧
    parse_buf (fun _ => ([], [])) [] [] open_code_text =
      .done 0 { top := 0, next := 7, game := some 0, cheat := some (0, 1), code := none }
        [{ title := ['G'],
           cheats := [{ desc := "AB".toList, codes := [], tag := 0 },
                      { desc := "DE".toList, codes := [], tag := 0 }],
           tag := 0 }] none ∧
    open_code_text = unlines [[DQUOTE, 'G', DQUOTE]] ++ "AB CDEF".toList ∧
    skippable "// c".toList = true ∧
    parse_buf (fun _ => ([], [])) [] []
        (unlines [[DQUOTE, 'G', DQUOTE], "// c".toList] ++ "AB CDEF".toList) =
      .done 0 { top := 0, next := 3, game := some 0, cheat := none, code := none }
        [{ title := ['G'], cheats := [], tag := 0 }] none := by
  have hlf : LF ∉ long_line := long_input_raw.1 long_line (by unfold long_input_desc; simp)
  have hs1 : parse_stream (fun _ => ([], [])) [] (stream_of (unlines ([] ++ ["Desc".toList]))) =
      .done (-1) (init_parser_ctx uninit_ctx) []
        (some { line := 1, text := "parse error: cheat description invalid here" }) := by
    decide
  have hb1 : parse_buf (fun _ => ([], [])) [] [] (unlines ([] ++ ["Desc".toList])) =
      .done (-1) (init_parser_ctx uninit_ctx) []
        (some { line := 1, text := "parse error: cheat description invalid here" }) := by
    decide
  refine ⟨?_, ?_, by decide, hlf, long_line_length, rfl, hs1, hb1, long_input_desc_parse.1,
    long_input_desc_parse.2, by decide, by decide, by decide, by decide⟩
  · intro hall
    have h1 := hall long_line [] ["Desc".toList] (by decide) hlf
    have h2 := long_input_desc_parse.1
    unfold long_input_desc at h2
    rw [List.nil_append, h2, hs1] at h1
    simp [verdict] at h1
  · intro hall
    have h1 := hall long_line [] ["Desc".toList] (by decide) hlf
    have h2 := long_input_desc_parse.2
    unfold long_input_desc at h2
    rw [List.nil_append, h2, hb1] at h1
    simp [verdict] at h1

end Libcheats
